import Mathlib

/-!
# Search server: a shallow embedding and its verified properties

The development embeds the in-memory TF-IDF search server (`search_server.h`,
`search_server.cpp`, `string_processing.cpp`, `concurrent_map.h`) into Lean.

* `std::map<K, V>` is an association list kept in ascending key order
  (`OrdMap`), so that iteration order is the order of the list.
* `double` is an arbitrary linearly ordered field `α`; `std::log` is a
  parameter `ln : α → α`.  Instantiating `α := ℝ` and `ln := Real.log` gives
  the reading of the arithmetic over the reals.
* `std::string_view` is a list of characters; a character `c` is the byte
  `c.toNat`.
* A mutating member function returns the outcome (`Except`) together with the
  state the object is left in, also when it throws.
-/

set_option linter.unusedSectionVars false

namespace SearchServerModel

/-! ## Ordered maps (`std::map`, `std::set`) -/

/-- An association list standing for a `std::map`; iteration is list order. -/
abbrev OrdMap (K V : Type) := List (K × V)

namespace OrdMap

variable {K V : Type}

/-- The keys in iteration order. -/
def keys (m : OrdMap K V) : List K := m.map Prod.fst

/-- Lookup, `find` of `std::map`: the value stored under `k`, if any. -/
def find? [DecidableEq K] : OrdMap K V → K → Option V
  | [], _ => none
  | (k', v) :: rest, k => if k = k' then some v else find? rest k

/-- Membership test, `count(k) > 0`. -/
def contains [DecidableEq K] (m : OrdMap K V) (k : K) : Bool := (m.find? k).isSome

/-- Overwrite the value stored under an existing key. -/
def set [DecidableEq K] : OrdMap K V → K → V → OrdMap K V
  | [], _, _ => []
  | (k', v') :: rest, k, v => if k = k' then (k', v) :: rest else (k', v') :: set rest k v

/-- Insert a fresh key at its place in the ascending order. -/
def insertNew [LinearOrder K] : OrdMap K V → K → V → OrdMap K V
  | [], k, v => [(k, v)]
  | (k', v') :: rest, k, v =>
    if k < k' then (k, v) :: (k', v') :: rest else (k', v') :: insertNew rest k v

/-- The access `m[k]` followed by an update of the referenced value: an absent
key is first inserted with the value-initialised `d`. -/
def update [DecidableEq K] [LinearOrder K] (m : OrdMap K V) (k : K) (d : V) (f : V → V) : OrdMap K V :=
  match m.find? k with
  | some v => m.set k (f v)
  | none => m.insertNew k (f d)

/-- Removal of a key, `erase(k)`; a no-op when the key is absent. -/
def erase [DecidableEq K] : OrdMap K V → K → OrdMap K V
  | [], _ => []
  | (k', v') :: rest, k => if k' = k then erase rest k else (k', v') :: erase rest k

end OrdMap

/-- A `std::set<K>`: the ascending list of its elements. -/
abbrev OrdSet (K : Type) := List K

namespace OrdSet

variable {K : Type}

/-- Insertion into a `std::set`; a no-op when the element is present. -/
def insert [DecidableEq K] [LinearOrder K] : OrdSet K → K → OrdSet K
  | [], k => [k]
  | k' :: rest, k =>
    if k < k' then k :: k' :: rest
    else if k = k' then k' :: rest
    else k' :: insert rest k

/-- Removal from a `std::set`. -/
def erase [DecidableEq K] : OrdSet K → K → OrdSet K
  | [], _ => []
  | k' :: rest, k => if k' = k then erase rest k else k' :: erase rest k

end OrdSet

/-! ## Data model -/

/-- A word or text, `std::string_view`. -/
abbrev Word := List Char

/-- The ways a call fails: the exceptions the code raises, the call of
`std::terminate`, and undefined behaviour (a data race, a signed overflow). -/
inductive Error
  | invalid_argument
  | out_of_range
  | terminate
  | undefined
  deriving DecidableEq, Repr

deriving instance DecidableEq for Except

/-- The status of a document, `DocumentStatus` of `document.h`. -/
inductive DocumentStatus
  | ACTUAL
  | IRRELEVANT
  | BANNED
  | REMOVED
  deriving DecidableEq, Repr

/-- The record `SearchServer::DocumentData`. -/
structure DocumentData where
  rating : Int
  status : DocumentStatus
  deriving DecidableEq, Repr

/-- A search result, `Document` of `document.h`. -/
structure Document (α : Type) where
  id : Int
  relevance : α
  rating : Int
  deriving DecidableEq, Repr

/-- The parsed query, `SearchServer::Query`. -/
structure Query where
  plus_words : List Word
  minus_words : List Word
  deriving DecidableEq, Repr

/-- The data members of `SearchServer`. -/
structure SearchServer (α : Type) where
  id_list_ : OrdSet Int
  stop_words_ : OrdSet Word
  documents_texts_ : List Word
  word_to_document_freqs_ : OrdMap Word (OrdMap Int α)
  words_freqs_in_document : OrdMap Int (OrdMap Word α)
  documents_ : OrdMap Int DocumentData
  deriving DecidableEq

/-- The state right after construction with the given stop words. -/
def SearchServer.fresh (α : Type) (stop_words : OrdSet Word) : SearchServer α :=
  { id_list_ := [], stop_words_ := stop_words, documents_texts_ := [],
    word_to_document_freqs_ := [], words_freqs_in_document := [], documents_ := [] }

/-- The constant `MAX_RESULT_DOCUMENT_COUNT`. -/
def MAX_RESULT_DOCUMENT_COUNT : Nat := 5

/-- The constant `DELTA = 1e-6`. -/
def DELTA {α : Type} [LinearOrderedField α] : α := 1 / 1000000

/-! ## Tokenizer (`string_processing.cpp`) -/

/-- The loop of `SplitIntoWords`; the fuel bounds the number of iterations. -/
def splitLoop : Nat → Word → List Word → List Word
  | 0, _, words => words
  | fuel + 1, text_, words =>
    if text_.isEmpty then words
    else
      let word := text_.takeWhile (fun c => c ≠ ' ')
      let text1 := text_.drop (min text_.length word.length)
      let text2 := text1.dropWhile (fun c => c = ' ')
      splitLoop fuel text2 (words ++ [word])

/-- The function `SplitIntoWords`: the loop runs at most once per character. -/
def SplitIntoWords (text : Word) : List Word :=
  splitLoop text.length (text.dropWhile (fun c => c = ' ')) []

/-! ## Member functions (`search_server.cpp`, `search_server.h`) -/

section Server

variable {α : Type} [LinearOrderedField α]

/-- The function `SearchServer::GetDocumentCount`. -/
def GetDocumentCount (s : SearchServer α) : Nat := s.documents_.length

/-- The function `SearchServer::IsValidWord`: no byte in `0x00..0x1F`. -/
def IsValidWord (word : Word) : Bool := !(word.any (fun c => decide (c.toNat < 32)))

/-- The function `SearchServer::IsStopWord`. -/
def IsStopWord (s : SearchServer α) (word : Word) : Bool := decide (word ∈ s.stop_words_)

/-- The function `SearchServer::SplitIntoWordsNoStop`. -/
def SplitIntoWordsNoStop (s : SearchServer α) (text : Word) : List Word :=
  (SplitIntoWords text).filter (fun word => !(IsStopWord s word))

/-- The value an `int` holds after an addition: the two's complement wrap of
the exact result to 32 bits. -/
def wrapInt32 (x : Int) : Int := (x + 2147483648) % 4294967296 - 2147483648

/-- The call `std::accumulate(ratings.begin(), ratings.end(), 0)`, whose
additions are `int` additions. -/
def accumulateInt (ratings : List Int) : Int :=
  ratings.foldl (fun rating_sum rating => wrapInt32 (rating_sum + rating)) 0

/-- The function `SearchServer::ComputeAverageRating`; `Int.tdiv` is the
division of C++, rounding toward zero, and the divisor is
`static_cast<int>(ratings.size())`, the number of ratings wrapped to 32 bits.
A division by zero, undefined in C++, gives 0 here. -/
def ComputeAverageRating (ratings : List Int) : Int :=
  if ratings.isEmpty then 0
  else Int.tdiv (accumulateInt ratings) (wrapInt32 (ratings.length : Int))

/-- One iteration of the indexing loop of `AddDocument`:
`word_to_document_freqs_[word][document_id] += inv_word_count` and
`words_freqs_in_document[document_id][word] += inv_word_count`. -/
def addWord (document_id : Int) (inv_word_count : α) (s : SearchServer α) (word : Word) :
    SearchServer α :=
  { s with
    word_to_document_freqs_ :=
      s.word_to_document_freqs_.update word []
        (fun inner => inner.update document_id 0 (fun v => v + inv_word_count)),
    words_freqs_in_document :=
      s.words_freqs_in_document.update document_id []
        (fun inner => inner.update word 0 (fun v => v + inv_word_count)) }

/-- The function `SearchServer::AddDocument`: the outcome and the state left. -/
def AddDocument (s : SearchServer α) (document_id : Int) (document : Word)
    (status : DocumentStatus) (ratings : List Int) : Except Error Unit × SearchServer α :=
  if document_id < 0 then (.error .invalid_argument, s)
  else if !(IsValidWord document) then (.error .invalid_argument, s)
  else if s.documents_.contains document_id then (.error .invalid_argument, s)
  else
    let s1 := { s with documents_texts_ := s.documents_texts_ ++ [document] }
    let words := SplitIntoWordsNoStop s1 document
    let inv_word_count : α := 1 / (words.length : α)
    let s2 := words.foldl (addWord document_id inv_word_count) s1
    let s3 := { s2 with
      documents_ := s2.documents_.update document_id
        { rating := ComputeAverageRating ratings, status := status } (fun d => d) }
    (.ok (), { s3 with id_list_ := s3.id_list_.insert document_id })

/-- The loop `word_to_document_freqs_.at(word).erase(document_id)` over the
given words; `at` throws when the word is missing. -/
def eraseFromWords (document_id : Int) :
    List Word → OrdMap Word (OrdMap Int α) → Except Error Unit × OrdMap Word (OrdMap Int α)
  | [], inv => (.ok (), inv)
  | word :: rest, inv =>
    match inv.find? word with
    | none => (.error .out_of_range, inv)
    | some inner => eraseFromWords document_id rest (inv.set word (inner.erase document_id))

/-- The sequential `SearchServer::RemoveDocument(int)`. -/
def RemoveDocument (s : SearchServer α) (document_id : Int) :
    Except Error Unit × SearchServer α :=
  let s1 := { s with documents_ := s.documents_.erase document_id }
  match s1.words_freqs_in_document.find? document_id with
  | none => (.error .out_of_range, s1)
  | some words_freqs =>
    match eraseFromWords document_id words_freqs.keys s1.word_to_document_freqs_ with
    | (.error e, inv) => (.error e, { s1 with word_to_document_freqs_ := inv })
    | (.ok (), inv) =>
      let s2 := { s1 with word_to_document_freqs_ := inv }
      let s3 := { s2 with words_freqs_in_document := s2.words_freqs_in_document.erase document_id }
      (.ok (), { s3 with id_list_ := s3.id_list_.erase document_id })

/-- The parallel `SearchServer::RemoveDocument(policy, int)`.  The parallel
`for_each` visits the collected words in the order `sched` puts them in; an
exception escaping a parallel algorithm terminates the program. -/
def RemoveDocumentPar (sched : List Word → List Word) (s : SearchServer α) (document_id : Int) :
    Except Error Unit × SearchServer α :=
  let s1 := { s with documents_ := s.documents_.erase document_id }
  let r :=
    match s1.words_freqs_in_document.find? document_id with
    | some words_freqs =>
      let words_to_delete := words_freqs.keys
      eraseFromWords document_id (sched words_to_delete) s1.word_to_document_freqs_
    | none => (.ok (), s1.word_to_document_freqs_)
  match r with
  | (.error _, inv) => (.error .terminate, { s1 with word_to_document_freqs_ := inv })
  | (.ok (), inv) =>
    let s2 := { s1 with word_to_document_freqs_ := inv }
    let s3 := { s2 with words_freqs_in_document := s2.words_freqs_in_document.erase document_id }
    (.ok (), { s3 with id_list_ := s3.id_list_.erase document_id })

/-- The function `SearchServer::GetWordFrequencies`. -/
def GetWordFrequencies (s : SearchServer α) (document_id : Int) : OrdMap Word α :=
  match s.words_freqs_in_document.find? document_id with
  | none => []
  | some m => m

/-- The record `SearchServer::QueryWord`. -/
structure QueryWord where
  data : Word
  is_minus : Bool
  is_stop : Bool
  deriving DecidableEq, Repr

/-- The function `SearchServer::ParseQueryWord`; `text[0]` of an empty view
compares unequal to the minus sign, and the emptiness test then throws. -/
def ParseQueryWord (s : SearchServer α) (text : Word) : Except Error QueryWord :=
  let is_minus : Bool := decide (text.head? = some '-')
  let text := if is_minus then text.drop 1 else text
  if decide (text.head? = some '-') || text.isEmpty then .error .invalid_argument
  else .ok { data := text, is_minus := is_minus, is_stop := IsStopWord s text }

/-- The loop of `ParseQuery(parallel_policy, text)` over the split words. -/
def parseLoop (s : SearchServer α) : List Word → Query → Except Error Query
  | [], query => .ok query
  | word :: rest, query =>
    match ParseQueryWord s word with
    | .error e => .error e
    | .ok query_word =>
      if !query_word.is_stop then
        if query_word.is_minus then
          parseLoop s rest { query with minus_words := query.minus_words ++ [query_word.data] }
        else
          parseLoop s rest { query with plus_words := query.plus_words ++ [query_word.data] }
      else parseLoop s rest query

/-- The overload `SearchServer::ParseQuery(parallel_policy, text)`. -/
def ParseQueryPar (s : SearchServer α) (text : Word) : Except Error Query :=
  if !(IsValidWord text) then .error .invalid_argument
  else parseLoop s (SplitIntoWords text) { plus_words := [], minus_words := [] }

/-- The algorithm `std::unique` followed by `erase`: one element of every run
of equal neighbours stays. -/
def unique {β : Type} [DecidableEq β] : List β → List β
  | [] => []
  | [x] => [x]
  | x :: y :: rest => if x = y then unique (y :: rest) else x :: unique (y :: rest)

/-- The algorithm `std::sort` on words, in ascending lexicographic order. -/
def sortWords (words : List Word) : List Word := words.insertionSort (fun a b => a ≤ b)

/-- The overload `SearchServer::ParseQuery(text)`. -/
def ParseQuery (s : SearchServer α) (text : Word) : Except Error Query :=
  match ParseQueryPar s text with
  | .error e => .error e
  | .ok query =>
    .ok { plus_words := unique (sortWords query.plus_words),
          minus_words := unique (sortWords query.minus_words) }

/-- The type of the caller's predicate on `(document_id, status, rating)`. -/
abbrev DocumentPredicate := Int → DocumentStatus → Int → Bool

/-- The function `SearchServer::ComputeWordInverseDocumentFreq`, given the
entry `word_to_document_freqs_.at(word)`. -/
def ComputeWordInverseDocumentFreq (ln : α → α) (s : SearchServer α) (entry : OrdMap Int α) : α :=
  ln ((GetDocumentCount s : α) / (entry.length : α))

/-- The inner loop of the plus-word phase of `FindAllDocuments`:
`document_to_relevance[document_id] += term_freq * inverse_document_freq` for
the accepted documents; `documents_.at` throws on a missing id. -/
def plusInner (s : SearchServer α) (pred : DocumentPredicate) (inverse_document_freq : α) :
    List (Int × α) → OrdMap Int α → Except Error (OrdMap Int α)
  | [], acc => .ok acc
  | (document_id, term_freq) :: rest, acc =>
    match s.documents_.find? document_id with
    | none => .error .out_of_range
    | some document_data =>
      if pred document_id document_data.status document_data.rating then
        plusInner s pred inverse_document_freq rest
          (acc.update document_id 0 (fun v => v + term_freq * inverse_document_freq))
      else plusInner s pred inverse_document_freq rest acc

/-- The plus-word phase of the sequential `FindAllDocuments`. -/
def plusLoop (ln : α → α) (s : SearchServer α) (pred : DocumentPredicate) :
    List Word → OrdMap Int α → Except Error (OrdMap Int α)
  | [], acc => .ok acc
  | word :: rest, acc =>
    match s.word_to_document_freqs_.find? word with
    | none => plusLoop ln s pred rest acc
    | some entry =>
      match plusInner s pred (ComputeWordInverseDocumentFreq ln s entry) entry acc with
      | .error e => .error e
      | .ok acc1 => plusLoop ln s pred rest acc1

/-- The minus-word phase of the sequential `FindAllDocuments`. -/
def minusLoop (s : SearchServer α) : List Word → OrdMap Int α → OrdMap Int α
  | [], acc => acc
  | word :: rest, acc =>
    match s.word_to_document_freqs_.find? word with
    | none => minusLoop s rest acc
    | some entry => minusLoop s rest (entry.keys.foldl (fun a document_id => a.erase document_id) acc)

/-- The final loop of `FindAllDocuments`: one `Document` per accumulator entry. -/
def emitDocuments (s : SearchServer α) : List (Int × α) → Except Error (List (Document α))
  | [] => .ok []
  | (document_id, relevance) :: rest =>
    match s.documents_.find? document_id with
    | none => .error .out_of_range
    | some document_data =>
      match emitDocuments s rest with
      | .error e => .error e
      | .ok docs => .ok ({ id := document_id, relevance := relevance,
                           rating := document_data.rating } :: docs)

/-- The generic-policy (sequential) `SearchServer::FindAllDocuments`. -/
def FindAllDocuments (ln : α → α) (s : SearchServer α) (query : Query)
    (pred : DocumentPredicate) : Except Error (List (Document α)) :=
  match plusLoop ln s pred query.plus_words [] with
  | .error e => .error e
  | .ok acc => emitDocuments s (minusLoop s query.minus_words acc)

/-- The comparator passed to `std::sort` in `FindTopDocuments`. -/
def docLess (lhs rhs : Document α) : Bool :=
  if |lhs.relevance - rhs.relevance| < DELTA then decide (lhs.rating > rhs.rating)
  else decide (lhs.relevance > rhs.relevance)

/-- The algorithm `std::sort` with the comparator `docLess`, modelled as the
stable insertion sort: an element goes in front of the first element that
does not precede it. -/
def sortDocuments (docs : List (Document α)) : List (Document α) :=
  docs.insertionSort (fun a b => docLess b a = false)

/-- The tail of `FindTopDocuments`: sort, then `resize` when too long. -/
def sortAndTruncate (matched_documents : List (Document α)) : List (Document α) :=
  let sorted := sortDocuments matched_documents
  if sorted.length > MAX_RESULT_DOCUMENT_COUNT then sorted.take MAX_RESULT_DOCUMENT_COUNT
  else sorted

/-- The function `SearchServer::FindTopDocuments` with the sequential policy. -/
def FindTopDocuments (ln : α → α) (s : SearchServer α) (raw_query : Word)
    (pred : DocumentPredicate) : Except Error (List (Document α)) :=
  match ParseQuery s raw_query with
  | .error e => .error e
  | .ok query =>
    match FindAllDocuments ln s query pred with
    | .error e => .error e
    | .ok matched_documents => .ok (sortAndTruncate matched_documents)

/-- The overload `FindTopDocuments(policy, raw_query, status)` with the
sequential policy: the predicate compares the stored status. -/
def FindTopDocumentsStatus (ln : α → α) (s : SearchServer α) (raw_query : Word)
    (status : DocumentStatus) : Except Error (List (Document α)) :=
  FindTopDocuments ln s raw_query (fun _ document_status _ => decide (document_status = status))

/-- The overload `FindTopDocuments(raw_query)`: the status is `ACTUAL`. -/
def FindTopDocumentsDefault (ln : α → α) (s : SearchServer α) (raw_query : Word) :
    Except Error (List (Document α)) :=
  FindTopDocumentsStatus ln s raw_query .ACTUAL

/-- The loop of the sequential `MatchDocument` over the minus words: whether
some minus word that the index knows has the document in its entry. -/
def matchMinusLoop (s : SearchServer α) (document_id : Int) : List Word → Bool
  | [] => false
  | word :: rest =>
    match s.word_to_document_freqs_.find? word with
    | none => matchMinusLoop s document_id rest
    | some entry =>
      if entry.contains document_id then true else matchMinusLoop s document_id rest

/-- The loop of the sequential `MatchDocument` over the plus words. -/
def matchPlusLoop (s : SearchServer α) (document_id : Int) :
    List Word → List Word → List Word
  | [], matched_words => matched_words
  | word :: rest, matched_words =>
    match s.word_to_document_freqs_.find? word with
    | none => matchPlusLoop s document_id rest matched_words
    | some entry =>
      if entry.contains document_id then
        matchPlusLoop s document_id rest (matched_words ++ [word])
      else matchPlusLoop s document_id rest matched_words

/-- The sequential `SearchServer::MatchDocument(raw_query, document_id)`;
`documents_.at` throws when the id has no record. -/
def MatchDocument (s : SearchServer α) (raw_query : Word) (document_id : Int) :
    Except Error (List Word × DocumentStatus) :=
  match ParseQuery s raw_query with
  | .error e => .error e
  | .ok query =>
    if matchMinusLoop s document_id query.minus_words then
      match s.documents_.find? document_id with
      | none => .error .out_of_range
      | some document_data => .ok ([], document_data.status)
    else
      let matched_words := matchPlusLoop s document_id query.plus_words []
      match s.documents_.find? document_id with
      | none => .error .out_of_range
      | some document_data => .ok (matched_words, document_data.status)

/-- The lambda `word_to_document_freqs_.at(word).count(document_id) > 0` of
the parallel `MatchDocument`; `at` throws when the index lacks the word. -/
def wordInDocumentAt (s : SearchServer α) (document_id : Int) (word : Word) :
    Except Error Bool :=
  match s.word_to_document_freqs_.find? word with
  | none => .error .out_of_range
  | some entry => .ok (entry.contains document_id)

/-- The call `std::any_of(std::execution::par, ...)` of the parallel
`MatchDocument`: the predicate is evaluated on every word, and an exception
escaping a parallel algorithm terminates the program. -/
def anyOfPar (s : SearchServer α) (document_id : Int) : List Word → Except Error Bool
  | [] => .ok false
  | word :: rest =>
    match wordInDocumentAt s document_id word with
    | .error _ => .error .terminate
    | .ok hit =>
      match anyOfPar s document_id rest with
      | .error e => .error e
      | .ok hits => .ok (hit || hits)

/-- The call `std::copy_if(std::execution::par, ...)` of the parallel
`MatchDocument`, which keeps the relative order of the copied words. -/
def copyIfPar (s : SearchServer α) (document_id : Int) : List Word → Except Error (List Word)
  | [] => .ok []
  | word :: rest =>
    match wordInDocumentAt s document_id word with
    | .error _ => .error .terminate
    | .ok hit =>
      match copyIfPar s document_id rest with
      | .error e => .error e
      | .ok copied => .ok (if hit then word :: copied else copied)

/-- The overload `SearchServer::MatchDocument(parallel_policy, raw_query,
document_id)`. -/
def MatchDocumentPar (s : SearchServer α) (raw_query : Word) (document_id : Int) :
    Except Error (List Word × DocumentStatus) :=
  match ParseQueryPar s raw_query with
  | .error e => .error e
  | .ok query =>
    match anyOfPar s document_id query.minus_words with
    | .error e => .error e
    | .ok true =>
      match s.documents_.find? document_id with
      | none => .error .out_of_range
      | some document_data => .ok ([], document_data.status)
    | .ok false =>
      match copyIfPar s document_id query.plus_words with
      | .error e => .error e
      | .ok copied =>
        let matched_words := unique (sortWords copied)
        match s.documents_.find? document_id with
        | none => .error .out_of_range
        | some document_data => .ok (matched_words, document_data.status)

/-! ## Sharded accumulator (`concurrent_map.h`) and the parallel search -/

/-- The class `ConcurrentMap<int, double>`: the vector of bucket maps. -/
structure ConcurrentMap (α : Type) where
  buckets_ : List (OrdMap Int α)
  deriving DecidableEq

/-- The constructor `ConcurrentMap(bucket_count)`. -/
def ConcurrentMap.create (α : Type) (bucket_count : Nat) : ConcurrentMap α :=
  { buckets_ := List.replicate bucket_count [] }

/-- The bucket of a key: `static_cast<uint64_t>(key) % buckets_.size()`. -/
def bucketIndex (key : Int) (bucket_count : Nat) : Nat :=
  (key % 18446744073709551616).toNat % bucket_count

/-- Apply `f` to the bucket map of `key`. -/
def ConcurrentMap.onBucket (cm : ConcurrentMap α) (key : Int)
    (f : OrdMap Int α → OrdMap Int α) : ConcurrentMap α :=
  let i := bucketIndex key cm.buckets_.length
  match cm.buckets_[i]? with
  | none => cm
  | some bucket => { buckets_ := cm.buckets_.set i (f bucket) }

/-- The statement `cm[key].ref_to_value += value`. -/
def ConcurrentMap.add (cm : ConcurrentMap α) (key : Int) (value : α) : ConcurrentMap α :=
  cm.onBucket key (fun m => m.update key 0 (fun v => v + value))

/-- The function `ConcurrentMap::Erase`. -/
def ConcurrentMap.Erase (cm : ConcurrentMap α) (key : Int) : ConcurrentMap α :=
  cm.onBucket key (fun m => m.erase key)

/-- The range insertion `flat_map.insert(map.begin(), map.end())`: a key that
is already present keeps its value. -/
def insertRange (flat_map : OrdMap Int α) (map : OrdMap Int α) : OrdMap Int α :=
  map.foldl (fun acc p => if acc.contains p.1 then acc else acc.insertNew p.1 p.2) flat_map

/-- The function `ConcurrentMap::BuildOrdinaryMap`. -/
def ConcurrentMap.BuildOrdinaryMap (cm : ConcurrentMap α) : OrdMap Int α :=
  cm.buckets_.foldl insertRange []

/-- One statement executed on the accumulator: `cm[key].ref_to_value += value`
or `cm.Erase(key)`. -/
inductive MapOp (α : Type) where
  | add (key : Int) (value : α)
  | erase (key : Int)

/-- The accumulator after one statement. -/
def ConcurrentMap.run (cm : ConcurrentMap α) : MapOp α → ConcurrentMap α
  | .add key value => cm.add key value
  | .erase key => cm.Erase key

/-- The constant `THREAD_COUNT` of the parallel `FindAllDocuments`. -/
def THREAD_COUNT : Nat := 64

/-- The accumulator updates `(document_id, term_freq * inverse_document_freq)`
that the lambda `PlusWordFreqs` performs for one plus word, in order. -/
def plusOpsInner (s : SearchServer α) (pred : DocumentPredicate) (inverse_document_freq : α) :
    List (Int × α) → Except Error (List (Int × α))
  | [] => .ok []
  | (document_id, term_freq) :: rest =>
    match s.documents_.find? document_id with
    | none => .error .out_of_range
    | some document_data =>
      match plusOpsInner s pred inverse_document_freq rest with
      | .error e => .error e
      | .ok ops =>
        if pred document_id document_data.status document_data.rating then
          .ok ((document_id, term_freq * inverse_document_freq) :: ops)
        else .ok ops

/-- The lambda `PlusWordFreqs` of the parallel `FindAllDocuments`. -/
def PlusWordFreqs (ln : α → α) (s : SearchServer α) (pred : DocumentPredicate) (word : Word) :
    Except Error (List (Int × α)) :=
  match s.word_to_document_freqs_.find? word with
  | none => .ok []
  | some entry => plusOpsInner s pred (ComputeWordInverseDocumentFreq ln s entry) entry

/-- All accumulator updates of the plus-word phase, worker after worker. -/
def plusOps (ln : α → α) (s : SearchServer α) (pred : DocumentPredicate) :
    List Word → Except Error (List (Int × α))
  | [] => .ok []
  | word :: rest =>
    match PlusWordFreqs ln s pred word with
    | .error e => .error e
    | .ok ops =>
      match plusOps ln s pred rest with
      | .error e => .error e
      | .ok ops1 => .ok (ops ++ ops1)

/-- All `Erase` calls of the minus-word phase, worker after worker. -/
def minusOps (s : SearchServer α) : List Word → List Int
  | [] => []
  | word :: rest =>
    match s.word_to_document_freqs_.find? word with
    | none => minusOps s rest
    | some entry => entry.keys ++ minusOps s rest

/-- The final `std::transform` of the parallel `FindAllDocuments`. -/
def transformDocuments (s : SearchServer α) : List (Int × α) → Except Error (List (Document α))
  | [] => .ok []
  | (document_id, relevance) :: rest =>
    match s.documents_.find? document_id with
    | none => .error .terminate
    | some document_data =>
      match transformDocuments s rest with
      | .error e => .error e
      | .ok docs => .ok ({ id := document_id, relevance := relevance,
                           rating := document_data.rating } :: docs)

/-- The buckets of the accumulator in which the worker of a minus word calls
`Erase`. -/
def eraseBuckets (s : SearchServer α) (word : Word) : List Nat :=
  match s.word_to_document_freqs_.find? word with
  | none => []
  | some entry => entry.keys.map (fun document_id => bucketIndex document_id THREAD_COUNT)

/-- Two workers of the second `for_each` call `Erase` on one bucket. `Erase`
takes no lock, so the two calls are a data race on the `std::map` of the
bucket. -/
def eraseRace (s : SearchServer α) : List Word → Bool
  | [] => false
  | word :: rest =>
    rest.any (fun other =>
      (eraseBuckets s word).any (fun bucket => decide (bucket ∈ eraseBuckets s other)))
    || eraseRace s rest

/-- The overload `SearchServer::FindAllDocuments(parallel_policy, ...)`.  The
workers of the first `for_each` perform their accumulator updates, each under
the lock of its bucket, in the interleaving `sched_plus`; the second phase
starts when the first is over. The behaviour is undefined when two workers of
the second `for_each` race on a bucket; otherwise their erasures touch
different buckets and come in the interleaving `sched_minus`. An exception
escaping a parallel algorithm terminates the program. -/
def FindAllDocumentsPar (sched_plus : List (Int × α) → List (Int × α))
    (sched_minus : List Int → List Int) (ln : α → α) (s : SearchServer α) (query : Query)
    (pred : DocumentPredicate) : Except Error (List (Document α)) :=
  match plusOps ln s pred query.plus_words with
  | .error _ => .error .terminate
  | .ok ops =>
    if eraseRace s query.minus_words then .error .undefined
    else
      let cm1 := (sched_plus ops).foldl (fun cm op => cm.add op.1 op.2)
        (ConcurrentMap.create α THREAD_COUNT)
      let cm2 := (sched_minus (minusOps s query.minus_words)).foldl
        (fun cm document_id => cm.Erase document_id) cm1
      transformDocuments s cm2.BuildOrdinaryMap

/-- The function `SearchServer::FindTopDocuments` with the parallel policy. -/
def FindTopDocumentsPar (sched_plus : List (Int × α) → List (Int × α))
    (sched_minus : List Int → List Int) (ln : α → α) (s : SearchServer α) (raw_query : Word)
    (pred : DocumentPredicate) : Except Error (List (Document α)) :=
  match ParseQuery s raw_query with
  | .error e => .error e
  | .ok query =>
    match FindAllDocumentsPar sched_plus sched_minus ln s query pred with
    | .error e => .error e
    | .ok matched_documents => .ok (sortAndTruncate matched_documents)

/-- The states a server goes through: construction, then any calls of
`AddDocument` and of the two `RemoveDocument` overloads, whatever their
outcome; a parallel removal visits its words in any order. -/
inductive Reachable : SearchServer α → Prop
  | init (stop_words : OrdSet Word) : Reachable (SearchServer.fresh α stop_words)
  | add {s : SearchServer α} (document_id : Int) (document : Word) (status : DocumentStatus)
      (ratings : List Int) :
      Reachable s → Reachable (AddDocument s document_id document status ratings).2
  | remove {s : SearchServer α} (document_id : Int) :
      Reachable s → Reachable (RemoveDocument s document_id).2
  | removePar {s : SearchServer α} (sched : List Word → List Word) (document_id : Int) :
      (∀ l, (sched l).Perm l) → Reachable s → Reachable (RemoveDocumentPar sched s document_id).2

end Server

/-! ## Paginator (`paginator.h`) -/

/-- The conversion of an `int` to `size_t`, an unsigned integer of 64 bits. -/
def toSizeT (x : Int) : Nat := (x % 18446744073709551616).toNat

/-- The class `IteratorRange`; an iterator is the position in the sequence it
points to, `begin` being 0 and `end` the length. -/
structure IteratorRange where
  begin_ : Nat
  end_ : Nat
  deriving DecidableEq, Repr

/-- The function `IteratorRange::size`, `std::distance(begin_, end_)`. -/
def IteratorRange.size (r : IteratorRange) : Nat := r.end_ - r.begin_

/-- The loop of the constructor of `Paginator` over a sequence of `distance`
elements. The counter `i` is an `int`, converted to `size_t` where it meets
one; the product `page_size * i` is computed in `size_t`. The increment `++i`
of a counter that holds `INT_MAX` is a signed overflow, which is undefined
behaviour. The fuel bounds the number of iterations. -/
def paginatorLoop (distance page_size size_ : Nat) :
    Nat → Int → List IteratorRange → Except Error (List IteratorRange)
  | 0, _, pages => .ok pages
  | fuel + 1, i, pages =>
    if toSizeT i < size_ then
      let currentBegin := (page_size * toSizeT i) % 18446744073709551616
      let currentEnd := if toSizeT i = size_ - 1 then distance else currentBegin + page_size
      if i = 2147483647 then .error .undefined
      else
        paginatorLoop distance page_size size_ fuel (i + 1)
          (pages ++ [{ begin_ := currentBegin, end_ := currentEnd }])
    else .ok pages

/-- The constructor `Paginator(begin, end, page_size)` for a sequence of
`distance` elements; the result is the vector `pages`. The loop runs at most
`size_` times. -/
def Paginator (distance page_size : Nat) : Except Error (List IteratorRange) :=
  let size_ := distance / page_size + (if distance % page_size ≠ 0 then 1 else 0)
  paginatorLoop distance page_size size_ size_ 0 []

/-- The function `Paginate(c, page_size)`. -/
def Paginate {β : Type} (c : List β) (page_size : Nat) : Except Error (List IteratorRange) :=
  Paginator c.length page_size

/-! ## Request queue (`request_queue.h`) -/

section Queue

variable {α : Type} [LinearOrderedField α]

/-- The record `RequestQueue::QueryResult`. -/
structure QueryResult (α : Type) where
  matched_documents : List (Document α)
  documents_count : Int

/-- The data members of `RequestQueue`, the reference to the server apart:
that server is an argument of every call. -/
structure RequestQueue (α : Type) where
  requests_ : List (QueryResult α)
  current_time : Int
  no_answer_requests : Int

/-- The constant `min_in_day_`. -/
def min_in_day_ : Int := 1440

/-- The constructor of `RequestQueue`. -/
def RequestQueue.create (α : Type) : RequestQueue α :=
  { requests_ := [], current_time := 0, no_answer_requests := 0 }

/-- The function `RequestQueue::GetNoResultRequests`. -/
def RequestQueue.GetNoResultRequests (q : RequestQueue α) : Int := q.no_answer_requests

/-- The template `RequestQueue::AddFindRequest(raw_query, document_predicate)`
on the server state `s` of the time of the call; the state of the queue is
returned also when `FindTopDocuments` throws. The `int` members are
incremented and decremented with wrap-around at 32 bits, and the size of the
result is cast to `int`. `front()` of an empty deque is undefined: the model
leaves the deque as it is. -/
def RequestQueue.AddFindRequest (ln : α → α) (s : SearchServer α) (q : RequestQueue α)
    (raw_query : Word) (document_predicate : DocumentPredicate) :
    Except Error (List (Document α)) × RequestQueue α :=
  let current_time := wrapInt32 (q.current_time + 1)
  let popped : List (QueryResult α) × Int :=
    if current_time > min_in_day_ then
      match q.requests_ with
      | [] => (q.requests_, q.no_answer_requests)
      | front :: rest =>
        (rest, if front.documents_count = 0 then wrapInt32 (q.no_answer_requests - 1)
               else q.no_answer_requests)
    else (q.requests_, q.no_answer_requests)
  match FindTopDocuments ln s raw_query document_predicate with
  | .error e =>
    (.error e,
      { requests_ := popped.1, current_time := current_time, no_answer_requests := popped.2 })
  | .ok matched_documents =>
    let documents_count := wrapInt32 (matched_documents.length : Int)
    (.ok matched_documents,
      { requests_ := popped.1 ++
          [{ matched_documents := matched_documents, documents_count := documents_count }],
        current_time := current_time,
        no_answer_requests :=
          if documents_count = 0 then wrapInt32 (popped.2 + 1) else popped.2 })

end Queue

/-! ## Duplicate removal (`remove_duplicates.cpp`) -/

section Duplicates

variable {α : Type} [LinearOrderedField α]

/-- The inner loop of `RemoveDuplicates`: the set `document_words` of the
words of a document. -/
def documentWords (s : SearchServer α) (document_id : Int) : OrdSet Word :=
  (GetWordFrequencies s document_id).foldl
    (fun document_words p => document_words.insert p.1) []

/-- The first loop of `RemoveDuplicates`, over the ids of the server in
ascending order. -/
def collectDuplicates (s : SearchServer α) :
    List Int → OrdSet (OrdSet Word) → List Int → List Int
  | [], _, ids_for_remove => ids_for_remove
  | document_id :: rest, documents_words, ids_for_remove =>
    let document_words := documentWords s document_id
    if decide (document_words ∈ documents_words) then
      collectDuplicates s rest documents_words (ids_for_remove ++ [document_id])
    else collectDuplicates s rest (documents_words.insert document_words) ids_for_remove

/-- The second loop of `RemoveDuplicates`; an exception of `RemoveDocument`
leaves the loop. The output to `std::cout` is left out. -/
def removeDocuments : List Int → SearchServer α → Except Error Unit × SearchServer α
  | [], s => (.ok (), s)
  | id :: rest, s =>
    match RemoveDocument s id with
    | (.error e, s1) => (.error e, s1)
    | (.ok (), s1) => removeDocuments rest s1

/-- The function `RemoveDuplicates`. -/
def RemoveDuplicates (s : SearchServer α) : Except Error Unit × SearchServer α :=
  removeDocuments (collectDuplicates s s.id_list_ [] []) s

end Duplicates

/-! ## Double arithmetic (binary64) -/

/-- The product `x * 2 ^ k` for an integer `k`. -/
def scaleByPowerOfTwo (x : ℚ) (k : Int) : ℚ :=
  if 0 ≤ k then x * ((2 ^ k.toNat : Nat) : ℚ) else x / ((2 ^ (-k).toNat : Nat) : ℚ)

/-- The position of the leading binary digit of `n`, the integer part of its
binary logarithm, and zero for `n = 0`; `fuel` bounds the number of halvings. -/
def leadingBit : Nat → Nat → Nat
  | 0, _ => 0
  | fuel + 1, n => if 2 ≤ n then leadingBit fuel (n / 2) + 1 else 0

/-- The binary exponent `e` of a positive rational, `2 ^ e ≤ x < 2 ^ (e + 1)`:
the difference of the bit lengths of numerator and denominator, or one
less. -/
def binaryExponent (x : ℚ) : Int :=
  let e : Int := (leadingBit x.num.natAbs x.num.natAbs : Int) - (leadingBit x.den x.den : Int)
  if scaleByPowerOfTwo 1 e ≤ x then e else e - 1

/-- The integer nearest to a non-negative rational, the even one of the two
when it lies halfway. -/
def roundHalfEven (y : ℚ) : Int :=
  let f : Int := Rat.floor y
  let r : ℚ := y - (f : ℚ)
  if r < 1 / 2 then f
  else if 1 / 2 < r then f + 1
  else if f % 2 = 0 then f
  else f + 1

/-- The value of type `double` nearest to a positive rational: 53 significant
binary digits, ties to even. -/
def roundPositiveDouble (x : ℚ) : ℚ :=
  let e := binaryExponent x
  scaleByPowerOfTwo ((roundHalfEven (scaleByPowerOfTwo x (52 - e)) : Int) : ℚ) (e - 52)

/-- The rounding of a `double` operation in the default rounding mode, to
nearest with ties to even. The range of the exponent is not bounded: overflow
and subnormal numbers are not modelled. -/
def roundDouble (x : ℚ) : ℚ :=
  if x = 0 then 0
  else if x < 0 then -roundPositiveDouble (-x)
  else roundPositiveDouble x

/-- The entry `words_freqs_in_document[document_id]` that the loop of
`AddDocument` builds for a fresh id from the non-stop words of the text, in
`double` arithmetic: `inv_word_count = 1.0 / words.size()` is added to the
value-initialised entry of the word once per occurrence, and the division and
every addition round. -/
def wordFrequenciesDouble (words : List Word) : OrdMap Word ℚ :=
  let inv_word_count : ℚ := roundDouble (1 / roundDouble (words.length : ℚ))
  words.foldl
    (fun words_freqs word =>
      words_freqs.update word 0 (fun v => roundDouble (v + inv_word_count))) []

/-! ## Example states -/

/-- The two-document corpus of the worked example, with the stop word `and`. -/
def exampleServer : SearchServer ℚ :=
  (AddDocument
    (AddDocument (SearchServer.fresh ℚ ["and".toList]) 1 "white cat long tail".toList
      .ACTUAL [7, 2, 7]).2
    2 "fluffy cat fluffy tail".toList .ACTUAL [8, 3]).2

/-- A server holding the single document 0, whose text is empty. -/
def emptyDocServer : SearchServer ℚ :=
  (AddDocument (SearchServer.fresh ℚ []) 0 [] .ACTUAL []).2

/-- A server holding six documents that all contain the word `cat`. -/
def sixDocServer : SearchServer ℚ :=
  (AddDocument (AddDocument (AddDocument (AddDocument (AddDocument (AddDocument
    (SearchServer.fresh ℚ []) 1 "cat".toList .ACTUAL [1]).2
    2 "cat".toList .ACTUAL [2]).2
    3 "cat".toList .ACTUAL [3]).2
    4 "cat".toList .ACTUAL [4]).2
    5 "cat".toList .ACTUAL [5]).2
    6 "cat".toList .ACTUAL [6]).2

/-- The text of `n` words `x` followed by the word `w`. -/
def docText : Nat → Word
  | 0 => ['w']
  | n + 1 => 'x' :: ' ' :: docText n

/-- The server after a sequence of `AddDocument` calls, given by their
arguments `(id, text, status, ratings)`. -/
def addDocuments {α : Type} [LinearOrderedField α] (s : SearchServer α) :
    List (Int × Word × DocumentStatus × List Int) → SearchServer α
  | [] => s
  | d :: rest => addDocuments (AddDocument s d.1 d.2.1 d.2.2.1 d.2.2.2).2 rest

/-- A server with three documents that hold the word `w` once among 600, 601
and 602 words, with the ratings 1, 2 and 3, and a fourth document without it. -/
def cycleServer (α : Type) [LinearOrderedField α] : SearchServer α :=
  addDocuments (SearchServer.fresh α [])
    [(1, docText 599, .ACTUAL, [1]), (2, docText 600, .ACTUAL, [2]),
     (3, docText 601, .ACTUAL, [3]), (4, ['x'], .ACTUAL, [])]

/-- The corpus of the worked example over any field of relevances: the stop
word `and`, document 1 `white cat long tail` and document 2
`fluffy cat fluffy tail`. -/
def workedExample (α : Type) [LinearOrderedField α] : SearchServer α :=
  addDocuments (SearchServer.fresh α ["and".toList])
    [(1, "white cat long tail".toList, .ACTUAL, [7, 2, 7]),
     (2, "fluffy cat fluffy tail".toList, .ACTUAL, [8, 3])]

/-- A server to which document 2 `cat dog` was added first and document 1
`dog cat cat` second. -/
def swappedServer : SearchServer ℚ :=
  (AddDocument
    (AddDocument (SearchServer.fresh ℚ []) 2 "cat dog".toList .ACTUAL [1]).2
    1 "dog cat cat".toList .ACTUAL [1]).2

/-! ## Notions used in the statements -/

namespace OrdMap

variable {K V : Type}

/-- The keys of the map are in strictly ascending order. -/
def SortedKeys [LinearOrder K] (m : OrdMap K V) : Prop := m.keys.Pairwise (fun a b => a < b)

variable {A B : Type}

/-- The lookup `m[a][b]` in a map of maps, without inserting. -/
def find2? [DecidableEq A] [DecidableEq B] (m : OrdMap A (OrdMap B V)) (a : A) (b : B) :
    Option V :=
  match m.find? a with
  | none => none
  | some inner => inner.find? b

end OrdMap

section Notions

variable {α : Type} [LinearOrderedField α]

/-- The frequency stored in the forward index, `words_freqs_in_document[id][word]`. -/
def fwdFreq (s : SearchServer α) (document_id : Int) (word : Word) : Option α :=
  s.words_freqs_in_document.find2? document_id word

/-- The frequency stored in the inverted index, `word_to_document_freqs_[word][id]`. -/
def invFreq (s : SearchServer α) (word : Word) (document_id : Int) : Option α :=
  s.word_to_document_freqs_.find2? word document_id

/-- The part of the invariant that concerns the two indices only. -/
structure IndexInv (s : SearchServer α) : Prop where
  consistent : ∀ document_id word, fwdFreq s document_id word = invFreq s word document_id
  fwd_sorted : s.words_freqs_in_document.SortedKeys
  inv_sorted : s.word_to_document_freqs_.SortedKeys
  fwd_inner : ∀ document_id m, s.words_freqs_in_document.find? document_id = some m →
    m.SortedKeys
  inv_inner : ∀ word m, s.word_to_document_freqs_.find? word = some m → m.SortedKeys

/-- The invariant of every reachable server state. -/
structure Inv (s : SearchServer α) : Prop where
  index : IndexInv s
  fwd_docs : ∀ document_id, document_id ∈ s.words_freqs_in_document.keys →
    document_id ∈ s.documents_.keys
  docs_ids : ∀ document_id, document_id ∈ s.documents_.keys → document_id ∈ s.id_list_
  docs_sorted : s.documents_.SortedKeys
  ids_sorted : s.id_list_.Pairwise (fun a b => a < b)

/-- The state after a removal that found the document in the forward index. -/
def removedState (s : SearchServer α) (document_id : Int) (ws : List Word) : SearchServer α :=
  { s with
    documents_ := s.documents_.erase document_id,
    word_to_document_freqs_ := (eraseFromWords document_id ws s.word_to_document_freqs_).2,
    words_freqs_in_document := s.words_freqs_in_document.erase document_id,
    id_list_ := s.id_list_.erase document_id }

/-- The state after a successful `AddDocument`. -/
def addedState (s : SearchServer α) (document_id : Int) (document : Word)
    (status : DocumentStatus) (ratings : List Int) : SearchServer α :=
  let s1 := { s with documents_texts_ := s.documents_texts_ ++ [document] }
  let words := SplitIntoWordsNoStop s1 document
  let s2 := words.foldl (addWord document_id (1 / (words.length : α))) s1
  { s2 with
    documents_ := s2.documents_.update document_id
      { rating := ComputeAverageRating ratings, status := status } (fun d => d),
    id_list_ := s2.id_list_.insert document_id }

/-- Whether the caller's predicate accepts the stored record of the id. -/
def accepts (s : SearchServer α) (pred : DocumentPredicate) (document_id : Int) : Bool :=
  match s.documents_.find? document_id with
  | none => false
  | some document_data => pred document_id document_data.status document_data.rating

/-- Reference definition: the document contains the word, as reported by
`GetWordFrequencies`. -/
def containsWord (s : SearchServer α) (document_id : Int) (word : Word) : Bool :=
  ((GetWordFrequencies s document_id).find? word).isSome

/-- Reference definition: the term frequency `tf(word, id)`. -/
def termFreq (s : SearchServer α) (word : Word) (document_id : Int) : α :=
  ((GetWordFrequencies s document_id).find? word).getD 0

/-- Reference definition: the number of documents that contain the word. -/
def documentFreq (s : SearchServer α) (word : Word) : Nat :=
  (s.documents_.keys.filter (fun document_id => containsWord s document_id word)).length

/-- Reference definition: the TF-IDF relevance of a document for a query, the
sum over the distinct plus words the document contains of `tf * ln (N / df)`. -/
def referenceRelevance (ln : α → α) (s : SearchServer α) (query : Query) (document_id : Int) :
    α :=
  ((query.plus_words.dedup.filter (fun w => containsWord s document_id w)).map
    (fun w => termFreq s w document_id *
      ln ((GetDocumentCount s : α) / (documentFreq s w : α)))).sum

/-- Reference definition: the document is a match of the query. -/
def referenceMatch (s : SearchServer α) (query : Query) (pred : DocumentPredicate)
    (document_id : Int) : Prop :=
  (∃ document_data, s.documents_.find? document_id = some document_data ∧
    pred document_id document_data.status document_data.rating = true) ∧
  (∃ w ∈ query.plus_words, containsWord s document_id w = true) ∧
  (∀ w ∈ query.minus_words, containsWord s document_id w = false)

/-- The inverse document frequency the code computes for a word. -/
def codeIdf (ln : α → α) (s : SearchServer α) (word : Word) : α :=
  match s.word_to_document_freqs_.find? word with
  | none => 0
  | some entry => ComputeWordInverseDocumentFreq ln s entry

/-- The effect of one plus word on the accumulator slot of one document. -/
def plusStep (ln : α → α) (s : SearchServer α) (pred : DocumentPredicate) (document_id : Int)
    (slot : Option α) (word : Word) : Option α :=
  match invFreq s word document_id with
  | none => slot
  | some term_freq =>
    if accepts s pred document_id then some (slot.getD 0 + term_freq * codeIdf ln s word)
    else slot

/-- The record emitted for an accumulator entry. -/
def toDocument (s : SearchServer α) (p : Int × α) : Document α :=
  { id := p.1, relevance := p.2,
    rating := match s.documents_.find? p.1 with
      | none => 0
      | some document_data => document_data.rating }

/-- The value the sharded accumulator holds for a key: the lookup in the
bucket of the key. -/
def ConcurrentMap.lookup (cm : ConcurrentMap α) (key : Int) : Option α :=
  match cm.buckets_[bucketIndex key cm.buckets_.length]? with
  | none => none
  | some bucket => bucket.find? key

/-- The invariant of the sharded accumulator: there is a bucket, every bucket
has ascending keys, and every key sits in the bucket of its index. -/
structure ConcurrentMap.WF (cm : ConcurrentMap α) : Prop where
  nonempty : 0 < cm.buckets_.length
  sorted : ∀ (i : Nat) (bucket : OrdMap Int α), cm.buckets_[i]? = some bucket →
    bucket.SortedKeys
  home : ∀ (i : Nat) (bucket : OrdMap Int α), cm.buckets_[i]? = some bucket →
    ∀ k ∈ bucket.keys, bucketIndex k cm.buckets_.length = i

/-- The values that a list of accumulator updates adds to the slot of one
document, in the order of the list. -/
def slotOps (ops : List (Int × α)) (document_id : Int) : List α :=
  (ops.filter (fun op => decide (op.1 = document_id))).map Prod.snd

/-- Reference definition: one statement of the accumulator carried out on a
single ordered map whose absent entries start at 0. -/
def referenceRun (m : OrdMap Int α) : MapOp α → OrdMap Int α
  | .add key value => m.update key 0 (fun v => v + value)
  | .erase key => m.erase key

/-- The elements of the sequence between the two iterators of a range. -/
def IteratorRange.elements {β : Type} (seq : List β) (r : IteratorRange) : List β :=
  (seq.drop r.begin_).take (r.end_ - r.begin_)

/-- The number of pages the constructor of `Paginator` computes. -/
def pageCount (distance page_size : Nat) : Nat :=
  distance / page_size + (if distance % page_size ≠ 0 then 1 else 0)

/-- The page with the index `i` among `size_` pages. -/
def pageAt (distance page_size size_ i : Nat) : IteratorRange :=
  { begin_ := page_size * i,
    end_ := if i = size_ - 1 then distance else page_size * i + page_size }

/-- A call of `AddFindRequest`: the state of the server at the time of the
call, the query text and the predicate. -/
abbrev FindRequest (α : Type) := SearchServer α × Word × DocumentPredicate

/-- The state of the request queue after a sequence of `AddFindRequest`
calls. -/
def addFindRequests (ln : α → α) (q : RequestQueue α) (calls : List (FindRequest α)) :
    RequestQueue α :=
  calls.foldl (fun q call => (q.AddFindRequest ln call.1 call.2.1 call.2.2).2) q

/-- The result of `FindTopDocuments` for a call, the empty list when it
throws. -/
def requestResult (ln : α → α) (call : FindRequest α) : List (Document α) :=
  match FindTopDocuments ln call.1 call.2.1 call.2.2 with
  | .error _ => []
  | .ok matched_documents => matched_documents

/-- The two documents have the same set of non-stop words. -/
def sameWords (s : SearchServer α) (a b : Int) : Prop :=
  ∀ w, containsWord s a w = containsWord s b w

/-- The document is a duplicate: a live document with a smaller id has the
same set of non-stop words. -/
def isDuplicate (s : SearchServer α) (document_id : Int) : Prop :=
  ∃ id ∈ s.id_list_, id < document_id ∧ sameWords s id document_id

/-- The ids of a list that repeat the word set of an id seen before, `seen`
holding the ids seen so far. -/
def duplicatesAfter (s : SearchServer α) : List Int → List Int → List Int
  | _, [] => []
  | seen, document_id :: rest =>
    if decide (∃ id ∈ seen, documentWords s id = documentWords s document_id) then
      document_id :: duplicatesAfter s (document_id :: seen) rest
    else duplicatesAfter s (document_id :: seen) rest

/-- The two relevances differ by less than `DELTA`. -/
def nearTie (x y : Document α) : Prop := |x.relevance - y.relevance| < DELTA

/-- The order the specification claims between an earlier result `x` and a
later result `y`: the rating does not increase when the relevances differ by
less than `DELTA`, and the relevance decreases otherwise. -/
def claimedOrder (x y : Document α) : Prop :=
  (nearTie x y → x.rating ≥ y.rating) ∧ (¬ nearTie x y → x.relevance > y.relevance)

/-- Reference definition: the maximal substrings of a text without a space,
in order of occurrence: the pieces between the spaces that are not empty. -/
def referenceWords (text : Word) : List Word :=
  (text.splitOnP (fun c => c == ' ')).filter (fun w => !w.isEmpty)

/-- The query token is malformed: it is `-` or it starts with `--`. -/
def malformedToken (token : Word) : Prop :=
  token = ['-'] ∨ ∃ rest, token = '-' :: '-' :: rest

/-- The query text is malformed: it has a byte in `0x00..0x1F`, or one of its
space-separated tokens is malformed. -/
def malformedQuery (text : Word) : Prop :=
  (∃ c ∈ text, c.toNat < 32) ∨ ∃ token ∈ SplitIntoWords text, malformedToken token

end Notions

/-! ## Facts about ordered maps -/

namespace OrdMap

variable {K V : Type}

theorem find?_isSome_iff [DecidableEq K] (m : OrdMap K V) (k : K) :
    (m.find? k).isSome = true ↔ k ∈ m.keys := by
  induction m with
  | nil => simp [find?, keys]
  | cons p rest ih =>
    obtain ⟨k', v⟩ := p
    by_cases h : k = k'
    · simp [find?, keys, h]
    · simp only [find?, h, if_false, ih]
      simp [keys, h]

theorem find?_eq_none_iff [DecidableEq K] (m : OrdMap K V) (k : K) :
    m.find? k = none ↔ k ∉ m.keys := by
  rw [← find?_isSome_iff]
  cases m.find? k <;> simp

theorem mem_of_find? [DecidableEq K] {m : OrdMap K V} {k : K} {v : V}
    (h : m.find? k = some v) : (k, v) ∈ m := by
  induction m with
  | nil => simp [find?] at h
  | cons p rest ih =>
    obtain ⟨k', v'⟩ := p
    by_cases hk : k = k'
    · simp [find?, hk] at h
      simp [hk, h]
    · simp only [find?, hk, if_false] at h
      exact List.mem_cons_of_mem _ (ih h)

theorem find?_of_mem [DecidableEq K] {m : OrdMap K V} (hnd : m.keys.Nodup) {k : K} {v : V}
    (h : (k, v) ∈ m) : m.find? k = some v := by
  induction m with
  | nil => simp at h
  | cons p rest ih =>
    obtain ⟨k', v'⟩ := p
    simp only [keys, List.map_cons, List.nodup_cons] at hnd
    rcases List.mem_cons.1 h with h1 | h1
    · cases h1
      simp [find?]
    · have hne : k ≠ k' := by
        rintro rfl
        exact hnd.1 (List.mem_map_of_mem Prod.fst h1)
      simp only [find?, hne, if_false]
      exact ih hnd.2 h1

theorem keys_set [DecidableEq K] (m : OrdMap K V) (k : K) (v : V) :
    (m.set k v).keys = m.keys := by
  induction m with
  | nil => rfl
  | cons p rest ih =>
    obtain ⟨k', v'⟩ := p
    by_cases h : k = k'
    · simp [set, keys, h]
    · simp only [set, h, if_false, keys, List.map_cons] at ih ⊢
      rw [ih]

theorem find?_set [DecidableEq K] (m : OrdMap K V) (k k' : K) (v : V) :
    (m.set k v).find? k' = if k' = k then (m.find? k).map (fun _ => v) else m.find? k' := by
  induction m with
  | nil => simp [set, find?]
  | cons p rest ih =>
    obtain ⟨k0, v0⟩ := p
    by_cases h : k = k0
    · subst h
      by_cases h' : k' = k
      · simp [set, find?, h']
      · simp [set, find?, h']
    · by_cases h' : k' = k
      · subst h'
        simp only [set, h, if_false, find?, ih, if_true]
      · simp only [set, h, if_false, find?, ih, h']

theorem find?_insertNew_ne [DecidableEq K] [LinearOrder K] (m : OrdMap K V) {k k' : K} (v : V) (h : k' ≠ k) :
    (m.insertNew k v).find? k' = m.find? k' := by
  induction m with
  | nil => simp [insertNew, find?, h]
  | cons p rest ih =>
    obtain ⟨k0, v0⟩ := p
    by_cases hlt : k < k0
    · simp [insertNew, hlt, find?, h]
    · simp only [insertNew, hlt, if_false, find?, ih]

theorem find?_insertNew_self [DecidableEq K] [LinearOrder K] (m : OrdMap K V) {k : K} (v : V)
    (h : m.find? k = none) : (m.insertNew k v).find? k = some v := by
  induction m with
  | nil => simp [insertNew, find?]
  | cons p rest ih =>
    obtain ⟨k0, v0⟩ := p
    by_cases hk : k = k0
    · simp [find?, hk] at h
    · simp only [find?, hk, if_false] at h
      by_cases hlt : k < k0
      · simp [insertNew, hlt, find?]
      · simp only [insertNew, hlt, if_false, find?, hk, ih h]

theorem find?_update [DecidableEq K] [LinearOrder K] (m : OrdMap K V) (k k' : K) (d : V) (f : V → V) :
    (m.update k d f).find? k' =
      if k' = k then some (f ((m.find? k).getD d)) else m.find? k' := by
  unfold update
  cases hm : m.find? k with
  | none =>
    by_cases h : k' = k
    · subst h
      simp [find?_insertNew_self m _ hm]
    · simp [find?_insertNew_ne m _ h, h]
  | some v =>
    simp only [find?_set, hm, Option.map_some', Option.getD_some]

theorem find?_erase [DecidableEq K] (m : OrdMap K V) (k k' : K) :
    (m.erase k).find? k' = if k' = k then none else m.find? k' := by
  induction m with
  | nil => simp [erase, find?]
  | cons p rest ih =>
    obtain ⟨k0, v0⟩ := p
    by_cases h0 : k0 = k
    · subst h0
      by_cases h' : k' = k0
      · simpa [erase, h'] using ih
      · simp [erase, find?, h', ih]
    · by_cases h' : k' = k
      · subst h'
        have : k' ≠ k0 := fun e => h0 e.symm
        simp [erase, h0, find?, this, ih]
      · simp [erase, h0, find?, ih, h']

theorem erase_sublist [DecidableEq K] (m : OrdMap K V) (k : K) : (m.erase k).Sublist m := by
  induction m with
  | nil => simp [erase]
  | cons p rest ih =>
    obtain ⟨k0, v0⟩ := p
    by_cases h0 : k0 = k
    · simp only [erase, h0, if_true]
      exact List.Sublist.cons _ (by simpa [h0] using ih)
    · simp only [erase, h0, if_false]
      exact List.Sublist.cons₂ _ ih

theorem keys_insertNew_perm [LinearOrder K] (m : OrdMap K V) (k : K) (v : V) :
    (m.insertNew k v).keys.Perm (k :: m.keys) := by
  induction m with
  | nil => simp [insertNew, keys]
  | cons p rest ih =>
    obtain ⟨k0, v0⟩ := p
    by_cases hlt : k < k0
    · simp [insertNew, hlt, keys]
    · simp only [insertNew, hlt, if_false, keys, List.map_cons] at ih ⊢
      exact (List.Perm.cons k0 ih).trans (List.Perm.swap k k0 _)

theorem sortedKeys_insertNew [DecidableEq K] [LinearOrder K] {m : OrdMap K V} (hs : m.SortedKeys) {k : K}
    (v : V) (h : m.find? k = none) : (m.insertNew k v).SortedKeys := by
  induction m with
  | nil => simp [insertNew, SortedKeys, keys]
  | cons p rest ih =>
    obtain ⟨k0, v0⟩ := p
    have hs' := hs
    simp only [SortedKeys, keys, List.map_cons, List.pairwise_cons] at hs
    by_cases hk : k = k0
    · simp [find?, hk] at h
    · simp only [find?, hk, if_false] at h
      by_cases hlt : k < k0
      · simp only [insertNew, hlt, if_true, SortedKeys, keys, List.map_cons, List.pairwise_cons]
        refine ⟨?_, hs⟩
        intro a ha
        rcases List.mem_cons.1 ha with rfl | ha
        · exact hlt
        · exact lt_trans hlt (hs.1 a ha)
      · simp only [insertNew, hlt, if_false, SortedKeys, keys, List.map_cons, List.pairwise_cons]
        refine ⟨?_, ih hs.2 h⟩
        intro a ha
        have := (keys_insertNew_perm rest k v).mem_iff.1 ha
        rcases List.mem_cons.1 this with rfl | ha'
        · exact lt_of_le_of_ne (not_lt.1 hlt) (fun e => hk e.symm)
        · exact hs.1 a ha'

theorem sortedKeys_set [DecidableEq K] [LinearOrder K] {m : OrdMap K V} (hs : m.SortedKeys) (k : K) (v : V) :
    (m.set k v).SortedKeys := by
  unfold SortedKeys
  rw [keys_set]
  exact hs

theorem sortedKeys_update [DecidableEq K] [LinearOrder K] {m : OrdMap K V} (hs : m.SortedKeys) (k : K) (d : V)
    (f : V → V) : (m.update k d f).SortedKeys := by
  unfold update
  cases hm : m.find? k with
  | none => exact sortedKeys_insertNew hs _ hm
  | some v => exact sortedKeys_set hs _ _

theorem sortedKeys_erase [DecidableEq K] [LinearOrder K] {m : OrdMap K V} (hs : m.SortedKeys) (k : K) :
    (m.erase k).SortedKeys := by
  unfold SortedKeys keys at *
  exact (List.Pairwise.sublist ((erase_sublist m k).map Prod.fst) hs)

theorem SortedKeys.nodup [LinearOrder K] {m : OrdMap K V} (hs : m.SortedKeys) : m.keys.Nodup := by
  unfold SortedKeys at hs
  exact hs.imp (fun h => ne_of_lt h)

theorem SortedKeys.tail [LinearOrder K] {p : K × V} {m : OrdMap K V}
    (hs : SortedKeys (p :: m)) : SortedKeys m := by
  unfold SortedKeys keys at *
  exact (List.pairwise_cons.1 hs).2

/-- Two maps with ascending keys and the same lookups are the same list. -/
theorem ext_of_sorted [DecidableEq K] [LinearOrder K] {m₁ m₂ : OrdMap K V} (h₁ : m₁.SortedKeys)
    (h₂ : m₂.SortedKeys) (h : ∀ k, m₁.find? k = m₂.find? k) : m₁ = m₂ := by
  have hperm : m₁.Perm m₂ := by
    have nd₁ : m₁.Nodup := List.Nodup.of_map Prod.fst h₁.nodup
    have nd₂ : m₂.Nodup := List.Nodup.of_map Prod.fst h₂.nodup
    refine (List.perm_ext_iff_of_nodup nd₁ nd₂).2 ?_
    rintro ⟨k, v⟩
    constructor
    · intro hm
      exact mem_of_find? ((h k).symm.trans (find?_of_mem h₁.nodup hm)).symm.symm
        |> fun x => by simpa using x
    · intro hm
      exact mem_of_find? ((h k).trans (find?_of_mem h₂.nodup hm))
  have hs₁ : m₁.Sorted (fun a b => a.1 < b.1) := by
    unfold SortedKeys keys at h₁
    exact List.pairwise_map.1 h₁
  have hs₂ : m₂.Sorted (fun a b => a.1 < b.1) := by
    unfold SortedKeys keys at h₂
    exact List.pairwise_map.1 h₂
  haveI : IsAntisymm (K × V) (fun a b => a.1 < b.1) :=
    ⟨fun a b hab hba => absurd hab (lt_asymm hba)⟩
  exact List.eq_of_perm_of_sorted hperm hs₁ hs₂

end OrdMap

namespace OrdSet

variable {K : Type}

theorem mem_insert [DecidableEq K] [LinearOrder K] (s : OrdSet K) (k x : K) :
    x ∈ s.insert k ↔ x = k ∨ x ∈ s := by
  induction s with
  | nil => simp [insert]
  | cons k0 rest ih =>
    by_cases hlt : k < k0
    · simp [insert, hlt]
    · by_cases hk : k = k0
      · subst hk
        simp [insert]
      · simp only [insert, hlt, hk, if_false, List.mem_cons, ih]
        tauto

theorem mem_erase [DecidableEq K] (s : OrdSet K) (k x : K) :
    x ∈ s.erase k ↔ x ≠ k ∧ x ∈ s := by
  induction s with
  | nil => simp [erase]
  | cons k0 rest ih =>
    by_cases hk : k0 = k
    · subst hk
      simp only [erase, if_true, ih, List.mem_cons]
      constructor
      · rintro ⟨h1, h2⟩
        exact ⟨h1, Or.inr h2⟩
      · rintro ⟨h1, h2 | h2⟩
        · exact absurd h2 h1
        · exact ⟨h1, h2⟩
    · simp only [erase, hk, if_false, List.mem_cons, ih]
      constructor
      · rintro (h | ⟨h1, h2⟩)
        · subst h
          exact ⟨hk, Or.inl rfl⟩
        · exact ⟨h1, Or.inr h2⟩
      · rintro ⟨h1, h2 | h2⟩
        · exact Or.inl h2
        · exact Or.inr ⟨h1, h2⟩

theorem erase_sublist_set [DecidableEq K] (s : OrdSet K) (k : K) : (s.erase k).Sublist s := by
  induction s with
  | nil => simp [erase]
  | cons k0 rest ih =>
    by_cases h0 : k0 = k
    · simp only [erase, h0, if_true]
      exact List.Sublist.cons _ (by simpa [h0] using ih)
    · simp only [erase, h0, if_false]
      exact List.Sublist.cons₂ _ ih

theorem sorted_insert [DecidableEq K] [LinearOrder K] {s : OrdSet K} (hs : s.Pairwise (fun a b => a < b))
    (k : K) : (s.insert k).Pairwise (fun a b => a < b) := by
  induction s with
  | nil => simp [insert]
  | cons k0 rest ih =>
    have hs' := List.pairwise_cons.1 hs
    by_cases hlt : k < k0
    · simp only [insert, hlt, if_true, List.pairwise_cons]
      refine ⟨?_, hs'⟩
      intro a ha
      rcases List.mem_cons.1 ha with rfl | ha
      · exact hlt
      · exact lt_trans hlt (hs'.1 a ha)
    · by_cases hk : k = k0
      · simpa [insert, hlt, hk] using hs
      · simp only [insert, hlt, hk, if_false, List.pairwise_cons]
        refine ⟨?_, ih hs'.2⟩
        intro a ha
        rcases (mem_insert rest k a).1 ha with rfl | ha'
        · exact lt_of_le_of_ne (not_lt.1 hlt) (fun e => hk e.symm)
        · exact hs'.1 a ha'

theorem sorted_erase [DecidableEq K] [LinearOrder K] {s : OrdSet K} (hs : s.Pairwise (fun a b => a < b))
    (k : K) : (s.erase k).Pairwise (fun a b => a < b) :=
  List.Pairwise.sublist (erase_sublist_set s k) hs

end OrdSet

namespace OrdMap

variable {A B V : Type}

theorem find2?_update [DecidableEq A] [DecidableEq B] [LinearOrder A] [LinearOrder B] (m : OrdMap A (OrdMap B V)) (a a' : A)
    (b b' : B) (d : V) (f : V → V) :
    (m.update a [] (fun inner => inner.update b d f)).find2? a' b' =
      if a' = a ∧ b' = b then some (f ((m.find2? a b).getD d)) else m.find2? a' b' := by
  unfold find2?
  rw [find?_update]
  by_cases ha : a' = a
  · subst ha
    cases hm : m.find? a' with
    | none =>
      by_cases hb : b' = b
      · simp [find?_update, hb, find?]
      · simp [find?_update, hb, find?]
    | some inner =>
      by_cases hb : b' = b
      · simp [find?_update, hb]
      · simp [find?_update, hb]
  · simp [ha]

theorem mem_keys_update [DecidableEq A] [LinearOrder A] (m : OrdMap A V) (a a' : A) (d : V) (f : V → V) :
    a' ∈ (m.update a d f).keys ↔ a' = a ∨ a' ∈ m.keys := by
  rw [← find?_isSome_iff, ← find?_isSome_iff, find?_update]
  by_cases ha : a' = a
  · simp [ha]
  · simp [ha]

theorem mem_keys_erase [DecidableEq A] (m : OrdMap A V) (a a' : A) :
    a' ∈ (m.erase a).keys ↔ a' ≠ a ∧ a' ∈ m.keys := by
  rw [← find?_isSome_iff, ← find?_isSome_iff, find?_erase]
  by_cases ha : a' = a
  · simp [ha]
  · simp [ha]

end OrdMap

/-! ## The index invariant -/

section Invariant

variable {α : Type} [LinearOrderedField α]

theorem addWord_fwdFreq (document_id : Int) (x : α) (s : SearchServer α) (word : Word)
    (id' : Int) (w' : Word) :
    fwdFreq (addWord document_id x s word) id' w' =
      if id' = document_id ∧ w' = word then some ((fwdFreq s document_id word).getD 0 + x)
      else fwdFreq s id' w' := by
  unfold fwdFreq addWord
  exact OrdMap.find2?_update s.words_freqs_in_document _ _ _ _ _ _

theorem addWord_invFreq (document_id : Int) (x : α) (s : SearchServer α) (word : Word)
    (w' : Word) (id' : Int) :
    invFreq (addWord document_id x s word) w' id' =
      if w' = word ∧ id' = document_id then some ((invFreq s word document_id).getD 0 + x)
      else invFreq s w' id' := by
  unfold invFreq addWord
  exact OrdMap.find2?_update s.word_to_document_freqs_ _ _ _ _ _ _

theorem sortedKeys_nil {K V : Type} [LinearOrder K] : OrdMap.SortedKeys ([] : OrdMap K V) := by
  simp [OrdMap.SortedKeys, OrdMap.keys]

theorem inner_sorted_update {A B V : Type} [DecidableEq A] [DecidableEq B] [LinearOrder A]
    [LinearOrder B]
    {m : OrdMap A (OrdMap B V)} (h : ∀ a inner, m.find? a = some inner → inner.SortedKeys)
    (a : A) (b : B) (d : V) (f : V → V) :
    ∀ a' inner, (m.update a [] (fun i => i.update b d f)).find? a' = some inner →
      inner.SortedKeys := by
  intro a' inner hfind
  rw [OrdMap.find?_update] at hfind
  by_cases ha : a' = a
  · simp only [ha, if_true, Option.some.injEq] at hfind
    rw [← hfind]
    apply OrdMap.sortedKeys_update
    cases hm : m.find? a with
    | none => exact sortedKeys_nil
    | some i => exact h a i hm
  · simp only [ha, if_false] at hfind
    exact h a' inner hfind

theorem addWord_indexInv (document_id : Int) (x : α) {s : SearchServer α} (h : IndexInv s)
    (word : Word) : IndexInv (addWord document_id x s word) := by
  refine ⟨?_, ?_, ?_, ?_, ?_⟩
  · intro id' w'
    rw [addWord_fwdFreq, addWord_invFreq, h.consistent, h.consistent]
    by_cases h1 : id' = document_id ∧ w' = word
    · simp [h1]
    · have h2 : ¬ (w' = word ∧ id' = document_id) := fun e => h1 ⟨e.2, e.1⟩
      simp [h1, h2]
  · exact OrdMap.sortedKeys_update h.fwd_sorted _ _ _
  · exact OrdMap.sortedKeys_update h.inv_sorted _ _ _
  · exact inner_sorted_update h.fwd_inner _ _ _ _
  · exact inner_sorted_update h.inv_inner _ _ _ _

theorem foldl_addWord_indexInv (document_id : Int) (x : α) (words : List Word)
    {s : SearchServer α} (h : IndexInv s) :
    IndexInv (words.foldl (addWord document_id x) s) := by
  induction words generalizing s with
  | nil => exact h
  | cons w rest ih => exact ih (addWord_indexInv document_id x h w)

theorem foldl_addWord_documents (document_id : Int) (x : α) (words : List Word)
    (s : SearchServer α) :
    (words.foldl (addWord document_id x) s).documents_ = s.documents_ ∧
    (words.foldl (addWord document_id x) s).id_list_ = s.id_list_ ∧
    (words.foldl (addWord document_id x) s).stop_words_ = s.stop_words_ ∧
    (words.foldl (addWord document_id x) s).documents_texts_ = s.documents_texts_ := by
  induction words generalizing s with
  | nil => exact ⟨rfl, rfl, rfl, rfl⟩
  | cons w rest ih => exact ih (addWord document_id x s w)

theorem foldl_addWord_keys (document_id : Int) (x : α) (words : List Word)
    (s : SearchServer α) (id' : Int) :
    id' ∈ (words.foldl (addWord document_id x) s).words_freqs_in_document.keys →
      id' = document_id ∨ id' ∈ s.words_freqs_in_document.keys := by
  induction words generalizing s with
  | nil => exact fun h => Or.inr h
  | cons w rest ih =>
    intro h
    rcases ih (addWord document_id x s w) h with h1 | h1
    · exact Or.inl h1
    · exact (OrdMap.mem_keys_update s.words_freqs_in_document _ _ _ _).1 h1

/-- The frequencies that the indexing loop of `AddDocument` leaves in the
forward index. -/
theorem foldl_addWord_fwdFreq (document_id : Int) (x : α) (words : List Word)
    (s : SearchServer α) (id' : Int) (w' : Word) :
    fwdFreq (words.foldl (addWord document_id x) s) id' w' =
      if id' = document_id ∧ w' ∈ words then
        some ((fwdFreq s document_id w').getD 0 + (words.count w' : α) * x)
      else fwdFreq s id' w' := by
  induction words generalizing s with
  | nil => simp
  | cons w rest ih =>
    rw [List.foldl_cons, ih, addWord_fwdFreq, addWord_fwdFreq]
    by_cases hid : id' = document_id
    · subst hid
      by_cases hw : w' = w
      · subst hw
        by_cases hr : w' ∈ rest
        · simp [hr, List.count_cons_self]
          ring
        · simp [hr, List.count_eq_zero_of_not_mem hr]
      · have hw2 : w ≠ w' := fun e => hw e.symm
        by_cases hr : w' ∈ rest
        · simp [hr, hw, List.count_cons_of_ne hw2]
        · simp [hr, hw]
    · simp [hid]

theorem erase_of_find?_none {K V : Type} [DecidableEq K] (m : OrdMap K V) (k : K)
    (h : m.find? k = none) : m.erase k = m := by
  induction m with
  | nil => rfl
  | cons p rest ih =>
    obtain ⟨k0, v0⟩ := p
    by_cases hk : k = k0
    · simp [OrdMap.find?, hk] at h
    · simp only [OrdMap.find?, hk, if_false] at h
      have hk' : ¬ k0 = k := fun e => hk e.symm
      simp only [OrdMap.erase, hk', if_false, ih h]

theorem erase_erase {K V : Type} [DecidableEq K] (m : OrdMap K V) (k : K) :
    (m.erase k).erase k = m.erase k :=
  erase_of_find?_none _ _ (by simp [OrdMap.find?_erase])

/-- The erasing loop over words that are all present succeeds and erases the
id from the entries of exactly these words. -/
theorem eraseFromWords_present (document_id : Int) (ws : List Word)
    (inv : OrdMap Word (OrdMap Int α)) (h : ∀ w ∈ ws, w ∈ inv.keys) :
    (eraseFromWords document_id ws inv).1 = .ok () ∧
    (eraseFromWords document_id ws inv).2.keys = inv.keys ∧
    ∀ w, (eraseFromWords document_id ws inv).2.find? w =
      (inv.find? w).map (fun m => if w ∈ ws then m.erase document_id else m) := by
  induction ws generalizing inv with
  | nil => simp [eraseFromWords]
  | cons w rest ih =>
    have hw : w ∈ inv.keys := h w (List.mem_cons_self _ _)
    rw [← OrdMap.find?_isSome_iff] at hw
    obtain ⟨inner, hinner⟩ := Option.isSome_iff_exists.1 hw
    have hrest : ∀ w' ∈ rest, w' ∈ (inv.set w (inner.erase document_id)).keys := by
      intro w' hw'
      rw [OrdMap.keys_set]
      exact h w' (List.mem_cons_of_mem _ hw')
    obtain ⟨h1, h2, h3⟩ := ih (inv.set w (inner.erase document_id)) hrest
    simp only [eraseFromWords, hinner]
    refine ⟨h1, by rw [h2, OrdMap.keys_set], ?_⟩
    intro w'
    rw [h3, OrdMap.find?_set]
    by_cases hw' : w' = w
    · subst hw'
      simp only [if_true, hinner, Option.map_some', List.mem_cons, true_or]
      by_cases hr : w' ∈ rest
      · simp [hr, erase_erase]
      · simp [hr]
    · simp [hw']

theorem find?_some_of_find2? {A B V : Type} [DecidableEq A] [DecidableEq B]
    {m : OrdMap A (OrdMap B V)} {a : A} {b : B} {v : V} (h : m.find2? a b = some v) :
    ∃ inner, m.find? a = some inner ∧ inner.find? b = some v := by
  unfold OrdMap.find2? at h
  cases hm : m.find? a with
  | none => simp [hm] at h
  | some inner => exact ⟨inner, rfl, by simpa [hm] using h⟩

theorem find2?_of_find? {A B V : Type} [DecidableEq A] [DecidableEq B]
    {m : OrdMap A (OrdMap B V)} {a : A} {inner : OrdMap B V} (h : m.find? a = some inner)
    (b : B) : m.find2? a b = inner.find? b := by
  simp [OrdMap.find2?, h]

/-- On a consistent index the erasing loop of `RemoveDocument`, run over the
words of the document in any order, succeeds and erases the id from every
entry of the inverted index. -/
theorem eraseFromWords_spec {s : SearchServer α} (h : IndexInv s) {document_id : Int}
    {words_freqs : OrdMap Word α}
    (hfind : s.words_freqs_in_document.find? document_id = some words_freqs)
    (ws : List Word) (hws : ∀ w, w ∈ ws ↔ w ∈ words_freqs.keys) :
    (eraseFromWords document_id ws s.word_to_document_freqs_).1 = .ok () ∧
    (eraseFromWords document_id ws s.word_to_document_freqs_).2.keys =
      s.word_to_document_freqs_.keys ∧
    ∀ w, (eraseFromWords document_id ws s.word_to_document_freqs_).2.find? w =
      (s.word_to_document_freqs_.find? w).map (fun m => m.erase document_id) := by
  have hcons : ∀ w, words_freqs.find? w = invFreq s w document_id := by
    intro w
    rw [← h.consistent, fwdFreq, find2?_of_find? hfind]
  have hpres : ∀ w ∈ ws, w ∈ s.word_to_document_freqs_.keys := by
    intro w hw
    have hk := (hws w).1 hw
    rw [← OrdMap.find?_isSome_iff] at hk
    obtain ⟨v, hv⟩ := Option.isSome_iff_exists.1 hk
    rw [hcons] at hv
    obtain ⟨inner, hi, _⟩ := find?_some_of_find2? hv
    rw [← OrdMap.find?_isSome_iff, hi]
    rfl
  obtain ⟨h1, h2, h3⟩ := eraseFromWords_present document_id ws s.word_to_document_freqs_ hpres
  refine ⟨h1, h2, ?_⟩
  intro w
  rw [h3]
  cases hm : s.word_to_document_freqs_.find? w with
  | none => rfl
  | some m =>
    by_cases hw : w ∈ ws
    · simp [hw]
    · have hnone : m.find? document_id = none := by
        have := hcons w
        rw [invFreq, find2?_of_find? hm] at this
        rw [← this, OrdMap.find?_eq_none_iff]
        exact fun hk => hw ((hws w).2 hk)
      simp [hw, erase_of_find?_none m document_id hnone]

theorem RemoveDocument_none {s : SearchServer α} {document_id : Int}
    (hfind : s.words_freqs_in_document.find? document_id = none) :
    RemoveDocument s document_id =
      (.error .out_of_range, { s with documents_ := s.documents_.erase document_id }) := by
  simp only [RemoveDocument, hfind]

theorem RemoveDocument_some {s : SearchServer α} (h : IndexInv s) {document_id : Int}
    {words_freqs : OrdMap Word α}
    (hfind : s.words_freqs_in_document.find? document_id = some words_freqs) :
    RemoveDocument s document_id = (.ok (), removedState s document_id words_freqs.keys) := by
  have h1 := (eraseFromWords_spec h hfind words_freqs.keys (fun _ => Iff.rfl)).1
  simp only [RemoveDocument, hfind, removedState]
  rcases hr : eraseFromWords document_id words_freqs.keys s.word_to_document_freqs_ with ⟨r1, r2⟩
  rw [hr] at h1
  simp only at h1
  subst h1
  rfl

theorem RemoveDocumentPar_none (sched : List Word → List Word) {s : SearchServer α}
    {document_id : Int} (hfind : s.words_freqs_in_document.find? document_id = none) :
    RemoveDocumentPar sched s document_id =
      (.ok (), { s with
        documents_ := s.documents_.erase document_id,
        words_freqs_in_document := s.words_freqs_in_document.erase document_id,
        id_list_ := s.id_list_.erase document_id }) := by
  simp only [RemoveDocumentPar, hfind]

theorem RemoveDocumentPar_some (sched : List Word → List Word) (hsched : ∀ l, (sched l).Perm l)
    {s : SearchServer α} (h : IndexInv s) {document_id : Int} {words_freqs : OrdMap Word α}
    (hfind : s.words_freqs_in_document.find? document_id = some words_freqs) :
    RemoveDocumentPar sched s document_id =
      (.ok (), removedState s document_id (sched words_freqs.keys)) := by
  have h1 := (eraseFromWords_spec h hfind (sched words_freqs.keys)
    (fun _ => (hsched _).mem_iff)).1
  simp only [RemoveDocumentPar, hfind, removedState]
  rcases hr : eraseFromWords document_id (sched words_freqs.keys) s.word_to_document_freqs_
    with ⟨r1, r2⟩
  rw [hr] at h1
  simp only at h1
  subst h1
  rfl

theorem sortedKeys_of_keys_eq {K V W : Type} [LinearOrder K] {m : OrdMap K V} {m' : OrdMap K W}
    (hk : m'.keys = m.keys) (hs : m.SortedKeys) : m'.SortedKeys := by
  unfold OrdMap.SortedKeys at *
  rw [hk]
  exact hs

theorem find2?_erase_outer {A B V : Type} [DecidableEq A] [DecidableEq B]
    (m : OrdMap A (OrdMap B V)) (a a' : A) (b : B) :
    (m.erase a).find2? a' b = if a' = a then none else m.find2? a' b := by
  unfold OrdMap.find2?
  rw [OrdMap.find?_erase]
  by_cases h : a' = a <;> simp [h]

/-- Removal of a document that the forward index knows keeps the invariant. -/
theorem removedState_inv {s : SearchServer α} (h : Inv s) {document_id : Int}
    {words_freqs : OrdMap Word α}
    (hfind : s.words_freqs_in_document.find? document_id = some words_freqs)
    (ws : List Word) (hws : ∀ w, w ∈ ws ↔ w ∈ words_freqs.keys) :
    Inv (removedState s document_id ws) := by
  obtain ⟨_, h2, h3⟩ := eraseFromWords_spec h.index hfind ws hws
  have hinv : ∀ w id', invFreq (removedState s document_id ws) w id' =
      if id' = document_id then none else invFreq s w id' := by
    intro w id'
    simp only [invFreq, removedState, OrdMap.find2?, h3]
    cases hm : s.word_to_document_freqs_.find? w with
    | none => simp
    | some m => simp [OrdMap.find?_erase]
  refine ⟨⟨?_, ?_, ?_, ?_, ?_⟩, ?_, ?_, ?_, ?_⟩
  · intro id' w
    rw [hinv]
    simp only [fwdFreq, removedState, find2?_erase_outer]
    by_cases hid : id' = document_id
    · simp [hid]
    · simp only [hid, if_false]
      exact h.index.consistent id' w
  · exact OrdMap.sortedKeys_erase h.index.fwd_sorted _
  · exact sortedKeys_of_keys_eq h2 h.index.inv_sorted
  · intro id' m hm
    simp only [removedState, OrdMap.find?_erase] at hm
    by_cases hid : id' = document_id
    · simp [hid] at hm
    · simp only [hid, if_false] at hm
      exact h.index.fwd_inner id' m hm
  · intro w m hm
    simp only [removedState, h3] at hm
    cases hm0 : s.word_to_document_freqs_.find? w with
    | none => simp [hm0] at hm
    | some m0 =>
      simp only [hm0, Option.map_some', Option.some.injEq] at hm
      rw [← hm]
      exact OrdMap.sortedKeys_erase (h.index.inv_inner w m0 hm0) _
  · intro id' hid'
    simp only [removedState] at hid' ⊢
    rw [OrdMap.mem_keys_erase] at hid' ⊢
    exact ⟨hid'.1, h.fwd_docs id' hid'.2⟩
  · intro id' hid'
    simp only [removedState] at hid' ⊢
    rw [OrdMap.mem_keys_erase] at hid'
    rw [OrdSet.mem_erase]
    exact ⟨hid'.1, h.docs_ids id' hid'.2⟩
  · exact OrdMap.sortedKeys_erase h.docs_sorted _
  · exact OrdSet.sorted_erase h.ids_sorted _

theorem RemoveDocument_inv {s : SearchServer α} (h : Inv s) (document_id : Int) :
    Inv (RemoveDocument s document_id).2 := by
  cases hfind : s.words_freqs_in_document.find? document_id with
  | none =>
    rw [RemoveDocument_none hfind]
    have hnot : document_id ∉ s.words_freqs_in_document.keys :=
      (OrdMap.find?_eq_none_iff _ _).1 hfind
    refine ⟨⟨h.index.consistent, h.index.fwd_sorted, h.index.inv_sorted, h.index.fwd_inner,
      h.index.inv_inner⟩, ?_, ?_, ?_, h.ids_sorted⟩
    · intro id' hid'
      simp only at hid' ⊢
      rw [OrdMap.mem_keys_erase]
      refine ⟨?_, h.fwd_docs id' hid'⟩
      rintro rfl
      exact hnot hid'
    · intro id' hid'
      simp only at hid' ⊢
      rw [OrdMap.mem_keys_erase] at hid'
      exact h.docs_ids id' hid'.2
    · exact OrdMap.sortedKeys_erase h.docs_sorted _
  | some words_freqs =>
    rw [RemoveDocument_some h.index hfind]
    exact removedState_inv h hfind _ (fun _ => Iff.rfl)

theorem RemoveDocumentPar_inv (sched : List Word → List Word) (hsched : ∀ l, (sched l).Perm l)
    {s : SearchServer α} (h : Inv s) (document_id : Int) :
    Inv (RemoveDocumentPar sched s document_id).2 := by
  cases hfind : s.words_freqs_in_document.find? document_id with
  | none =>
    rw [RemoveDocumentPar_none sched hfind]
    have hnot : document_id ∉ s.words_freqs_in_document.keys :=
      (OrdMap.find?_eq_none_iff _ _).1 hfind
    have herase : s.words_freqs_in_document.erase document_id = s.words_freqs_in_document :=
      erase_of_find?_none _ _ hfind
    simp only [herase]
    refine ⟨⟨h.index.consistent, h.index.fwd_sorted, h.index.inv_sorted, h.index.fwd_inner,
      h.index.inv_inner⟩, ?_, ?_, ?_, ?_⟩
    · intro id' hid'
      simp only at hid' ⊢
      rw [OrdMap.mem_keys_erase]
      refine ⟨?_, h.fwd_docs id' hid'⟩
      rintro rfl
      exact hnot hid'
    · intro id' hid'
      simp only at hid' ⊢
      rw [OrdMap.mem_keys_erase] at hid'
      rw [OrdSet.mem_erase]
      exact ⟨hid'.1, h.docs_ids id' hid'.2⟩
    · exact OrdMap.sortedKeys_erase h.docs_sorted _
    · exact OrdSet.sorted_erase h.ids_sorted _
  | some words_freqs =>
    rw [RemoveDocumentPar_some sched hsched h.index hfind]
    exact removedState_inv h hfind _ (fun _ => (hsched _).mem_iff)

theorem AddDocument_ok {s : SearchServer α} {document_id : Int} {document : Word}
    (status : DocumentStatus) (ratings : List Int) (h1 : 0 ≤ document_id)
    (h2 : IsValidWord document = true) (h3 : s.documents_.contains document_id = false) :
    AddDocument s document_id document status ratings =
      (.ok (), addedState s document_id document status ratings) := by
  have h1' : ¬ document_id < 0 := not_lt.2 h1
  simp [AddDocument, h1', h2, h3, addedState]

theorem AddDocument_error {s : SearchServer α} {document_id : Int} {document : Word}
    (status : DocumentStatus) (ratings : List Int)
    (h : document_id < 0 ∨ IsValidWord document = false ∨
      s.documents_.contains document_id = true) :
    AddDocument s document_id document status ratings = (.error .invalid_argument, s) := by
  unfold AddDocument
  by_cases h1 : document_id < 0
  · simp [h1]
  · by_cases h2 : IsValidWord document = true
    · rcases h with h | h | h
      · exact absurd h h1
      · rw [h2] at h
        exact absurd h (by decide)
      · simp [h1, h2, h]
    · simp [h1, h2]

theorem IndexInv.of_eq {s s' : SearchServer α} (h : IndexInv s)
    (hf : s'.words_freqs_in_document = s.words_freqs_in_document)
    (hi : s'.word_to_document_freqs_ = s.word_to_document_freqs_) : IndexInv s' := by
  refine ⟨?_, ?_, ?_, ?_, ?_⟩
  · intro id w
    simp only [fwdFreq, invFreq, hf, hi]
    exact h.consistent id w
  · rw [hf]
    exact h.fwd_sorted
  · rw [hi]
    exact h.inv_sorted
  · rw [hf]
    exact h.fwd_inner
  · rw [hi]
    exact h.inv_inner

theorem contains_eq_false_iff {K V : Type} [DecidableEq K] (m : OrdMap K V) (k : K) :
    m.contains k = false ↔ k ∉ m.keys := by
  rw [← OrdMap.find?_eq_none_iff]
  unfold OrdMap.contains
  cases m.find? k <;> simp

theorem addedState_inv {s : SearchServer α} (h : Inv s) (document_id : Int) (document : Word)
    (status : DocumentStatus) (ratings : List Int) :
    Inv (addedState s document_id document status ratings) := by
  set s1 : SearchServer α := { s with documents_texts_ := s.documents_texts_ ++ [document] }
    with hs1
  have hidx1 : IndexInv s1 := h.index.of_eq rfl rfl
  set words := SplitIntoWordsNoStop s1 document with hwords
  set x : α := 1 / (words.length : α) with hx
  have hidx2 := foldl_addWord_indexInv document_id x words hidx1
  obtain ⟨hd, hi, _, _⟩ := foldl_addWord_documents document_id x words s1
  have hstate : addedState s document_id document status ratings =
      { (words.foldl (addWord document_id x) s1) with
        documents_ := (words.foldl (addWord document_id x) s1).documents_.update document_id
          { rating := ComputeAverageRating ratings, status := status } (fun d => d),
        id_list_ := (words.foldl (addWord document_id x) s1).id_list_.insert document_id } :=
    rfl
  rw [hstate]
  refine ⟨hidx2.of_eq rfl rfl, ?_, ?_, ?_, ?_⟩
  · intro id' hid'
    simp only at hid' ⊢
    rw [OrdMap.mem_keys_update, hd]
    rcases foldl_addWord_keys document_id x words s1 id' hid' with h1 | h1
    · exact Or.inl h1
    · exact Or.inr (h.fwd_docs id' h1)
  · intro id' hid'
    simp only at hid' ⊢
    rw [OrdMap.mem_keys_update, hd] at hid'
    rw [OrdSet.mem_insert, hi]
    rcases hid' with h1 | h1
    · exact Or.inl h1
    · exact Or.inr (h.docs_ids id' h1)
  · simp only [hd]
    exact OrdMap.sortedKeys_update h.docs_sorted _ _ _
  · simp only [hi]
    exact OrdSet.sorted_insert h.ids_sorted _

theorem AddDocument_cases (s : SearchServer α) (document_id : Int) (document : Word)
    (status : DocumentStatus) (ratings : List Int) :
    AddDocument s document_id document status ratings = (.error .invalid_argument, s) ∨
    (0 ≤ document_id ∧ IsValidWord document = true ∧ s.documents_.contains document_id = false ∧
      AddDocument s document_id document status ratings =
        (.ok (), addedState s document_id document status ratings)) := by
  by_cases h1 : document_id < 0
  · exact Or.inl (AddDocument_error status ratings (Or.inl h1))
  · by_cases h2 : IsValidWord document = true
    · by_cases h3 : s.documents_.contains document_id = true
      · exact Or.inl (AddDocument_error status ratings (Or.inr (Or.inr h3)))
      · have h3' : s.documents_.contains document_id = false := by simpa using h3
        exact Or.inr ⟨not_lt.1 h1, h2, h3', AddDocument_ok status ratings (not_lt.1 h1) h2 h3'⟩
    · have h2' : IsValidWord document = false := by simpa using h2
      exact Or.inl (AddDocument_error status ratings (Or.inr (Or.inl h2')))

theorem AddDocument_inv {s : SearchServer α} (h : Inv s) (document_id : Int) (document : Word)
    (status : DocumentStatus) (ratings : List Int) :
    Inv (AddDocument s document_id document status ratings).2 := by
  rcases AddDocument_cases s document_id document status ratings with h1 | ⟨_, _, _, h1⟩
  · rw [h1]
    exact h
  · rw [h1]
    exact addedState_inv h _ _ _ _

theorem fresh_inv (stop_words : OrdSet Word) : Inv (SearchServer.fresh α stop_words) := by
  refine ⟨⟨?_, ?_, ?_, ?_, ?_⟩, ?_, ?_, ?_, ?_⟩
  · intro id w
    rfl
  · exact sortedKeys_nil
  · exact sortedKeys_nil
  · intro id m hm
    simp [SearchServer.fresh, OrdMap.find?] at hm
  · intro w m hm
    simp [SearchServer.fresh, OrdMap.find?] at hm
  · intro id hid
    simp [SearchServer.fresh, OrdMap.keys] at hid
  · intro id hid
    simp [SearchServer.fresh, OrdMap.keys] at hid
  · exact sortedKeys_nil
  · simp [SearchServer.fresh]

theorem getWordFrequencies_find? (s : SearchServer α) (document_id : Int) (word : Word) :
    (GetWordFrequencies s document_id).find? word = fwdFreq s document_id word := by
  unfold GetWordFrequencies fwdFreq OrdMap.find2?
  cases s.words_freqs_in_document.find? document_id <;> simp [OrdMap.find?]

theorem getWordFrequencies_sorted {s : SearchServer α} (h : Inv s) (document_id : Int) :
    (GetWordFrequencies s document_id).SortedKeys := by
  unfold GetWordFrequencies
  cases hm : s.words_freqs_in_document.find? document_id with
  | none => exact sortedKeys_nil
  | some m => exact h.index.fwd_inner document_id m hm

/-- Every reachable state satisfies the invariant. -/
theorem Reachable.inv {s : SearchServer α} (h : Reachable s) : Inv s := by
  induction h with
  | init stop_words => exact fresh_inv stop_words
  | add document_id document status ratings _ ih => exact AddDocument_inv ih _ _ _ _
  | remove document_id _ ih => exact RemoveDocument_inv ih _
  | removePar sched document_id hsched _ ih => exact RemoveDocumentPar_inv sched hsched ih _

end Invariant

/-! ## The parsed query -/

section Parse

variable {α : Type} [LinearOrderedField α]

theorem mem_unique {β : Type} [DecidableEq β] (l : List β) (x : β) : x ∈ unique l ↔ x ∈ l := by
  induction l with
  | nil => simp [unique]
  | cons a rest ih =>
    cases rest with
    | nil => simp [unique]
    | cons b rest' =>
      by_cases hab : a = b
      · subst hab
        simp only [unique, if_true, ih, List.mem_cons]
        tauto
      · simp only [unique, hab, if_false, List.mem_cons, ih]

/-- The algorithm `std::unique` turns an ascending list into a strictly
ascending one. -/
theorem unique_strictly_sorted {β : Type} [DecidableEq β] [LinearOrder β] (l : List β)
    (h : l.Pairwise (fun a b => a ≤ b)) : (unique l).Pairwise (fun a b => a < b) := by
  induction l with
  | nil => simp [unique]
  | cons a rest ih =>
    have ha := List.pairwise_cons.1 h
    cases rest with
    | nil => simp [unique]
    | cons b rest' =>
      by_cases hab : a = b
      · subst hab
        simp only [unique, if_true]
        exact ih ha.2
      · simp only [unique, hab, if_false, List.pairwise_cons]
        refine ⟨?_, ih ha.2⟩
        intro z hz
        rw [mem_unique] at hz
        have hb := List.pairwise_cons.1 ha.2
        have hab' : a < b := lt_of_le_of_ne (ha.1 b (List.mem_cons_self _ _)) hab
        rcases List.mem_cons.1 hz with rfl | hz
        · exact hab'
        · exact lt_of_lt_of_le hab' (hb.1 z hz)

theorem sortWords_sorted (words : List Word) :
    (sortWords words).Pairwise (fun a b => a ≤ b) :=
  List.sorted_insertionSort (fun a b : Word => a ≤ b) words

/-- The word lists of a parsed query are strictly ascending. -/
theorem ParseQuery_sorted {s : SearchServer α} {text : Word} {query : Query}
    (h : ParseQuery s text = .ok query) :
    query.plus_words.Pairwise (fun a b => a < b) ∧
    query.minus_words.Pairwise (fun a b => a < b) := by
  unfold ParseQuery at h
  cases hp : ParseQueryPar s text with
  | error e => simp [hp] at h
  | ok q =>
    simp only [hp, Except.ok.injEq] at h
    rw [← h]
    exact ⟨unique_strictly_sorted _ (sortWords_sorted _),
      unique_strictly_sorted _ (sortWords_sorted _)⟩

theorem ParseQuery_plus_nodup {s : SearchServer α} {text : Word} {query : Query}
    (h : ParseQuery s text = .ok query) : query.plus_words.Nodup :=
  (ParseQuery_sorted h).1.imp (fun hab => ne_of_lt hab)

end Parse

/-! ## The sequential search -/

section Search

variable {α : Type} [LinearOrderedField α]

theorem plusInner_spec (s : SearchServer α) (pred : DocumentPredicate) (idf : α)
    (entry : OrdMap Int α) (hnd : entry.keys.Nodup)
    (hdocs : ∀ id ∈ entry.keys, (s.documents_.find? id).isSome = true)
    (acc : OrdMap Int α) (hacc : acc.SortedKeys) :
    ∃ acc', plusInner s pred idf entry acc = .ok acc' ∧ acc'.SortedKeys ∧
      ∀ id, acc'.find? id =
        match entry.find? id with
        | none => acc.find? id
        | some tf =>
          if accepts s pred id then some ((acc.find? id).getD 0 + tf * idf) else acc.find? id := by
  induction entry generalizing acc with
  | nil => exact ⟨acc, rfl, hacc, fun id => rfl⟩
  | cons p rest ih =>
    obtain ⟨id0, tf0⟩ := p
    simp only [OrdMap.keys, List.map_cons, List.nodup_cons] at hnd
    have h0 := hdocs id0 (by simp [OrdMap.keys])
    obtain ⟨data, hdata⟩ := Option.isSome_iff_exists.1 h0
    have hrest : ∀ id ∈ OrdMap.keys rest, (s.documents_.find? id).isSome = true :=
      fun id hid => hdocs id (by simp only [OrdMap.keys, List.map_cons]; exact List.mem_cons_of_mem _ hid)
    have hnone : OrdMap.find? rest id0 = none := (OrdMap.find?_eq_none_iff _ _).2 hnd.1
    have hacc0 : accepts s pred id0 = pred id0 data.status data.rating := by
      simp [accepts, hdata]
    by_cases hp : pred id0 data.status data.rating = true
    · obtain ⟨acc', h1, h2, h3⟩ := ih hnd.2 hrest
        (acc.update id0 0 (fun v => v + tf0 * idf)) (OrdMap.sortedKeys_update hacc _ _ _)
      refine ⟨acc', by simp only [plusInner, hdata, hp, if_true]; exact h1, h2, ?_⟩
      intro id
      rw [h3, OrdMap.find?_update]
      by_cases hid : id = id0
      · subst hid
        simp [hnone, OrdMap.find?, hacc0, hp]
      · simp [OrdMap.find?, hid]
    · obtain ⟨acc', h1, h2, h3⟩ := ih hnd.2 hrest acc hacc
      refine ⟨acc', by simp only [plusInner, hdata, hp]; exact h1, h2, ?_⟩
      intro id
      rw [h3]
      by_cases hid : id = id0
      · subst hid
        simp [hnone, OrdMap.find?, hacc0, hp]
      · simp [OrdMap.find?, hid]

theorem entry_ids_have_documents {s : SearchServer α} (h : Inv s) {word : Word}
    {entry : OrdMap Int α} (hentry : s.word_to_document_freqs_.find? word = some entry) :
    ∀ id ∈ entry.keys, (s.documents_.find? id).isSome = true := by
  intro id hid
  rw [← OrdMap.find?_isSome_iff] at hid
  obtain ⟨tf, htf⟩ := Option.isSome_iff_exists.1 hid
  have hinvf : invFreq s word id = some tf := by
    rw [invFreq, find2?_of_find? hentry, htf]
  rw [← h.index.consistent] at hinvf
  obtain ⟨m, hm, _⟩ := find?_some_of_find2? hinvf
  rw [OrdMap.find?_isSome_iff]
  apply h.fwd_docs
  rw [← OrdMap.find?_isSome_iff, hm]
  rfl

theorem plusLoop_spec (ln : α → α) {s : SearchServer α} (h : Inv s) (pred : DocumentPredicate)
    (words : List Word) (acc : OrdMap Int α) (hacc : acc.SortedKeys) :
    ∃ acc', plusLoop ln s pred words acc = .ok acc' ∧ acc'.SortedKeys ∧
      ∀ id, acc'.find? id = words.foldl (plusStep ln s pred id) (acc.find? id) := by
  induction words generalizing acc with
  | nil => exact ⟨acc, rfl, hacc, fun id => rfl⟩
  | cons w rest ih =>
    cases hentry : s.word_to_document_freqs_.find? w with
    | none =>
      obtain ⟨acc', h1, h2, h3⟩ := ih acc hacc
      refine ⟨acc', by simp only [plusLoop, hentry]; exact h1, h2, ?_⟩
      intro id
      rw [h3, List.foldl_cons]
      simp [plusStep, invFreq, OrdMap.find2?, hentry]
    | some entry =>
      obtain ⟨acc1, g1, g2, g3⟩ := plusInner_spec s pred (ComputeWordInverseDocumentFreq ln s entry)
        entry (h.index.inv_inner w entry hentry).nodup (entry_ids_have_documents h hentry) acc hacc
      obtain ⟨acc', h1, h2, h3⟩ := ih acc1 g2
      refine ⟨acc', by simp only [plusLoop, hentry, g1]; exact h1, h2, ?_⟩
      intro id
      rw [h3, List.foldl_cons, g3]
      congr 1
      simp only [plusStep, invFreq, find2?_of_find? hentry, codeIdf, hentry]

/-- The closed form of the accumulator slot of a document after the plus
words: absent unless the predicate accepts the document and some plus word
occurs in it, else the sum of the contributions of the words that occur. -/
theorem foldl_plusStep (ln : α → α) (s : SearchServer α) (pred : DocumentPredicate) (id : Int)
    (words : List Word) (slot : Option α) :
    words.foldl (plusStep ln s pred id) slot =
      if accepts s pred id = true ∧ ∃ w ∈ words, (invFreq s w id).isSome = true then
        some (slot.getD 0 + ((words.filter (fun w => (invFreq s w id).isSome)).map
          (fun w => (invFreq s w id).getD 0 * codeIdf ln s w)).sum)
      else slot := by
  induction words generalizing slot with
  | nil => simp
  | cons w rest ih =>
    rw [List.foldl_cons, ih]
    by_cases hacc : accepts s pred id = true
    · cases hw : invFreq s w id with
      | none =>
        by_cases hr : ∃ w' ∈ rest, (invFreq s w' id).isSome = true
        · have hr' : ∃ w' ∈ w :: rest, (invFreq s w' id).isSome = true := by
            obtain ⟨w', h1, h2⟩ := hr
            exact ⟨w', List.mem_cons_of_mem _ h1, h2⟩
          simp only [plusStep, hw, hacc, true_and, hr, hr', if_true, List.filter_cons,
            Option.isSome_none, Bool.false_eq_true, if_false]
        · have hr' : ¬ ∃ w' ∈ w :: rest, (invFreq s w' id).isSome = true := by
            rintro ⟨w', h1, h2⟩
            rcases List.mem_cons.1 h1 with rfl | h1
            · simp [hw] at h2
            · exact hr ⟨w', h1, h2⟩
          simp only [plusStep, hw, hacc, true_and, hr, hr', if_false]
      | some tf =>
        have hr' : ∃ w' ∈ w :: rest, (invFreq s w' id).isSome = true :=
          ⟨w, List.mem_cons_self _ _, by simp [hw]⟩
        by_cases hr : ∃ w' ∈ rest, (invFreq s w' id).isSome = true
        · simp only [plusStep, hw, hacc, true_and, hr, hr', if_true, List.filter_cons,
            Option.isSome_some, List.map_cons, List.sum_cons, Option.getD_some, add_assoc]
        · have hnil : rest.filter (fun w => (invFreq s w id).isSome) = [] := by
            rw [List.filter_eq_nil_iff]
            intro w' hw' hsome
            exact hr ⟨w', hw', hsome⟩
          simp only [plusStep, hw, hacc, true_and, hr, hr', if_true, if_false, List.filter_cons,
            Option.isSome_some, List.map_cons, List.sum_cons, Option.getD_some, hnil,
            List.map_nil, List.sum_nil, add_zero]
    · have hstep : ∀ o, plusStep ln s pred id o w = o := by
        intro o
        unfold plusStep
        cases invFreq s w id <;> simp [hacc]
      simp [hstep, hacc]

theorem foldl_erase_find? (ids : List Int) (acc : OrdMap Int α) (id : Int) :
    (ids.foldl (fun a document_id => a.erase document_id) acc).find? id =
      if id ∈ ids then none else acc.find? id := by
  induction ids generalizing acc with
  | nil => simp
  | cons i rest ih =>
    rw [List.foldl_cons, ih, OrdMap.find?_erase]
    by_cases h1 : id ∈ rest
    · simp [h1]
    · by_cases h2 : id = i
      · simp [h2]
      · simp [h1, h2]

theorem foldl_erase_sorted (ids : List Int) (acc : OrdMap Int α) (hacc : acc.SortedKeys) :
    (ids.foldl (fun a document_id => a.erase document_id) acc).SortedKeys := by
  induction ids generalizing acc with
  | nil => exact hacc
  | cons i rest ih => exact ih _ (OrdMap.sortedKeys_erase hacc _)

theorem minusLoop_spec (s : SearchServer α) (words : List Word) (acc : OrdMap Int α)
    (hacc : acc.SortedKeys) :
    (minusLoop s words acc).SortedKeys ∧
    ∀ id, (minusLoop s words acc).find? id =
      if ∃ w ∈ words, (invFreq s w id).isSome = true then none else acc.find? id := by
  induction words generalizing acc with
  | nil => exact ⟨hacc, fun id => by simp [minusLoop]⟩
  | cons w rest ih =>
    cases hentry : s.word_to_document_freqs_.find? w with
    | none =>
      obtain ⟨h1, h2⟩ := ih acc hacc
      simp only [minusLoop, hentry]
      refine ⟨h1, fun id => ?_⟩
      rw [h2]
      have hw : invFreq s w id = none := by simp [invFreq, OrdMap.find2?, hentry]
      simp [hw]
    | some entry =>
      obtain ⟨h1, h2⟩ := ih _ (foldl_erase_sorted entry.keys acc hacc)
      simp only [minusLoop, hentry]
      refine ⟨h1, fun id => ?_⟩
      rw [h2, foldl_erase_find?]
      have hw : (invFreq s w id).isSome = true ↔ id ∈ entry.keys := by
        rw [invFreq, find2?_of_find? hentry, OrdMap.find?_isSome_iff]
      by_cases hr : ∃ w' ∈ rest, (invFreq s w' id).isSome = true
      · have hr' : ∃ w' ∈ w :: rest, (invFreq s w' id).isSome = true := by
          obtain ⟨w', g1, g2⟩ := hr
          exact ⟨w', List.mem_cons_of_mem _ g1, g2⟩
        rw [if_pos hr', if_pos hr]
      · by_cases hin : id ∈ entry.keys
        · have hr' : ∃ w' ∈ w :: rest, (invFreq s w' id).isSome = true :=
            ⟨w, List.mem_cons_self _ _, hw.2 hin⟩
          rw [if_pos hr', if_neg hr, if_pos hin]
        · have hr' : ¬ ∃ w' ∈ w :: rest, (invFreq s w' id).isSome = true := by
            rintro ⟨w', g1, g2⟩
            rcases List.mem_cons.1 g1 with rfl | g1
            · exact hin (hw.1 g2)
            · exact hr ⟨w', g1, g2⟩
          rw [if_neg hr', if_neg hr, if_neg hin]

theorem emitDocuments_spec (s : SearchServer α) (m : OrdMap Int α)
    (hdocs : ∀ id ∈ m.keys, (s.documents_.find? id).isSome = true) :
    emitDocuments s m = .ok (m.map (toDocument s)) := by
  induction m with
  | nil => rfl
  | cons p rest ih =>
    obtain ⟨id0, rel0⟩ := p
    have h0 := hdocs id0 (by simp [OrdMap.keys])
    obtain ⟨data, hdata⟩ := Option.isSome_iff_exists.1 h0
    have hrest : ∀ id ∈ OrdMap.keys rest, (s.documents_.find? id).isSome = true :=
      fun id hid => hdocs id (by simp only [OrdMap.keys, List.map_cons]; exact List.mem_cons_of_mem _ hid)
    simp only [emitDocuments, hdata, ih hrest, List.map_cons, toDocument]

/-- The accumulator slot of a document at the end of `FindAllDocuments`. -/
theorem FindAllDocuments_spec (ln : α → α) {s : SearchServer α} (h : Inv s) (query : Query)
    (pred : DocumentPredicate) :
    ∃ m : OrdMap Int α, FindAllDocuments ln s query pred = .ok (m.map (toDocument s)) ∧
      m.SortedKeys ∧
      ∀ id, m.find? id =
        if ∃ w ∈ query.minus_words, (invFreq s w id).isSome = true then none
        else if accepts s pred id = true ∧
            ∃ w ∈ query.plus_words, (invFreq s w id).isSome = true then
          some (((query.plus_words.filter (fun w => (invFreq s w id).isSome)).map
            (fun w => (invFreq s w id).getD 0 * codeIdf ln s w)).sum)
        else none := by
  obtain ⟨acc, h1, h2, h3⟩ := plusLoop_spec ln h pred query.plus_words [] sortedKeys_nil
  obtain ⟨g1, g2⟩ := minusLoop_spec s query.minus_words acc h2
  have hfind : ∀ id, (minusLoop s query.minus_words acc).find? id =
      if ∃ w ∈ query.minus_words, (invFreq s w id).isSome = true then none
      else if accepts s pred id = true ∧
          ∃ w ∈ query.plus_words, (invFreq s w id).isSome = true then
        some (((query.plus_words.filter (fun w => (invFreq s w id).isSome)).map
          (fun w => (invFreq s w id).getD 0 * codeIdf ln s w)).sum)
      else none := by
    intro id
    rw [g2, h3, foldl_plusStep]
    simp [OrdMap.find?]
  refine ⟨minusLoop s query.minus_words acc, ?_, g1, hfind⟩
  simp only [FindAllDocuments, h1]
  apply emitDocuments_spec
  intro id hid
  rw [← OrdMap.find?_isSome_iff, hfind] at hid
  by_cases hm : ∃ w ∈ query.minus_words, (invFreq s w id).isSome = true
  · simp [hm] at hid
  · by_cases hp : accepts s pred id = true ∧
        ∃ w ∈ query.plus_words, (invFreq s w id).isSome = true
    · have hacc := hp.1
      unfold accepts at hacc
      cases hd : s.documents_.find? id with
      | none => simp [hd] at hacc
      | some d => rfl
    · rw [if_neg hm, if_neg hp] at hid
      cases hid

theorem containsWord_eq {s : SearchServer α} (h : Inv s) (id : Int) (w : Word) :
    containsWord s id w = (invFreq s w id).isSome := by
  unfold containsWord
  rw [getWordFrequencies_find?, h.index.consistent]

theorem termFreq_eq {s : SearchServer α} (h : Inv s) (w : Word) (id : Int) :
    termFreq s w id = (invFreq s w id).getD 0 := by
  unfold termFreq
  rw [getWordFrequencies_find?, h.index.consistent]

theorem length_filter_mem_of_subset (A B : List Int) (hA : A.Nodup) (hB : B.Nodup)
    (hsub : ∀ x ∈ A, x ∈ B) (p : Int → Bool) (hp : ∀ x, p x = true ↔ x ∈ A) :
    (B.filter p).length = A.length := by
  apply List.Perm.length_eq
  refine (List.perm_ext_iff_of_nodup (hB.filter _) hA).2 ?_
  intro x
  rw [List.mem_filter, hp]
  exact ⟨fun hx => hx.2, fun hx => ⟨hsub x hx, hx⟩⟩

/-- The size of an inverted entry is the number of documents with the word. -/
theorem documentFreq_eq {s : SearchServer α} (h : Inv s) {w : Word} {entry : OrdMap Int α}
    (hentry : s.word_to_document_freqs_.find? w = some entry) :
    documentFreq s w = entry.length := by
  unfold documentFreq
  have hk : entry.length = entry.keys.length := by simp [OrdMap.keys]
  rw [hk]
  apply length_filter_mem_of_subset _ _ (h.index.inv_inner w entry hentry).nodup
    h.docs_sorted.nodup
  · intro id hid
    rw [← OrdMap.find?_isSome_iff]
    exact entry_ids_have_documents h hentry id hid
  · intro id
    rw [containsWord_eq h, invFreq, find2?_of_find? hentry, OrdMap.find?_isSome_iff]

theorem codeIdf_eq (ln : α → α) {s : SearchServer α} (h : Inv s) {w : Word} {id : Int}
    (hw : (invFreq s w id).isSome = true) :
    codeIdf ln s w = ln ((GetDocumentCount s : α) / (documentFreq s w : α)) := by
  obtain ⟨tf, htf⟩ := Option.isSome_iff_exists.1 hw
  obtain ⟨entry, hentry, _⟩ := find?_some_of_find2? htf
  rw [documentFreq_eq h hentry]
  simp [codeIdf, hentry, ComputeWordInverseDocumentFreq]

theorem sortDocuments_perm (docs : List (Document α)) : (sortDocuments docs).Perm docs :=
  List.perm_insertionSort _ docs

theorem sortDocuments_length (docs : List (Document α)) :
    (sortDocuments docs).length = docs.length :=
  (sortDocuments_perm docs).length_eq

theorem sortAndTruncate_eq_take (docs : List (Document α)) :
    sortAndTruncate docs = (sortDocuments docs).take MAX_RESULT_DOCUMENT_COUNT := by
  unfold sortAndTruncate
  by_cases hlen : (sortDocuments docs).length > MAX_RESULT_DOCUMENT_COUNT
  · simp only [hlen, if_true]
  · simp only [hlen, if_false]
    exact (List.take_of_length_le (not_lt.1 hlen)).symm

theorem sortAndTruncate_length (docs : List (Document α)) :
    (sortAndTruncate docs).length = min MAX_RESULT_DOCUMENT_COUNT docs.length := by
  rw [sortAndTruncate_eq_take, List.length_take, sortDocuments_length]

theorem mem_of_mem_sortAndTruncate {docs : List (Document α)} {d : Document α}
    (hd : d ∈ sortAndTruncate docs) : d ∈ docs := by
  rw [sortAndTruncate_eq_take] at hd
  exact (sortDocuments_perm docs).mem_iff.1 (List.mem_of_mem_take hd)

theorem FindTopDocuments_of_parse (ln : α → α) (s : SearchServer α) {raw_query : Word}
    {query : Query} (hq : ParseQuery s raw_query = .ok query) (pred : DocumentPredicate)
    {matched : List (Document α)} (hm : FindAllDocuments ln s query pred = .ok matched) :
    FindTopDocuments ln s raw_query pred = .ok (sortAndTruncate matched) := by
  simp only [FindTopDocuments, hq, hm]

end Search

/-! ## The sharded accumulator -/

section Accumulator

variable {α : Type} [LinearOrderedField α]

theorem bucketIndex_lt (key : Int) {n : Nat} (hn : 0 < n) : bucketIndex key n < n :=
  Nat.mod_lt _ hn

theorem create_wf (n : Nat) (hn : 0 < n) : (ConcurrentMap.create α n).WF := by
  refine ⟨by simpa [ConcurrentMap.create] using hn, ?_, ?_⟩
  · intro i bucket hb
    simp only [ConcurrentMap.create, List.getElem?_replicate] at hb
    by_cases hi : i < n
    · simp only [hi, if_true, Option.some.injEq] at hb
      rw [← hb]
      exact sortedKeys_nil
    · simp [hi] at hb
  · intro i bucket hb k hk
    simp only [ConcurrentMap.create, List.getElem?_replicate] at hb
    by_cases hi : i < n
    · simp only [hi, if_true, Option.some.injEq] at hb
      rw [← hb] at hk
      simp [OrdMap.keys] at hk
    · simp [hi] at hb

theorem create_lookup (n : Nat) (key : Int) : (ConcurrentMap.create α n).lookup key = none := by
  unfold ConcurrentMap.lookup
  cases hb : (ConcurrentMap.create α n).buckets_[bucketIndex key
      (ConcurrentMap.create α n).buckets_.length]? with
  | none => rfl
  | some bucket =>
    simp only [ConcurrentMap.create, List.getElem?_replicate] at hb
    split at hb
    · simp only [Option.some.injEq] at hb
      rw [← hb]
      rfl
    · cases hb

/-- The effect on the lookups of an update of the bucket of `key` that
touches only the slot of `key`. -/
theorem onBucket_spec {cm : ConcurrentMap α} (hwf : cm.WF) (key : Int)
    (f : OrdMap Int α → OrdMap Int α) (g : Option α → Option α)
    (hf : ∀ b k, (f b).find? k = if k = key then g (b.find? key) else b.find? k)
    (hs : ∀ b, b.SortedKeys → (f b).SortedKeys) :
    (cm.onBucket key f).WF ∧
    ∀ id, (cm.onBucket key f).lookup id = if id = key then g (cm.lookup key) else cm.lookup id := by
  have hlt := bucketIndex_lt key hwf.nonempty
  obtain ⟨bucket, hbucket⟩ : ∃ b, cm.buckets_[bucketIndex key cm.buckets_.length]? = some b :=
    ⟨_, List.getElem?_eq_getElem hlt⟩
  have hstate : cm.onBucket key f =
      { buckets_ := cm.buckets_.set (bucketIndex key cm.buckets_.length) (f bucket) } := by
    simp only [ConcurrentMap.onBucket, hbucket]
  have hlen : (cm.onBucket key f).buckets_.length = cm.buckets_.length := by
    rw [hstate]
    simp
  have hget : ∀ i, (cm.onBucket key f).buckets_[i]? =
      if bucketIndex key cm.buckets_.length = i then some (f bucket) else cm.buckets_[i]? := by
    intro i
    rw [hstate]
    simp only [List.getElem?_set]
    by_cases hi : bucketIndex key cm.buckets_.length = i
    · subst hi
      simp [hlt]
    · simp [hi]
  constructor
  · refine ⟨by rw [hlen]; exact hwf.nonempty, ?_, ?_⟩
    · intro i b hb
      rw [hget] at hb
      by_cases hi : bucketIndex key cm.buckets_.length = i
      · simp only [hi, if_true, Option.some.injEq] at hb
        rw [← hb]
        exact hs _ (hwf.sorted _ _ hbucket)
      · simp only [hi, if_false] at hb
        exact hwf.sorted _ _ hb
    · intro i b hb k hk
      rw [hlen]
      rw [hget] at hb
      by_cases hi : bucketIndex key cm.buckets_.length = i
      · simp only [hi, if_true, Option.some.injEq] at hb
        rw [← hb, ← OrdMap.find?_isSome_iff, hf] at hk
        by_cases hkk : k = key
        · rw [hkk]
          exact hi
        · simp only [hkk, if_false] at hk
          rw [← hi]
          exact hwf.home _ _ hbucket k ((OrdMap.find?_isSome_iff _ _).1 hk)
      · simp only [hi, if_false] at hb
        exact hwf.home _ _ hb k hk
  · intro id
    unfold ConcurrentMap.lookup
    rw [hlen, hget]
    by_cases hid : id = key
    · subst hid
      simp [hbucket, hf]
    · by_cases hi : bucketIndex key cm.buckets_.length = bucketIndex id cm.buckets_.length
      · simp only [hi, if_true, hid, if_false]
        rw [← hi, hbucket]
        simp [hf, hid]
      · simp [hi, hid]

theorem add_spec {cm : ConcurrentMap α} (hwf : cm.WF) (key : Int) (value : α) :
    (cm.add key value).WF ∧
    ∀ id, (cm.add key value).lookup id =
      if id = key then some ((cm.lookup key).getD 0 + value) else cm.lookup id := by
  unfold ConcurrentMap.add
  exact onBucket_spec hwf key _ (fun o => some (o.getD 0 + value))
    (fun b k => OrdMap.find?_update b key k 0 _)
    (fun b hb => OrdMap.sortedKeys_update hb _ _ _)

theorem Erase_spec {cm : ConcurrentMap α} (hwf : cm.WF) (key : Int) :
    (cm.Erase key).WF ∧
    ∀ id, (cm.Erase key).lookup id = if id = key then none else cm.lookup id := by
  unfold ConcurrentMap.Erase
  exact onBucket_spec hwf key _ (fun _ => none)
    (fun b k => OrdMap.find?_erase b key k)
    (fun b hb => OrdMap.sortedKeys_erase hb _)

theorem insertRange_spec (map flat : OrdMap Int α) (hflat : flat.SortedKeys) :
    (insertRange flat map).SortedKeys ∧
    ∀ id, (insertRange flat map).find? id =
      match flat.find? id with
      | some v => some v
      | none => map.find? id := by
  induction map generalizing flat with
  | nil =>
    refine ⟨hflat, fun id => ?_⟩
    cases hf : flat.find? id <;> simp [insertRange, hf, OrdMap.find?]
  | cons p rest ih =>
    obtain ⟨k, v⟩ := p
    unfold insertRange
    rw [List.foldl_cons]
    by_cases hc : flat.contains k = true
    · simp only [hc, if_true]
      obtain ⟨h1, h2⟩ := ih flat hflat
      refine ⟨h1, fun id => ?_⟩
      have h2' := h2 id
      unfold insertRange at h2'
      rw [h2']
      cases hf : flat.find? id with
      | some v' => rfl
      | none =>
        have hne : id ≠ k := by
          rintro rfl
          simp [OrdMap.contains, hf] at hc
        simp [OrdMap.find?, hne]
    · have hnone : flat.find? k = none := by
        cases hf : flat.find? k with
        | none => rfl
        | some v' => simp [OrdMap.contains, hf] at hc
      simp only [hc]
      obtain ⟨h1, h2⟩ := ih (flat.insertNew k v) (OrdMap.sortedKeys_insertNew hflat v hnone)
      refine ⟨h1, fun id => ?_⟩
      have h2' := h2 id
      unfold insertRange at h2'
      simp only [Bool.false_eq_true, if_false]
      rw [h2']
      by_cases hid : id = k
      · subst hid
        simp [OrdMap.find?_insertNew_self flat v hnone, hnone, OrdMap.find?]
      · rw [OrdMap.find?_insertNew_ne flat v hid]
        simp [OrdMap.find?, hid]

theorem foldl_insertRange_spec (buckets : List (OrdMap Int α)) (flat : OrdMap Int α)
    (hflat : flat.SortedKeys) :
    (buckets.foldl insertRange flat).SortedKeys ∧
    ∀ id, (buckets.foldl insertRange flat).find? id =
      match flat.find? id with
      | some v => some v
      | none => buckets.findSome? (fun b => b.find? id) := by
  induction buckets generalizing flat with
  | nil =>
    refine ⟨hflat, fun id => ?_⟩
    cases hf : flat.find? id <;> simp [hf]
  | cons b rest ih =>
    obtain ⟨g1, g2⟩ := insertRange_spec b flat hflat
    obtain ⟨h1, h2⟩ := ih (insertRange flat b) g1
    refine ⟨h1, fun id => ?_⟩
    rw [List.foldl_cons, h2, g2]
    cases hf : flat.find? id with
    | some v => rfl
    | none =>
      cases hb : b.find? id with
      | some v => simp [List.findSome?_cons, hb]
      | none => simp [List.findSome?_cons, hb]

theorem findSome?_of_home {β γ : Type} (f : β → Option γ) (l : List β) (i : Nat)
    (h : ∀ j b, l[j]? = some b → j ≠ i → f b = none) :
    l.findSome? f = (l[i]?).bind f := by
  induction l generalizing i with
  | nil => rfl
  | cons b rest ih =>
    cases i with
    | zero =>
      simp only [List.getElem?_cons_zero, List.findSome?_cons, Option.some_bind]
      cases hb : f b with
      | some v => rfl
      | none =>
        simp only
        have hrest : rest.findSome? f = none := by
          rw [List.findSome?_eq_none_iff]
          intro x hx
          obtain ⟨n, hn⟩ := List.mem_iff_get?.1 hx
          exact h (n + 1) x (by simpa using hn) (by omega)
        exact hrest
    | succ i =>
      have hb : f b = none := h 0 b (by simp) (by omega)
      simp only [List.getElem?_cons_succ, List.findSome?_cons, hb]
      apply ih
      intro j b' hj hne
      exact h (j + 1) b' (by simpa using hj) (by omega)

/-- The flattened map has ascending keys and the lookups of the accumulator. -/
theorem BuildOrdinaryMap_spec {cm : ConcurrentMap α} (hwf : cm.WF) :
    cm.BuildOrdinaryMap.SortedKeys ∧ ∀ id, cm.BuildOrdinaryMap.find? id = cm.lookup id := by
  obtain ⟨h1, h2⟩ := foldl_insertRange_spec cm.buckets_ [] sortedKeys_nil
  refine ⟨h1, fun id => ?_⟩
  have hhome := findSome?_of_home (fun b : OrdMap Int α => b.find? id) cm.buckets_
    (bucketIndex id cm.buckets_.length) (by
      intro j b hj hne
      rw [OrdMap.find?_eq_none_iff]
      intro hk
      exact hne (hwf.home j b hj id hk).symm)
  unfold ConcurrentMap.BuildOrdinaryMap ConcurrentMap.lookup
  rw [h2]
  simp only [OrdMap.find?]
  rw [hhome]
  cases cm.buckets_[bucketIndex id cm.buckets_.length]? <;> rfl

theorem slotOps_cons (op : Int × α) (ops : List (Int × α)) (id : Int) :
    slotOps (op :: ops) id = if op.1 = id then op.2 :: slotOps ops id else slotOps ops id := by
  unfold slotOps
  by_cases h : op.1 = id <;> simp [List.filter_cons, h]

theorem slotOps_append (ops ops1 : List (Int × α)) (id : Int) :
    slotOps (ops ++ ops1) id = slotOps ops id ++ slotOps ops1 id := by
  simp [slotOps]

theorem slotOps_perm {ops ops1 : List (Int × α)} (h : ops.Perm ops1) (id : Int) :
    (slotOps ops id).Perm (slotOps ops1 id) :=
  (h.filter _).map _

/-- The accumulator after a sequence of `cm[key] += value` statements. -/
theorem foldl_add_spec (ops : List (Int × α)) {cm : ConcurrentMap α} (hwf : cm.WF) :
    (ops.foldl (fun cm op => cm.add op.1 op.2) cm).WF ∧
    ∀ id, (ops.foldl (fun cm op => cm.add op.1 op.2) cm).lookup id =
      if slotOps ops id = [] then cm.lookup id
      else some ((cm.lookup id).getD 0 + (slotOps ops id).sum) := by
  induction ops generalizing cm with
  | nil => exact ⟨hwf, fun id => by simp [slotOps]⟩
  | cons op rest ih =>
    obtain ⟨g1, g2⟩ := add_spec hwf op.1 op.2
    obtain ⟨h1, h2⟩ := ih g1
    refine ⟨h1, fun id => ?_⟩
    rw [List.foldl_cons, h2, g2, slotOps_cons]
    by_cases hid : op.1 = id
    · subst hid
      by_cases hr : slotOps rest op.1 = []
      · simp [hr]
      · simp [hr, add_assoc]
    · have hid' : ¬ id = op.1 := fun e => hid e.symm
      simp [hid, hid']

/-- The accumulator after a sequence of `Erase` calls. -/
theorem foldl_Erase_spec (ids : List Int) {cm : ConcurrentMap α} (hwf : cm.WF) :
    (ids.foldl (fun cm document_id => cm.Erase document_id) cm).WF ∧
    ∀ id, (ids.foldl (fun cm document_id => cm.Erase document_id) cm).lookup id =
      if id ∈ ids then none else cm.lookup id := by
  induction ids generalizing cm with
  | nil => exact ⟨hwf, fun id => by simp⟩
  | cons i rest ih =>
    obtain ⟨g1, g2⟩ := Erase_spec hwf i
    obtain ⟨h1, h2⟩ := ih g1
    refine ⟨h1, fun id => ?_⟩
    rw [List.foldl_cons, h2, g2]
    by_cases hr : id ∈ rest
    · simp [hr]
    · by_cases hi : id = i
      · simp [hi]
      · simp [hr, hi]

theorem plusOpsInner_spec (s : SearchServer α) (pred : DocumentPredicate) (idf : α)
    (entry : OrdMap Int α) (hnd : entry.keys.Nodup)
    (hdocs : ∀ id ∈ entry.keys, (s.documents_.find? id).isSome = true) :
    ∃ ops, plusOpsInner s pred idf entry = .ok ops ∧
      ∀ id, slotOps ops id =
        match entry.find? id with
        | none => []
        | some tf => if accepts s pred id then [tf * idf] else [] := by
  induction entry with
  | nil => exact ⟨[], rfl, fun id => rfl⟩
  | cons p rest ih =>
    obtain ⟨id0, tf0⟩ := p
    simp only [OrdMap.keys, List.map_cons, List.nodup_cons] at hnd
    have h0 := hdocs id0 (by simp [OrdMap.keys])
    obtain ⟨data, hdata⟩ := Option.isSome_iff_exists.1 h0
    have hrest : ∀ id ∈ OrdMap.keys rest, (s.documents_.find? id).isSome = true :=
      fun id hid => hdocs id (by
        simp only [OrdMap.keys, List.map_cons]
        exact List.mem_cons_of_mem _ hid)
    have hnone : OrdMap.find? rest id0 = none := (OrdMap.find?_eq_none_iff _ _).2 hnd.1
    have hacc0 : accepts s pred id0 = pred id0 data.status data.rating := by
      simp [accepts, hdata]
    obtain ⟨ops, h1, h2⟩ := ih hnd.2 hrest
    by_cases hp : pred id0 data.status data.rating = true
    · refine ⟨(id0, tf0 * idf) :: ops, by simp only [plusOpsInner, hdata, h1, hp, if_true], ?_⟩
      intro id
      rw [slotOps_cons, h2]
      by_cases hid : id = id0
      · subst hid
        simp [hnone, OrdMap.find?, hacc0, hp]
      · have hid' : ¬ id0 = id := fun e => hid e.symm
        simp [OrdMap.find?, hid, hid']
    · refine ⟨ops, by simp only [plusOpsInner, hdata, h1, hp]; rfl, ?_⟩
      intro id
      rw [h2]
      by_cases hid : id = id0
      · subst hid
        simp [hnone, OrdMap.find?, hacc0, hp]
      · simp [OrdMap.find?, hid]

theorem plusOps_spec (ln : α → α) {s : SearchServer α} (h : Inv s) (pred : DocumentPredicate)
    (words : List Word) :
    ∃ ops, plusOps ln s pred words = .ok ops ∧
      ∀ id, slotOps ops id =
        if accepts s pred id = true then
          (words.filter (fun w => (invFreq s w id).isSome)).map
            (fun w => (invFreq s w id).getD 0 * codeIdf ln s w)
        else [] := by
  induction words with
  | nil => exact ⟨[], rfl, fun id => by simp [slotOps]⟩
  | cons w rest ih =>
    obtain ⟨ops1, h1, h2⟩ := ih
    cases hentry : s.word_to_document_freqs_.find? w with
    | none =>
      refine ⟨ops1, by simp only [plusOps, PlusWordFreqs, hentry, h1]; rfl, ?_⟩
      intro id
      have hw : invFreq s w id = none := by simp [invFreq, OrdMap.find2?, hentry]
      rw [h2]
      simp [List.filter_cons, hw]
    | some entry =>
      obtain ⟨ops, g1, g2⟩ := plusOpsInner_spec s pred (ComputeWordInverseDocumentFreq ln s entry)
        entry (h.index.inv_inner w entry hentry).nodup (entry_ids_have_documents h hentry)
      refine ⟨ops ++ ops1, by simp only [plusOps, PlusWordFreqs, hentry, g1, h1], ?_⟩
      intro id
      rw [slotOps_append, h2, g2]
      have hw : invFreq s w id = entry.find? id := by
        rw [invFreq, find2?_of_find? hentry]
      by_cases hacc : accepts s pred id = true
      · cases hf : entry.find? id with
        | none => simp [List.filter_cons, hw, hf, hacc]
        | some tf => simp [List.filter_cons, hw, hf, hacc, codeIdf, hentry]
      · cases hf : entry.find? id with
        | none => simp [hacc]
        | some tf => simp [hacc]

theorem mem_minusOps (s : SearchServer α) (words : List Word) (id : Int) :
    id ∈ minusOps s words ↔ ∃ w ∈ words, (invFreq s w id).isSome = true := by
  induction words with
  | nil => simp [minusOps]
  | cons w rest ih =>
    cases hentry : s.word_to_document_freqs_.find? w with
    | none =>
      have hw : invFreq s w id = none := by simp [invFreq, OrdMap.find2?, hentry]
      simp only [minusOps, hentry, ih, List.mem_cons]
      constructor
      · rintro ⟨w', g1, g2⟩
        exact ⟨w', Or.inr g1, g2⟩
      · rintro ⟨w', g1 | g1, g2⟩
        · rw [g1, hw] at g2
          cases g2
        · exact ⟨w', g1, g2⟩
    | some entry =>
      have hw : (invFreq s w id).isSome = true ↔ id ∈ entry.keys := by
        rw [invFreq, find2?_of_find? hentry, OrdMap.find?_isSome_iff]
      simp only [minusOps, hentry, List.mem_append, ih, List.mem_cons]
      constructor
      · rintro (g | ⟨w', g1, g2⟩)
        · exact ⟨w, Or.inl rfl, hw.2 g⟩
        · exact ⟨w', Or.inr g1, g2⟩
      · rintro ⟨w', g1 | g1, g2⟩
        · rw [g1] at g2
          exact Or.inl (hw.1 g2)
        · exact Or.inr ⟨w', g1, g2⟩

theorem transformDocuments_spec (s : SearchServer α) (m : OrdMap Int α)
    (hdocs : ∀ id ∈ m.keys, (s.documents_.find? id).isSome = true) :
    transformDocuments s m = .ok (m.map (toDocument s)) := by
  induction m with
  | nil => rfl
  | cons p rest ih =>
    obtain ⟨id0, rel0⟩ := p
    have h0 := hdocs id0 (by simp [OrdMap.keys])
    obtain ⟨data, hdata⟩ := Option.isSome_iff_exists.1 h0
    have hrest : ∀ id ∈ OrdMap.keys rest, (s.documents_.find? id).isSome = true :=
      fun id hid => hdocs id (by
        simp only [OrdMap.keys, List.map_cons]
        exact List.mem_cons_of_mem _ hid)
    simp only [transformDocuments, hdata, ih hrest, List.map_cons, toDocument]

/-- On a state that satisfies the invariant, for a query whose minus phase
has no two workers on one bucket, the parallel `FindAllDocuments` returns in
exact arithmetic what the sequential one returns, whatever the
interleavings. -/
theorem FindAllDocumentsPar_eq (sched_plus : List (Int × α) → List (Int × α))
    (sched_minus : List Int → List Int) (hplus : ∀ l, (sched_plus l).Perm l)
    (hminus : ∀ l, (sched_minus l).Perm l) (ln : α → α) {s : SearchServer α} (h : Inv s)
    (query : Query) (hrace : eraseRace s query.minus_words = false)
    (pred : DocumentPredicate) :
    FindAllDocumentsPar sched_plus sched_minus ln s query pred =
      FindAllDocuments ln s query pred := by
  obtain ⟨m, h1, h2, h3⟩ := FindAllDocuments_spec ln h query pred
  obtain ⟨ops, g1, g2⟩ := plusOps_spec ln h pred query.plus_words
  obtain ⟨w1, l1⟩ := foldl_add_spec (sched_plus ops)
    (@create_wf α _ THREAD_COUNT (by decide))
  obtain ⟨w2, l2⟩ := foldl_Erase_spec (sched_minus (minusOps s query.minus_words)) w1
  obtain ⟨b1, b2⟩ := BuildOrdinaryMap_spec w2
  have hslot : ∀ id, (slotOps (sched_plus ops) id).Perm (slotOps ops id) :=
    fun id => slotOps_perm (hplus ops) id
  have hm : ((sched_minus (minusOps s query.minus_words)).foldl
      (fun cm document_id => cm.Erase document_id)
      ((sched_plus ops).foldl (fun cm op => cm.add op.1 op.2)
        (ConcurrentMap.create α THREAD_COUNT))).BuildOrdinaryMap = m := by
    apply OrdMap.ext_of_sorted b1 h2
    intro id
    rw [b2, l2, l1, h3, create_lookup]
    have hmem : id ∈ sched_minus (minusOps s query.minus_words) ↔
        ∃ w ∈ query.minus_words, (invFreq s w id).isSome = true := by
      rw [(hminus _).mem_iff, mem_minusOps]
    by_cases hmin : ∃ w ∈ query.minus_words, (invFreq s w id).isSome = true
    · rw [if_pos hmin, if_pos (hmem.2 hmin)]
    · rw [if_neg hmin, if_neg (fun e => hmin (hmem.1 e))]
      have hnil : slotOps (sched_plus ops) id = [] ↔ slotOps ops id = [] :=
        ⟨fun e => by
          have hp := hslot id
          rw [e] at hp
          exact hp.symm.eq_nil,
        fun e => by
          have hp := hslot id
          rw [e] at hp
          exact hp.eq_nil⟩
      rw [(hslot id).sum_eq]
      by_cases hacc : accepts s pred id = true
      · by_cases hpl : ∃ w ∈ query.plus_words, (invFreq s w id).isSome = true
        · have hne : ¬ slotOps ops id = [] := by
            rw [g2, if_pos hacc]
            obtain ⟨w, hw1, hw2⟩ := hpl
            intro e
            have hmem : w ∈ query.plus_words.filter (fun w => (invFreq s w id).isSome) :=
              List.mem_filter.2 ⟨hw1, hw2⟩
            have := List.map_eq_nil_iff.1 e
            rw [this] at hmem
            cases hmem
          rw [if_neg (fun e => hne (hnil.1 e)), if_pos ⟨hacc, hpl⟩, g2, if_pos hacc]
          simp
        · have he : slotOps ops id = [] := by
            rw [g2, if_pos hacc, List.map_eq_nil_iff, List.filter_eq_nil_iff]
            intro w hw hsome
            exact hpl ⟨w, hw, hsome⟩
          rw [if_pos (hnil.2 he), if_neg (fun e => hpl e.2)]
      · have he : slotOps ops id = [] := by
          rw [g2, if_neg hacc]
        rw [if_pos (hnil.2 he), if_neg (fun e => hacc e.1)]
  simp only [FindAllDocumentsPar, g1, hrace, Bool.false_eq_true, if_false, hm]
  rw [h1]
  apply transformDocuments_spec
  intro id hid
  rw [← OrdMap.find?_isSome_iff, h3] at hid
  by_cases hmin : ∃ w ∈ query.minus_words, (invFreq s w id).isSome = true
  · rw [if_pos hmin] at hid
    cases hid
  · by_cases hp : accepts s pred id = true ∧
        ∃ w ∈ query.plus_words, (invFreq s w id).isSome = true
    · have hacc := hp.1
      unfold accepts at hacc
      cases hd : s.documents_.find? id with
      | none => simp [hd] at hacc
      | some d => rfl
    · rw [if_neg hmin, if_neg hp] at hid
      cases hid

end Accumulator

/-! ## The order of the results -/

section Order

variable {α : Type} [LinearOrderedField α]

theorem DELTA_pos : (0 : α) < DELTA := by
  unfold DELTA
  positivity

theorem nearTie_comm (x y : Document α) : nearTie x y ↔ nearTie y x := by
  unfold nearTie
  rw [abs_sub_comm]

theorem nearTie_refl (x : Document α) : nearTie x x := by
  unfold nearTie
  simpa using DELTA_pos

/-- The comparator does not put `b` before `a` exactly when `a`, `b` are in
the claimed order. -/
theorem docLess_false_iff (a b : Document α) : docLess b a = false ↔ claimedOrder a b := by
  unfold docLess claimedOrder
  by_cases ht : nearTie a b
  · have ht' : |b.relevance - a.relevance| < DELTA := (nearTie_comm a b).1 ht
    simp only [ht', if_true, decide_eq_false_iff_not, not_lt, gt_iff_lt]
    constructor
    · intro h
      exact ⟨fun _ => h, fun hn => absurd ht hn⟩
    · intro h
      exact h.1 ht
  · have ht' : ¬ |b.relevance - a.relevance| < DELTA := fun e => ht ((nearTie_comm a b).2 e)
    simp only [ht', if_false, decide_eq_false_iff_not, not_lt, gt_iff_lt]
    constructor
    · intro h
      refine ⟨fun hy => absurd hy ht, fun _ => ?_⟩
      rcases lt_or_eq_of_le h with h1 | h1
      · exact h1
      · exfalso
        apply ht
        unfold nearTie
        rw [h1]
        simpa using DELTA_pos
    · intro h
      exact le_of_lt (h.2 ht)

theorem claimedOrder_total (x y : Document α) : claimedOrder x y ∨ claimedOrder y x := by
  unfold claimedOrder
  by_cases ht : nearTie x y
  · have ht' := (nearTie_comm x y).1 ht
    rcases le_total x.rating y.rating with h | h
    · exact Or.inr ⟨fun _ => h, fun hn => absurd ht' hn⟩
    · exact Or.inl ⟨fun _ => h, fun hn => absurd ht hn⟩
  · have ht' : ¬ nearTie y x := fun e => ht ((nearTie_comm x y).2 e)
    rcases lt_trichotomy x.relevance y.relevance with h | h | h
    · exact Or.inr ⟨fun hy => absurd hy ht', fun _ => h⟩
    · exfalso
      apply ht
      unfold nearTie
      rw [h]
      simpa using DELTA_pos
    · exact Or.inl ⟨fun hy => absurd hy ht, fun _ => h⟩

theorem gap_of_not_nearTie {x y : Document α} (ht : ¬ nearTie x y)
    (hgt : x.relevance > y.relevance) : x.relevance - y.relevance ≥ DELTA := by
  unfold nearTie at ht
  rw [not_lt, abs_of_pos (sub_pos.2 hgt)] at ht
  exact ht

/-- The claimed order is transitive on three documents among which
near-equality of the relevances is transitive. -/
theorem claimedOrder_trans {x y z : Document α}
    (h1 : nearTie x y → nearTie y z → nearTie x z)
    (h2 : nearTie y x → nearTie x z → nearTie y z)
    (h3 : nearTie x z → nearTie z y → nearTie x y)
    (hxy : claimedOrder x y) (hyz : claimedOrder y z) : claimedOrder x z := by
  have hpos : (0 : α) < DELTA := DELTA_pos
  by_cases txy : nearTie x y
  · by_cases tyz : nearTie y z
    · have txz := h1 txy tyz
      exact ⟨fun _ => le_trans (hyz.1 tyz) (hxy.1 txy), fun hn => absurd txz hn⟩
    · have hgt := hyz.2 tyz
      have hgap := gap_of_not_nearTie tyz hgt
      have txz : ¬ nearTie x z := fun e => tyz (h2 ((nearTie_comm x y).1 txy) e)
      refine ⟨fun e => absurd e txz, fun _ => ?_⟩
      by_contra hcon
      have hle : x.relevance ≤ z.relevance := not_lt.1 hcon
      have hne : z.relevance > x.relevance := by
        rcases lt_or_eq_of_le hle with h | h
        · exact h
        · exfalso
          apply txz
          unfold nearTie
          rw [h]
          simpa using hpos
      have hgap2 := gap_of_not_nearTie (fun e => txz ((nearTie_comm x z).2 e)) hne
      unfold nearTie at txy
      rw [abs_lt] at txy
      linarith [txy.1, txy.2]
  · have hgt := hxy.2 txy
    have hgap := gap_of_not_nearTie txy hgt
    by_cases tyz : nearTie y z
    · have txz : ¬ nearTie x z := fun e => txy (h3 e ((nearTie_comm y z).1 tyz))
      refine ⟨fun e => absurd e txz, fun _ => ?_⟩
      by_contra hcon
      have hle : x.relevance ≤ z.relevance := not_lt.1 hcon
      have hne : z.relevance > x.relevance := by
        rcases lt_or_eq_of_le hle with h | h
        · exact h
        · exfalso
          apply txz
          unfold nearTie
          rw [h]
          simpa using hpos
      have hgap2 := gap_of_not_nearTie (fun e => txz ((nearTie_comm x z).2 e)) hne
      unfold nearTie at tyz
      rw [abs_lt] at tyz
      linarith [tyz.1, tyz.2]
    · have hgt2 := hyz.2 tyz
      have hgap2 := gap_of_not_nearTie tyz hgt2
      have hxz : x.relevance - z.relevance ≥ DELTA + DELTA := by linarith
      have txz : ¬ nearTie x z := by
        unfold nearTie
        rw [not_lt, abs_of_pos (by linarith)]
        linarith
      exact ⟨fun e => absurd e txz, fun _ => by linarith⟩

theorem pairwise_orderedInsert {β : Type} (r : β → β → Prop) [DecidableRel r] (a : β)
    (l : List β)
    (htrans : ∀ x ∈ a :: l, ∀ y ∈ a :: l, ∀ z ∈ a :: l, r x y → r y z → r x z)
    (htotal : ∀ x ∈ a :: l, ∀ y ∈ a :: l, r x y ∨ r y x) (hl : l.Pairwise r) :
    (l.orderedInsert r a).Pairwise r := by
  induction l with
  | nil => simp
  | cons b rest ih =>
    have hb := List.pairwise_cons.1 hl
    have ha_mem : a ∈ a :: b :: rest := List.mem_cons_self _ _
    have hb_mem : b ∈ a :: b :: rest := List.mem_cons_of_mem _ (List.mem_cons_self _ _)
    have hrest_mem : ∀ x ∈ rest, x ∈ a :: b :: rest :=
      fun x hx => List.mem_cons_of_mem _ (List.mem_cons_of_mem _ hx)
    by_cases hab : r a b
    · simp only [List.orderedInsert, hab, if_true, List.pairwise_cons]
      refine ⟨?_, hb⟩
      intro x hx
      rcases List.mem_cons.1 hx with rfl | hx
      · exact hab
      · exact htrans a ha_mem b hb_mem x (hrest_mem x hx) hab (hb.1 x hx)
    · simp only [List.orderedInsert, hab, if_false, List.pairwise_cons]
      have hba : r b a := (htotal a ha_mem b hb_mem).resolve_left hab
      constructor
      · intro x hx
        rcases (List.mem_orderedInsert r).1 hx with rfl | hx
        · exact hba
        · exact hb.1 x hx
      · apply ih
        · intro x hx y hy z hz
          have hsub : ∀ u ∈ a :: rest, u ∈ a :: b :: rest := by
            intro u hu
            rcases List.mem_cons.1 hu with rfl | hu
            · exact ha_mem
            · exact hrest_mem u hu
          exact htrans x (hsub x hx) y (hsub y hy) z (hsub z hz)
        · intro x hx y hy
          have hsub : ∀ u ∈ a :: rest, u ∈ a :: b :: rest := by
            intro u hu
            rcases List.mem_cons.1 hu with rfl | hu
            · exact ha_mem
            · exact hrest_mem u hu
          exact htotal x (hsub x hx) y (hsub y hy)
        · exact hb.2

/-- Insertion sort by a relation that is total and transitive on the elements
of the list yields a list in which every earlier element is related to every
later one. -/
theorem pairwise_insertionSort {β : Type} (r : β → β → Prop) [DecidableRel r] (l : List β)
    (htrans : ∀ x ∈ l, ∀ y ∈ l, ∀ z ∈ l, r x y → r y z → r x z)
    (htotal : ∀ x ∈ l, ∀ y ∈ l, r x y ∨ r y x) : (l.insertionSort r).Pairwise r := by
  induction l with
  | nil => simp
  | cons a rest ih =>
    have hsub : ∀ u ∈ rest, u ∈ a :: rest := fun u hu => List.mem_cons_of_mem _ hu
    have hsorted := ih (fun x hx y hy z hz => htrans x (hsub x hx) y (hsub y hy) z (hsub z hz))
      (fun x hx y hy => htotal x (hsub x hx) y (hsub y hy))
    have hmem : ∀ u ∈ a :: rest.insertionSort r, u ∈ a :: rest := by
      intro u hu
      rcases List.mem_cons.1 hu with rfl | hu
      · exact List.mem_cons_self _ _
      · exact hsub u ((List.perm_insertionSort r rest).mem_iff.1 hu)
    simp only [List.insertionSort]
    apply pairwise_orderedInsert r a _ _ _ hsorted
    · intro x hx y hy z hz
      exact htrans x (hmem x hx) y (hmem y hy) z (hmem z hz)
    · intro x hx y hy
      exact htotal x (hmem x hx) y (hmem y hy)

/-- The sort of `FindTopDocuments` puts the documents in the claimed order
when near-equality of the relevances is transitive among them. -/
theorem sortDocuments_pairwise (docs : List (Document α))
    (htie : ∀ x ∈ docs, ∀ y ∈ docs, ∀ z ∈ docs, nearTie x y → nearTie y z → nearTie x z) :
    (sortDocuments docs).Pairwise claimedOrder := by
  have h := pairwise_insertionSort (fun a b : Document α => docLess b a = false) docs
    (by
      intro x hx y hy z hz hxy hyz
      rw [docLess_false_iff] at hxy hyz ⊢
      exact claimedOrder_trans (htie x hx y hy z hz) (htie y hy x hx z hz)
        (htie x hx z hz y hy) hxy hyz)
    (by
      intro x _ y _
      simp only [docLess_false_iff]
      exact claimedOrder_total x y)
  unfold sortDocuments
  exact h.imp (fun hab => (docLess_false_iff _ _).1 hab)

end Order

/-! ## Evaluation of the server with near-equal relevances -/

section Cycle

variable {α : Type} [LinearOrderedField α]

theorem splitLoop_nil (fuel : Nat) (words : List Word) : splitLoop fuel [] words = words := by
  cases fuel <;> simp [splitLoop]

theorem dropWhile_docText (n : Nat) :
    (docText n).dropWhile (fun c => decide (c = ' ')) = docText n := by
  cases n <;> simp [docText, List.dropWhile]

theorem splitLoop_docText (n k : Nat) (words : List Word) :
    splitLoop (n + 1 + k) (docText n) words = words ++ List.replicate n ['x'] ++ [['w']] := by
  induction n generalizing words with
  | zero =>
    have h : 0 + 1 + k = k + 1 := by omega
    rw [h]
    simp [splitLoop, docText, List.takeWhile, splitLoop_nil]
  | succ n ih =>
    have h : n + 1 + 1 + k = (n + 1 + k) + 1 := by omega
    rw [h]
    have hstep : splitLoop ((n + 1 + k) + 1) (docText (n + 1)) words =
        splitLoop (n + 1 + k) ((docText n).dropWhile (fun c => decide (c = ' ')))
          (words ++ [['x']]) := by
      simp [splitLoop, docText, List.takeWhile, List.dropWhile]
    rw [hstep, dropWhile_docText, ih]
    simp [List.replicate_succ]

theorem length_docText (n : Nat) : (docText n).length = n + 1 + n := by
  induction n with
  | zero => rfl
  | succ n ih =>
    simp only [docText, List.length_cons, ih]
    omega

theorem SplitIntoWords_docText (n : Nat) :
    SplitIntoWords (docText n) = List.replicate n ['x'] ++ [['w']] := by
  unfold SplitIntoWords
  rw [dropWhile_docText, length_docText, splitLoop_docText]
  simp

theorem IsValidWord_docText (n : Nat) : IsValidWord (docText n) = true := by
  induction n with
  | zero => decide
  | succ n ih =>
    unfold IsValidWord at ih ⊢
    simp only [docText, List.any_cons, Bool.not_eq_true', Bool.or_eq_false_iff] at ih ⊢
    exact ⟨by decide, by decide, by simpa using ih⟩

theorem documents_addedState (s : SearchServer α) (document_id : Int) (document : Word)
    (status : DocumentStatus) (ratings : List Int) :
    (addedState s document_id document status ratings).documents_ =
      s.documents_.update document_id
        { rating := ComputeAverageRating ratings, status := status } (fun d => d) ∧
    (addedState s document_id document status ratings).stop_words_ = s.stop_words_ := by
  obtain ⟨h1, _, h3, _⟩ := foldl_addWord_documents document_id
    (1 / ((SplitIntoWordsNoStop
      { s with documents_texts_ := s.documents_texts_ ++ [document] } document).length : α))
    (SplitIntoWordsNoStop { s with documents_texts_ := s.documents_texts_ ++ [document] }
      document)
    { s with documents_texts_ := s.documents_texts_ ++ [document] }
  constructor
  · simp only [addedState]
    rw [h1]
  · simp only [addedState]
    rw [h3]

/-- The forward index after a successful `AddDocument` of a fresh id. -/
theorem fwdFreq_addedState {s : SearchServer α} (h : Inv s) (document_id : Int) (document : Word)
    (status : DocumentStatus) (ratings : List Int)
    (hfresh : s.documents_.contains document_id = false) (words : List Word)
    (hwords : SplitIntoWordsNoStop s document = words) (id' : Int) (w : Word) :
    fwdFreq (addedState s document_id document status ratings) id' w =
      if id' = document_id ∧ w ∈ words then some ((words.count w : α) * (1 / (words.length : α)))
      else fwdFreq s id' w := by
  have hnot : document_id ∉ s.words_freqs_in_document.keys :=
    fun hk => (contains_eq_false_iff _ _).1 hfresh (h.fwd_docs _ hk)
  have hnone := (OrdMap.find?_eq_none_iff _ _).2 hnot
  have hsplit : SplitIntoWordsNoStop
      { s with documents_texts_ := s.documents_texts_ ++ [document] } document = words := hwords
  have hf := foldl_addWord_fwdFreq document_id (1 / (words.length : α)) words
    { s with documents_texts_ := s.documents_texts_ ++ [document] } id' w
  have hfr : fwdFreq { s with documents_texts_ := s.documents_texts_ ++ [document] }
      document_id w = none := by
    simp [fwdFreq, OrdMap.find2?, hnone]
  rw [hfr] at hf
  simp only [Option.getD_none, zero_add] at hf
  have hstate : fwdFreq (addedState s document_id document status ratings) id' w =
      fwdFreq (words.foldl (addWord document_id (1 / (words.length : α)))
        { s with documents_texts_ := s.documents_texts_ ++ [document] }) id' w := by
    simp only [addedState, hsplit, fwdFreq]
  rw [hstate, hf]
  rfl

theorem SplitIntoWordsNoStop_of_no_stop_words {s : SearchServer α} (hs : s.stop_words_ = [])
    (text : Word) : SplitIntoWordsNoStop s text = SplitIntoWords text := by
  simp [SplitIntoWordsNoStop, IsStopWord, hs]

theorem mem_docWords (n : Nat) : ['w'] ∈ List.replicate n ['x'] ++ [['w']] := by simp

theorem count_docWords (n : Nat) : (List.replicate n ['x'] ++ [['w']]).count ['w'] = 1 := by
  rw [List.count_append, List.count_replicate]
  simp

theorem length_docWords (n : Nat) : (List.replicate n ['x'] ++ [['w']]).length = n + 1 := by
  simp

/-- What a successful `AddDocument` of a fresh, valid document leaves. -/
theorem add_step {s : SearchServer α} (hinv : Inv s) (document_id : Int) (document : Word)
    (status : DocumentStatus) (ratings : List Int) (h0 : 0 ≤ document_id)
    (hvalid : IsValidWord document = true)
    (hfresh : s.documents_.contains document_id = false) (words : List Word)
    (hwords : SplitIntoWordsNoStop s document = words) :
    Inv (AddDocument s document_id document status ratings).2 ∧
    (AddDocument s document_id document status ratings).2.stop_words_ = s.stop_words_ ∧
    (AddDocument s document_id document status ratings).2.documents_ =
      s.documents_.update document_id
        { rating := ComputeAverageRating ratings, status := status } (fun d => d) ∧
    ∀ id' w, fwdFreq (AddDocument s document_id document status ratings).2 id' w =
      if id' = document_id ∧ w ∈ words then
        some ((words.count w : α) * (1 / (words.length : α)))
      else fwdFreq s id' w := by
  rw [AddDocument_ok status ratings h0 hvalid hfresh]
  obtain ⟨d1, d2⟩ := documents_addedState s document_id document status ratings
  exact ⟨addedState_inv hinv _ _ _ _, d2, d1,
    fun id' w => fwdFreq_addedState hinv _ _ _ _ hfresh words hwords id' w⟩

/-- The step `add_step` for a text `docText n` on a server without stop words. -/
theorem add_docText_step {s : SearchServer α} (hinv : Inv s) (hstop : s.stop_words_ = [])
    (document_id : Int) (n : Nat) (status : DocumentStatus) (ratings : List Int)
    (h0 : 0 ≤ document_id) (hfresh : s.documents_.contains document_id = false) :
    Inv (AddDocument s document_id (docText n) status ratings).2 ∧
    (AddDocument s document_id (docText n) status ratings).2.stop_words_ = [] ∧
    (AddDocument s document_id (docText n) status ratings).2.documents_ =
      s.documents_.update document_id
        { rating := ComputeAverageRating ratings, status := status } (fun d => d) ∧
    ∀ id', fwdFreq (AddDocument s document_id (docText n) status ratings).2 id' ['w'] =
      if id' = document_id then some ((1 : α) / ((n : α) + 1)) else fwdFreq s id' ['w'] := by
  have hw : SplitIntoWordsNoStop s (docText n) = List.replicate n ['x'] ++ [['w']] := by
    rw [SplitIntoWordsNoStop_of_no_stop_words hstop, SplitIntoWords_docText]
  obtain ⟨h1, h2, h3, h4⟩ := add_step hinv document_id (docText n) status ratings h0
    (IsValidWord_docText n) hfresh _ hw
  refine ⟨h1, h2.trans hstop, h3, fun id' => ?_⟩
  rw [h4]
  simp only [mem_docWords, count_docWords, length_docWords, and_true]
  by_cases hid : id' = document_id
  · simp [hid]
  · simp [hid]

theorem addDocuments_nil (s : SearchServer α) : addDocuments s [] = s := rfl

theorem addDocuments_cons (s : SearchServer α) (document_id : Int) (document : Word)
    (status : DocumentStatus) (ratings : List Int)
    (rest : List (Int × Word × DocumentStatus × List Int)) :
    addDocuments s ((document_id, document, status, ratings) :: rest) =
      addDocuments (AddDocument s document_id document status ratings).2 rest := rfl

/-- The document records, the stop words and the frequencies of the word `w`
in the server `cycleServer`. -/
theorem cycleServer_facts :
    Inv (cycleServer α) ∧
    (cycleServer α).stop_words_ = [] ∧
    (cycleServer α).documents_ =
      [(1, ⟨1, .ACTUAL⟩), (2, ⟨2, .ACTUAL⟩), (3, ⟨3, .ACTUAL⟩), (4, ⟨0, .ACTUAL⟩)] ∧
    ∀ id, fwdFreq (cycleServer α) id ['w'] =
      if id = 1 then some ((1 : α) / 600)
      else if id = 2 then some ((1 : α) / 601)
      else if id = 3 then some ((1 : α) / 602)
      else none := by
  rw [cycleServer, addDocuments_cons, addDocuments_cons, addDocuments_cons, addDocuments_cons,
    addDocuments_nil]
  obtain ⟨i1, hs1, hd1, f1⟩ := add_docText_step (fresh_inv (α := α) []) rfl 1 599 .ACTUAL [1]
    (by decide) rfl
  generalize (AddDocument (SearchServer.fresh α []) 1 (docText 599) .ACTUAL [1]).2 = s1 at *
  have hd1' : s1.documents_ = [(1, ⟨1, .ACTUAL⟩)] := hd1
  obtain ⟨i2, hs2, hd2, f2⟩ := add_docText_step i1 hs1 2 600 .ACTUAL [2] (by decide)
    (by rw [hd1']; rfl)
  generalize (AddDocument s1 2 (docText 600) .ACTUAL [2]).2 = s2 at *
  have hd2' : s2.documents_ = [(1, ⟨1, .ACTUAL⟩), (2, ⟨2, .ACTUAL⟩)] := by
    rw [hd2, hd1']
    rfl
  obtain ⟨i3, hs3, hd3, f3⟩ := add_docText_step i2 hs2 3 601 .ACTUAL [3] (by decide)
    (by rw [hd2']; rfl)
  generalize (AddDocument s2 3 (docText 601) .ACTUAL [3]).2 = s3 at *
  have hd3' : s3.documents_ = [(1, ⟨1, .ACTUAL⟩), (2, ⟨2, .ACTUAL⟩), (3, ⟨3, .ACTUAL⟩)] := by
    rw [hd3, hd2']
    rfl
  have hw4 : SplitIntoWordsNoStop s3 ['x'] = [['x']] := by
    rw [SplitIntoWordsNoStop_of_no_stop_words hs3]
    decide
  obtain ⟨i4, hs4, hd4, f4⟩ := add_step i3 4 ['x'] .ACTUAL [] (by decide) (by decide)
    (by rw [hd3']; rfl) _ hw4
  generalize (AddDocument s3 4 ['x'] .ACTUAL []).2 = s4 at *
  refine ⟨i4, hs4.trans hs3, ?_, ?_⟩
  · rw [hd4, hd3']
    rfl
  · intro id
    rw [f4, f3, f2, f1]
    have hfresh : fwdFreq (SearchServer.fresh α []) id ['w'] = none := rfl
    rw [hfresh]
    by_cases h1 : id = 1
    · subst h1
      norm_num
    · by_cases h2 : id = 2
      · subst h2
        norm_num
      · by_cases h3 : id = 3
        · subst h3
          norm_num
        · simp [h1, h2, h3]

theorem addDocuments_reachable {s : SearchServer α} (h : Reachable s)
    (docs : List (Int × Word × DocumentStatus × List Int)) : Reachable (addDocuments s docs) := by
  induction docs generalizing s with
  | nil => exact h
  | cons d rest ih => exact ih (Reachable.add _ _ _ _ h)

theorem cycleServer_reachable : Reachable (cycleServer α) :=
  addDocuments_reachable (Reachable.init _) _

theorem parse_single_word {s : SearchServer α} (hstop : s.stop_words_ = []) :
    ParseQuery s ['w'] = .ok ⟨[['w']], []⟩ := by
  have hsplit : SplitIntoWords ['w'] = [['w']] := by decide
  have hvalid : IsValidWord ['w'] = true := by decide
  have hword : ParseQueryWord s ['w'] =
      .ok { data := ['w'], is_minus := false, is_stop := false } := by
    simp [ParseQueryWord, IsStopWord, hstop]
  have hpar : ParseQueryPar s ['w'] = .ok ⟨[['w']], []⟩ := by
    simp [ParseQueryPar, hvalid, hsplit, parseLoop, hword]
  simp only [ParseQuery, hpar]
  rfl

/-- The matches of the query `w` on a server with the records and frequencies
of `cycleServer`: the documents 1, 2, 3 with the relevances `ln (4 / 3)`
times `1 / 600`, `1 / 601`, `1 / 602`. -/
theorem findAll_of_facts (ln : α → α) {s : SearchServer α} (hinv : Inv s)
    (hdocs : s.documents_ =
      [(1, ⟨1, .ACTUAL⟩), (2, ⟨2, .ACTUAL⟩), (3, ⟨3, .ACTUAL⟩), (4, ⟨0, .ACTUAL⟩)])
    (hfreq : ∀ id, fwdFreq s id ['w'] =
      if id = 1 then some ((1 : α) / 600)
      else if id = 2 then some ((1 : α) / 601)
      else if id = 3 then some ((1 : α) / 602)
      else none) :
    FindAllDocuments ln s ⟨[['w']], []⟩ (fun _ _ _ => true) =
      .ok [⟨1, 1 / 600 * ln (4 / 3), 1⟩, ⟨2, 1 / 601 * ln (4 / 3), 2⟩,
        ⟨3, 1 / 602 * ln (4 / 3), 3⟩] := by
  obtain ⟨m, h1, h2, h3⟩ := FindAllDocuments_spec ln hinv ⟨[['w']], []⟩ (fun _ _ _ => true)
  have hinvf : ∀ id, invFreq s ['w'] id =
      if id = 1 then some ((1 : α) / 600)
      else if id = 2 then some ((1 : α) / 601)
      else if id = 3 then some ((1 : α) / 602)
      else none := by
    intro id
    rw [← hinv.index.consistent, hfreq]
  have hcount : GetDocumentCount s = 4 := by
    simp [GetDocumentCount, hdocs]
  have hdf : documentFreq s ['w'] = 3 := by
    unfold documentFreq
    have hk : s.documents_.keys = [1, 2, 3, 4] := by
      rw [hdocs]
      rfl
    rw [hk]
    simp [List.filter_cons, containsWord_eq hinv, hinvf]
  have hidf : codeIdf ln s ['w'] = ln (4 / 3) := by
    have hsome : (invFreq s ['w'] 1).isSome = true := by
      rw [hinvf]
      rfl
    rw [codeIdf_eq ln hinv hsome, hcount, hdf]
    norm_num
  have hfind : ∀ id, m.find? id =
      if id = 1 then some (1 / 600 * ln (4 / 3))
      else if id = 2 then some (1 / 601 * ln (4 / 3))
      else if id = 3 then some (1 / 602 * ln (4 / 3))
      else none := by
    intro id
    rw [h3]
    have hmin : ¬ ∃ w ∈ ([] : List Word), (invFreq s w id).isSome = true := by simp
    rw [if_neg hmin]
    by_cases i1 : id = 1
    · subst i1
      simp [hinvf, hidf, accepts, hdocs, OrdMap.find?]
    · by_cases i2 : id = 2
      · subst i2
        simp [hinvf, hidf, accepts, hdocs, OrdMap.find?]
      · by_cases i3 : id = 3
        · subst i3
          simp [hinvf, hidf, accepts, hdocs, OrdMap.find?]
        · simp [hinvf, i1, i2, i3]
  have hm : m = [(1, 1 / 600 * ln (4 / 3)), (2, 1 / 601 * ln (4 / 3)),
      (3, 1 / 602 * ln (4 / 3))] := by
    apply OrdMap.ext_of_sorted h2
    · simp [OrdMap.SortedKeys, OrdMap.keys]
    · intro id
      rw [hfind]
      by_cases i1 : id = 1
      · subst i1
        simp [OrdMap.find?]
      · by_cases i2 : id = 2
        · subst i2
          simp [OrdMap.find?]
        · by_cases i3 : id = 3
          · subst i3
            simp [OrdMap.find?]
          · simp [OrdMap.find?, i1, i2, i3]
  rw [h1, hm]
  simp [toDocument, hdocs, OrdMap.find?]

/-- Three distinct elements `a`, `b`, `c` such that `a` may not precede `b`,
`b` may not precede `c` and `c` may not precede `a` cannot be arranged. -/
theorem not_pairwise_of_cycle {β : Type} (R : β → β → Prop) (a b c : β) (hnab : a ≠ b)
    (hnbc : b ≠ c) (hnac : a ≠ c) (hab : ¬ R a b) (hbc : ¬ R b c) (hca : ¬ R c a)
    (l : List β) (hperm : l.Perm [a, b, c]) : ¬ l.Pairwise R := by
  intro hp
  obtain ⟨x, y, z, rfl⟩ := List.length_eq_three.1 hperm.length_eq
  have ha : a ∈ [x, y, z] := hperm.mem_iff.2 (by simp)
  have hb : b ∈ [x, y, z] := hperm.mem_iff.2 (by simp)
  have hc : c ∈ [x, y, z] := hperm.mem_iff.2 (by simp)
  simp only [List.pairwise_cons, List.mem_cons, List.mem_singleton, List.not_mem_nil,
    forall_eq_or_imp, forall_eq, false_imp_iff, implies_true, and_true,
    List.Pairwise.nil] at hp
  simp only [List.mem_cons, List.mem_singleton, List.not_mem_nil, or_false] at ha hb hc
  obtain ⟨⟨hxy, hxz⟩, hyz⟩ := hp
  rcases ha with rfl | rfl | rfl <;> rcases hb with rfl | rfl | rfl <;>
    rcases hc with rfl | rfl | rfl <;> first
      | exact absurd rfl hnab
      | exact absurd rfl hnbc
      | exact absurd rfl hnac
      | exact hab hxy
      | exact hab hxz
      | exact hab hyz
      | exact hbc hxy
      | exact hbc hxz
      | exact hbc hyz
      | exact hca hxy
      | exact hca hxz
      | exact hca hyz

theorem log_four_thirds_bounds : (1 : ℝ) / 4 ≤ Real.log (4 / 3) ∧ Real.log (4 / 3) ≤ 1 / 3 := by
  constructor
  · have h := Real.one_sub_inv_le_log_of_pos (show (0 : ℝ) < 4 / 3 by norm_num)
    norm_num at h
    linarith
  · have h := Real.log_le_sub_one_of_pos (show (0 : ℝ) < 4 / 3 by norm_num)
    norm_num at h
    linarith

end Cycle

/-! ## The tokenizer -/

section Tokenizer

theorem referenceWords_nil : referenceWords [] = [] := by
  simp [referenceWords, List.splitOnP_nil]

theorem referenceWords_space (t : Word) : referenceWords (' ' :: t) = referenceWords t := by
  simp [referenceWords, List.splitOnP_cons]

theorem referenceWords_dropWhile (t : Word) :
    referenceWords (t.dropWhile (fun c => decide (c = ' '))) = referenceWords t := by
  induction t with
  | nil => rfl
  | cons c rest ih =>
    by_cases hc : c = ' '
    · subst hc
      rw [referenceWords_space]
      simpa [List.dropWhile_cons] using ih
    · simp [List.dropWhile_cons, hc]

/-- A text that starts with a non-space character splits into its first word
and the words of what follows that word. -/
theorem referenceWords_word (c : Char) (t : Word) (hc : c ≠ ' ') :
    referenceWords (c :: t) =
      (c :: t).takeWhile (fun c => decide (c ≠ ' ')) ::
        referenceWords ((c :: t).dropWhile (fun c => decide (c ≠ ' '))) := by
  have hsplit := List.takeWhile_append_dropWhile (fun c => decide (c ≠ ' ')) (c :: t)
  have hword : ∀ x ∈ (c :: t).takeWhile (fun c => decide (c ≠ ' ')), ¬ ((x == ' ') = true) := by
    intro x hx
    have := List.mem_takeWhile_imp hx
    simpa using this
  have hne : (c :: t).takeWhile (fun c => decide (c ≠ ' ')) ≠ [] := by
    simp [List.takeWhile_cons, hc]
  cases hrest : (c :: t).dropWhile (fun c => decide (c ≠ ' ')) with
  | nil =>
    rw [hrest, List.append_nil] at hsplit
    have h1 : referenceWords (c :: t) = [c :: t] := by
      unfold referenceWords
      have hall : ∀ x ∈ c :: t, ¬ ((x == ' ') = true) := by
        rw [← hsplit]
        exact hword
      rw [List.splitOnP_eq_single _ _ hall]
      simp
    rw [h1, hsplit, referenceWords_nil]
  | cons d rest =>
    have hd : d = ' ' := by
      have h := List.head?_dropWhile_not (fun c => decide (c ≠ ' ')) (c :: t)
      rw [hrest] at h
      simpa using h
    subst hd
    rw [hrest] at hsplit
    have h1 : referenceWords (c :: t) =
        (c :: t).takeWhile (fun c => decide (c ≠ ' ')) :: referenceWords rest := by
      have h2 : referenceWords ((c :: t).takeWhile (fun c => decide (c ≠ ' ')) ++ ' ' :: rest) =
          (c :: t).takeWhile (fun c => decide (c ≠ ' ')) :: referenceWords rest := by
        unfold referenceWords
        rw [List.splitOnP_first _ _ hword ' ' (by simp) rest, List.filter_cons]
        have hb : (!((c :: t).takeWhile (fun c => decide (c ≠ ' '))).isEmpty) = true := by
          cases hw : (c :: t).takeWhile (fun c => decide (c ≠ ' ')) with
          | nil => exact absurd hw hne
          | cons a l => rfl
        rw [if_pos hb]
      rw [hsplit] at h2
      exact h2
    rw [h1, referenceWords_space]

theorem drop_length_takeWhile (p : Char → Bool) (t : Word) :
    t.drop (min t.length (t.takeWhile p).length) = t.dropWhile p := by
  have hle : (t.takeWhile p).length ≤ t.length := by
    have h := congrArg List.length (List.takeWhile_append_dropWhile p t)
    rw [List.length_append] at h
    omega
  rw [min_eq_right hle]
  have h := List.drop_left (t.takeWhile p) (t.dropWhile p)
  rwa [List.takeWhile_append_dropWhile] at h

theorem head?_dropWhile_space (t : Word) :
    ∀ c, (t.dropWhile (fun c => decide (c = ' '))).head? = some c → c ≠ ' ' := by
  intro c hc
  have h := List.head?_dropWhile_not (fun c => decide (c = ' ')) t
  rw [hc] at h
  simpa using h

/-- The loop of `SplitIntoWords`, started on a text that does not begin with a
space and with enough fuel, appends the reference words of the text. -/
theorem splitLoop_eq (fuel : Nat) (t : Word) (words : List Word) (hfuel : t.length ≤ fuel)
    (hhead : ∀ c, t.head? = some c → c ≠ ' ') :
    splitLoop fuel t words = words ++ referenceWords t := by
  induction fuel generalizing t words with
  | zero =>
    have ht : t = [] := List.length_eq_zero.1 (Nat.le_zero.1 hfuel)
    subst ht
    simp [splitLoop, referenceWords_nil]
  | succ fuel ih =>
    cases t with
    | nil => simp [splitLoop, referenceWords_nil]
    | cons c rest =>
      have hc : c ≠ ' ' := hhead c rfl
      have hstep : splitLoop (fuel + 1) (c :: rest) words =
          splitLoop fuel (((c :: rest).dropWhile (fun c => decide (c ≠ ' '))).dropWhile
            (fun c => decide (c = ' ')))
            (words ++ [(c :: rest).takeWhile (fun c => decide (c ≠ ' '))]) := by
        rw [splitLoop]
        simp only [List.isEmpty_cons, Bool.false_eq_true, if_false]
        rw [drop_length_takeWhile]
      have hlen : ((c :: rest).dropWhile (fun c => decide (c ≠ ' '))).length ≤ fuel := by
        have h1 : (c :: rest).dropWhile (fun c => decide (c ≠ ' ')) =
            rest.dropWhile (fun c => decide (c ≠ ' ')) := by
          simp [List.dropWhile_cons, hc]
        rw [h1]
        have h2 := (List.dropWhile_sublist (fun c => decide (c ≠ ' ')) (l := rest)).length_le
        simp only [List.length_cons] at hfuel
        omega
      have hlen2 : (((c :: rest).dropWhile (fun c => decide (c ≠ ' '))).dropWhile
          (fun c => decide (c = ' '))).length ≤ fuel :=
        le_trans (List.dropWhile_sublist _).length_le hlen
      rw [hstep, ih _ _ hlen2 (head?_dropWhile_space _), referenceWords_dropWhile,
        referenceWords_word c rest hc]
      simp

theorem SplitIntoWords_eq (text : Word) : SplitIntoWords text = referenceWords text := by
  unfold SplitIntoWords
  rw [splitLoop_eq _ _ _ (List.dropWhile_sublist _).length_le (head?_dropWhile_space _),
    referenceWords_dropWhile]
  simp

theorem mem_splitOnP_no_sep (p : Char → Bool) (t : Word) :
    ∀ w ∈ t.splitOnP p, ∀ c ∈ w, p c = false := by
  induction t with
  | nil => simp [List.splitOnP_nil]
  | cons a rest ih =>
    intro w hw c hcw
    rw [List.splitOnP_cons] at hw
    by_cases ha : p a = true
    · simp only [ha, if_true, List.mem_cons] at hw
      rcases hw with rfl | hw
      · cases hcw
      · exact ih w hw c hcw
    · simp only [ha, Bool.false_eq_true, if_false] at hw
      cases hs : rest.splitOnP p with
      | nil => exact absurd hs (List.splitOnP_ne_nil p rest)
      | cons first others =>
        rw [hs] at hw ih
        simp only [List.modifyHead_cons, List.mem_cons] at hw
        rcases hw with rfl | hw
        · rcases List.mem_cons.1 hcw with rfl | hcw
          · simpa using ha
          · exact ih first (List.mem_cons_self _ _) c hcw
        · exact ih w (List.mem_cons_of_mem _ hw) c hcw

/-- The words of a text are non-empty and without a space. -/
theorem SplitIntoWords_word {text : Word} {w : Word} (hw : w ∈ SplitIntoWords text) :
    w ≠ [] ∧ ' ' ∉ w := by
  rw [SplitIntoWords_eq, referenceWords, List.mem_filter] at hw
  constructor
  · intro h
    rw [h] at hw
    simp at hw
  · intro hmem
    have := mem_splitOnP_no_sep _ text w hw.1 ' ' hmem
    simp at this

theorem referenceWords_spaces (n : Nat) : referenceWords (List.replicate n ' ') = [] := by
  induction n with
  | zero => exact referenceWords_nil
  | succ n ih => rw [List.replicate_succ, referenceWords_space, ih]

end Tokenizer

/-! ## The query parser -/

section QueryParser

variable {α : Type} [LinearOrderedField α]

theorem not_malformed_of_head {token : Word} (h : token.head? ≠ some '-') :
    ¬ malformedToken token := by
  rintro (h1 | ⟨r, h1⟩) <;> simp [h1] at h

/-- The three outcomes of `ParseQueryWord` on a non-empty token. -/
theorem ParseQueryWord_cases (s : SearchServer α) (token : Word) (hne : token ≠ []) :
    (malformedToken token ∧ ParseQueryWord s token = .error .invalid_argument) ∨
    (¬ malformedToken token ∧ token.head? ≠ some '-' ∧
      ParseQueryWord s token =
        .ok { data := token, is_minus := false, is_stop := IsStopWord s token }) ∨
    (¬ malformedToken token ∧ ∃ w, token = '-' :: w ∧
      ParseQueryWord s token = .ok { data := w, is_minus := true, is_stop := IsStopWord s w }) := by
  cases token with
  | nil => exact absurd rfl hne
  | cons c t =>
    by_cases hc : c = '-'
    · subst hc
      cases t with
      | nil => left; exact ⟨Or.inl rfl, by simp [ParseQueryWord]⟩
      | cons d t' =>
        by_cases hd : d = '-'
        · subst hd; left; exact ⟨Or.inr ⟨t', rfl⟩, by simp [ParseQueryWord]⟩
        · right; right
          refine ⟨?_, d :: t', rfl, ?_⟩
          · rintro (h | ⟨r, h⟩)
            · simp at h
            · simp at h; exact hd h.1
          · simp [ParseQueryWord, hd]
    · right; left
      have hh : (c :: t).head? ≠ some '-' := by simp [hc]
      exact ⟨not_malformed_of_head hh, hh, by simp [ParseQueryWord, hc]⟩

/-- The loop of the parser: it throws exactly when a token is malformed, and
otherwise appends the plus and the minus words that are not stop words. -/
theorem parseLoop_spec (s : SearchServer α) (tokens : List Word) :
    (∀ t ∈ tokens, t ≠ []) → ∀ query : Query,
    ((∃ t ∈ tokens, malformedToken t) ∧ parseLoop s tokens query = .error .invalid_argument) ∨
    ((¬ ∃ t ∈ tokens, malformedToken t) ∧ ∃ q, parseLoop s tokens query = .ok q ∧
      (∀ w, w ∈ q.plus_words ↔ w ∈ query.plus_words ∨
        (w ∈ tokens ∧ w.head? ≠ some '-' ∧ IsStopWord s w = false)) ∧
      (∀ w, w ∈ q.minus_words ↔ w ∈ query.minus_words ∨
        (('-' :: w) ∈ tokens ∧ IsStopWord s w = false))) := by
  induction tokens with
  | nil =>
    intro _ query
    right
    exact ⟨by simp, query, rfl, by simp, by simp⟩
  | cons t rest ih =>
    intro hne query
    have hrest : ∀ t ∈ rest, t ≠ [] := fun x hx => hne x (List.mem_cons_of_mem _ hx)
    rcases ParseQueryWord_cases s t (hne t (List.mem_cons_self _ _)) with
      ⟨hbad, hp⟩ | ⟨hgood, hhead, hp⟩ | ⟨hgood, w0, hw0, hp⟩
    · left
      exact ⟨⟨t, List.mem_cons_self _ _, hbad⟩, by simp [parseLoop, hp]⟩
    · cases hstop : IsStopWord s t with
      | true =>
        have hstep : parseLoop s (t :: rest) query = parseLoop s rest query := by
          simp [parseLoop, hp, hstop]
        rw [hstep]
        rcases ih hrest query with ⟨⟨x, hx, hxb⟩, he⟩ | ⟨hnb, q, hq, hplus, hminus⟩
        · left; exact ⟨⟨x, List.mem_cons_of_mem _ hx, hxb⟩, he⟩
        · right
          refine ⟨?_, q, hq, ?_, ?_⟩
          · rintro ⟨x, hx, hxb⟩
            rcases List.mem_cons.1 hx with rfl | hx
            · exact hgood hxb
            · exact hnb ⟨x, hx, hxb⟩
          · intro w
            rw [hplus w]
            constructor
            · rintro (h | ⟨h1, h2, h3⟩)
              · exact Or.inl h
              · exact Or.inr ⟨List.mem_cons_of_mem _ h1, h2, h3⟩
            · rintro (h | ⟨h1, h2, h3⟩)
              · exact Or.inl h
              · rcases List.mem_cons.1 h1 with rfl | h1
                · rw [hstop] at h3; cases h3
                · exact Or.inr ⟨h1, h2, h3⟩
          · intro w
            rw [hminus w]
            constructor
            · rintro (h | ⟨h1, h2⟩)
              · exact Or.inl h
              · exact Or.inr ⟨List.mem_cons_of_mem _ h1, h2⟩
            · rintro (h | ⟨h1, h2⟩)
              · exact Or.inl h
              · rcases List.mem_cons.1 h1 with h1 | h1
                · exact absurd (by rw [← h1]; rfl) hhead
                · exact Or.inr ⟨h1, h2⟩
      | false =>
        have hstep : parseLoop s (t :: rest) query =
            parseLoop s rest { query with plus_words := query.plus_words ++ [t] } := by
          simp [parseLoop, hp, hstop]
        rw [hstep]
        rcases ih hrest { query with plus_words := query.plus_words ++ [t] } with
          ⟨⟨x, hx, hxb⟩, he⟩ | ⟨hnb, q, hq, hplus, hminus⟩
        · left; exact ⟨⟨x, List.mem_cons_of_mem _ hx, hxb⟩, he⟩
        · right
          refine ⟨?_, q, hq, ?_, ?_⟩
          · rintro ⟨x, hx, hxb⟩
            rcases List.mem_cons.1 hx with rfl | hx
            · exact hgood hxb
            · exact hnb ⟨x, hx, hxb⟩
          · intro w
            rw [hplus w]
            simp only [List.mem_append, List.mem_singleton]
            constructor
            · rintro ((h | rfl) | ⟨h1, h2, h3⟩)
              · exact Or.inl h
              · exact Or.inr ⟨List.mem_cons_self _ _, hhead, hstop⟩
              · exact Or.inr ⟨List.mem_cons_of_mem _ h1, h2, h3⟩
            · rintro (h | ⟨h1, h2, h3⟩)
              · exact Or.inl (Or.inl h)
              · rcases List.mem_cons.1 h1 with rfl | h1
                · exact Or.inl (Or.inr rfl)
                · exact Or.inr ⟨h1, h2, h3⟩
          · intro w
            rw [hminus w]
            constructor
            · rintro (h | ⟨h1, h2⟩)
              · exact Or.inl h
              · exact Or.inr ⟨List.mem_cons_of_mem _ h1, h2⟩
            · rintro (h | ⟨h1, h2⟩)
              · exact Or.inl h
              · rcases List.mem_cons.1 h1 with h1 | h1
                · exact absurd (by rw [← h1]; rfl) hhead
                · exact Or.inr ⟨h1, h2⟩
    · subst hw0
      cases hstop : IsStopWord s w0 with
      | true =>
        have hstep : parseLoop s (('-' :: w0) :: rest) query = parseLoop s rest query := by
          simp [parseLoop, hp, hstop]
        rw [hstep]
        rcases ih hrest query with ⟨⟨x, hx, hxb⟩, he⟩ | ⟨hnb, q, hq, hplus, hminus⟩
        · left; exact ⟨⟨x, List.mem_cons_of_mem _ hx, hxb⟩, he⟩
        · right
          refine ⟨?_, q, hq, ?_, ?_⟩
          · rintro ⟨x, hx, hxb⟩
            rcases List.mem_cons.1 hx with rfl | hx
            · exact hgood hxb
            · exact hnb ⟨x, hx, hxb⟩
          · intro w
            rw [hplus w]
            constructor
            · rintro (h | ⟨h1, h2, h3⟩)
              · exact Or.inl h
              · exact Or.inr ⟨List.mem_cons_of_mem _ h1, h2, h3⟩
            · rintro (h | ⟨h1, h2, h3⟩)
              · exact Or.inl h
              · rcases List.mem_cons.1 h1 with rfl | h1
                · exact absurd rfl h2
                · exact Or.inr ⟨h1, h2, h3⟩
          · intro w
            rw [hminus w]
            constructor
            · rintro (h | ⟨h1, h2⟩)
              · exact Or.inl h
              · exact Or.inr ⟨List.mem_cons_of_mem _ h1, h2⟩
            · rintro (h | ⟨h1, h2⟩)
              · exact Or.inl h
              · rcases List.mem_cons.1 h1 with h1 | h1
                · have hw : w = w0 := (List.cons.inj h1).2
                  rw [hw, hstop] at h2; cases h2
                · exact Or.inr ⟨h1, h2⟩
      | false =>
        have hstep : parseLoop s (('-' :: w0) :: rest) query =
            parseLoop s rest { query with minus_words := query.minus_words ++ [w0] } := by
          simp [parseLoop, hp, hstop]
        rw [hstep]
        rcases ih hrest { query with minus_words := query.minus_words ++ [w0] } with
          ⟨⟨x, hx, hxb⟩, he⟩ | ⟨hnb, q, hq, hplus, hminus⟩
        · left; exact ⟨⟨x, List.mem_cons_of_mem _ hx, hxb⟩, he⟩
        · right
          refine ⟨?_, q, hq, ?_, ?_⟩
          · rintro ⟨x, hx, hxb⟩
            rcases List.mem_cons.1 hx with rfl | hx
            · exact hgood hxb
            · exact hnb ⟨x, hx, hxb⟩
          · intro w
            rw [hplus w]
            constructor
            · rintro (h | ⟨h1, h2, h3⟩)
              · exact Or.inl h
              · exact Or.inr ⟨List.mem_cons_of_mem _ h1, h2, h3⟩
            · rintro (h | ⟨h1, h2, h3⟩)
              · exact Or.inl h
              · rcases List.mem_cons.1 h1 with rfl | h1
                · exact absurd rfl h2
                · exact Or.inr ⟨h1, h2, h3⟩
          · intro w
            rw [hminus w]
            simp only [List.mem_append, List.mem_singleton]
            constructor
            · rintro ((h | rfl) | ⟨h1, h2⟩)
              · exact Or.inl h
              · exact Or.inr ⟨List.mem_cons_self _ _, hstop⟩
              · exact Or.inr ⟨List.mem_cons_of_mem _ h1, h2⟩
            · rintro (h | ⟨h1, h2⟩)
              · exact Or.inl (Or.inl h)
              · rcases List.mem_cons.1 h1 with h1 | h1
                · exact Or.inl (Or.inr (List.cons.inj h1).2)
                · exact Or.inr ⟨h1, h2⟩

theorem IsValidWord_eq_false_iff (text : Word) :
    IsValidWord text = false ↔ ∃ c ∈ text, c.toNat < 32 := by
  simp [IsValidWord]

/-- The parser `ParseQuery(parallel_policy, text)`: it throws exactly on a
malformed text, and otherwise collects the plus and minus words. -/
theorem ParseQueryPar_spec (s : SearchServer α) (text : Word) :
    (malformedQuery text ∧ ParseQueryPar s text = .error .invalid_argument) ∨
    (¬ malformedQuery text ∧ ∃ q, ParseQueryPar s text = .ok q ∧
      (∀ w, w ∈ q.plus_words ↔
        w ∈ SplitIntoWords text ∧ w.head? ≠ some '-' ∧ IsStopWord s w = false) ∧
      (∀ w, w ∈ q.minus_words ↔
        ('-' :: w) ∈ SplitIntoWords text ∧ IsStopWord s w = false)) := by
  cases hv : IsValidWord text with
  | false =>
    left
    exact ⟨Or.inl ((IsValidWord_eq_false_iff text).1 hv), by simp [ParseQueryPar, hv]⟩
  | true =>
    have hctl : ¬ ∃ c ∈ text, c.toNat < 32 := by
      rw [← IsValidWord_eq_false_iff, hv]; simp
    have hstep : ParseQueryPar s text =
        parseLoop s (SplitIntoWords text) { plus_words := [], minus_words := [] } := by
      simp [ParseQueryPar, hv]
    rw [hstep]
    rcases parseLoop_spec s (SplitIntoWords text)
        (fun t ht => (SplitIntoWords_word ht).1)
        { plus_words := [], minus_words := [] } with ⟨hb, he⟩ | ⟨hnb, q, hq, hplus, hminus⟩
    · left; exact ⟨Or.inr hb, he⟩
    · right
      refine ⟨?_, q, hq, ?_, ?_⟩
      · rintro (h | h)
        · exact hctl h
        · exact hnb h
      · intro w; rw [hplus w]; simp
      · intro w; rw [hminus w]; simp

theorem mem_sortWords (words : List Word) (w : Word) : w ∈ sortWords words ↔ w ∈ words :=
  (List.perm_insertionSort (fun a b : Word => a ≤ b) words).mem_iff

/-- The parser `ParseQuery(text)`: it throws exactly on a malformed text, and
otherwise returns the plus and minus words as strictly ascending lists. -/
theorem ParseQuery_spec (s : SearchServer α) (text : Word) :
    (malformedQuery text ∧ ParseQuery s text = .error .invalid_argument) ∨
    (¬ malformedQuery text ∧ ∃ q, ParseQuery s text = .ok q ∧
      q.plus_words.Pairwise (fun a b => a < b) ∧
      q.minus_words.Pairwise (fun a b => a < b) ∧
      (∀ w, w ∈ q.plus_words ↔
        w ∈ SplitIntoWords text ∧ w.head? ≠ some '-' ∧ IsStopWord s w = false) ∧
      (∀ w, w ∈ q.minus_words ↔
        ('-' :: w) ∈ SplitIntoWords text ∧ IsStopWord s w = false)) := by
  rcases ParseQueryPar_spec s text with ⟨hb, he⟩ | ⟨hnb, q, hq, hplus, hminus⟩
  · left; exact ⟨hb, by simp [ParseQuery, he]⟩
  · right
    have hp : ParseQuery s text = .ok (Query.mk (unique (sortWords q.plus_words))
        (unique (sortWords q.minus_words))) := by
      simp [ParseQuery, hq]
    refine ⟨hnb, _, hp, (ParseQuery_sorted hp).1, (ParseQuery_sorted hp).2, ?_, ?_⟩
    · intro w
      show w ∈ unique (sortWords q.plus_words) ↔ _
      rw [mem_unique, mem_sortWords, hplus w]
    · intro w
      show w ∈ unique (sortWords q.minus_words) ↔ _
      rw [mem_unique, mem_sortWords, hminus w]

theorem ParseQuery_error_iff (s : SearchServer α) (text : Word) :
    ParseQuery s text = .error .invalid_argument ↔ malformedQuery text := by
  rcases ParseQuery_spec s text with ⟨hb, he⟩ | ⟨hnb, q, hq, _⟩
  · exact ⟨fun _ => hb, fun _ => he⟩
  · constructor
    · intro h; rw [hq] at h; cases h
    · intro h; exact absurd h hnb

theorem ParseQueryPar_error_iff (s : SearchServer α) (text : Word) :
    ParseQueryPar s text = .error .invalid_argument ↔ malformedQuery text := by
  rcases ParseQueryPar_spec s text with ⟨hb, he⟩ | ⟨hnb, q, hq, _⟩
  · exact ⟨fun _ => hb, fun _ => he⟩
  · constructor
    · intro h; rw [hq] at h; cases h
    · intro h; exact absurd h hnb

theorem plusInner_error (s : SearchServer α) (pred : DocumentPredicate) (idf : α)
    (entry : List (Int × α)) : ∀ (acc : OrdMap Int α) (e : Error),
    plusInner s pred idf entry acc = .error e → e = .out_of_range := by
  induction entry with
  | nil => intro acc e h; simp [plusInner] at h
  | cons p rest ih =>
    intro acc e h
    obtain ⟨document_id, term_freq⟩ := p
    simp only [plusInner] at h
    cases hd : s.documents_.find? document_id with
    | none => simp [hd] at h; exact h.symm
    | some data =>
      simp only [hd] at h
      split at h
      · exact ih _ e h
      · exact ih _ e h

theorem plusLoop_error (ln : α → α) (s : SearchServer α) (pred : DocumentPredicate)
    (words : List Word) : ∀ (acc : OrdMap Int α) (e : Error),
    plusLoop ln s pred words acc = .error e → e = .out_of_range := by
  induction words with
  | nil => intro acc e h; simp [plusLoop] at h
  | cons w rest ih =>
    intro acc e h
    simp only [plusLoop] at h
    cases hw : s.word_to_document_freqs_.find? w with
    | none => simp only [hw] at h; exact ih _ e h
    | some entry =>
      simp only [hw] at h
      cases hi : plusInner s pred (ComputeWordInverseDocumentFreq ln s entry) entry acc with
      | error e1 =>
        simp only [hi, Except.error.injEq] at h
        rw [← h]; exact plusInner_error s pred _ entry acc e1 hi
      | ok acc1 => simp only [hi] at h; exact ih _ e h

theorem emitDocuments_error (s : SearchServer α) (l : List (Int × α)) : ∀ e : Error,
    emitDocuments s l = .error e → e = .out_of_range := by
  induction l with
  | nil => intro e h; simp [emitDocuments] at h
  | cons p rest ih =>
    intro e h
    obtain ⟨document_id, relevance⟩ := p
    simp only [emitDocuments] at h
    cases hd : s.documents_.find? document_id with
    | none => simp [hd] at h; exact h.symm
    | some data =>
      simp only [hd] at h
      cases hr : emitDocuments s rest with
      | error e1 =>
        simp only [hr, Except.error.injEq] at h
        rw [← h]; exact ih e1 hr
      | ok docs => simp [hr] at h

/-- The only exception of `FindAllDocuments` is that of `documents_.at`. -/
theorem FindAllDocuments_error (ln : α → α) (s : SearchServer α) (query : Query)
    (pred : DocumentPredicate) (e : Error)
    (h : FindAllDocuments ln s query pred = .error e) : e = .out_of_range := by
  unfold FindAllDocuments at h
  cases hp : plusLoop ln s pred query.plus_words [] with
  | error e1 =>
    simp only [hp, Except.error.injEq] at h
    rw [← h]; exact plusLoop_error ln s pred _ _ e1 hp
  | ok acc =>
    simp only [hp] at h
    exact emitDocuments_error s _ e h

theorem FindTopDocuments_error_iff (ln : α → α) (s : SearchServer α) (text : Word)
    (pred : DocumentPredicate) :
    FindTopDocuments ln s text pred = .error .invalid_argument ↔ malformedQuery text := by
  rw [← ParseQuery_error_iff s text]
  unfold FindTopDocuments
  cases hp : ParseQuery s text with
  | error e => simp
  | ok q =>
    cases hf : FindAllDocuments ln s q pred with
    | error e =>
      have := FindAllDocuments_error ln s q pred e hf
      subst this
      simp [hf]
    | ok docs => simp [hf]

theorem MatchDocument_error_iff (s : SearchServer α) (text : Word) (document_id : Int) :
    MatchDocument s text document_id = .error .invalid_argument ↔ malformedQuery text := by
  rw [← ParseQuery_error_iff s text]
  unfold MatchDocument
  cases hp : ParseQuery s text with
  | error e => simp
  | ok q =>
    cases hd : s.documents_.find? document_id <;> simp <;> split <;> simp

theorem anyOfPar_error (s : SearchServer α) (document_id : Int) (words : List Word) :
    ∀ e : Error, anyOfPar s document_id words = .error e → e = .terminate := by
  induction words with
  | nil => intro e h; simp [anyOfPar] at h
  | cons w rest ih =>
    intro e h
    simp only [anyOfPar] at h
    cases hw : wordInDocumentAt s document_id w with
    | error e1 => simp [hw] at h; exact h.symm
    | ok hit =>
      simp only [hw] at h
      cases hr : anyOfPar s document_id rest with
      | error e1 =>
        simp only [hr, Except.error.injEq] at h
        rw [← h]; exact ih e1 hr
      | ok hits => simp [hr] at h

theorem copyIfPar_error (s : SearchServer α) (document_id : Int) (words : List Word) :
    ∀ e : Error, copyIfPar s document_id words = .error e → e = .terminate := by
  induction words with
  | nil => intro e h; simp [copyIfPar] at h
  | cons w rest ih =>
    intro e h
    simp only [copyIfPar] at h
    cases hw : wordInDocumentAt s document_id w with
    | error e1 => simp [hw] at h; exact h.symm
    | ok hit =>
      simp only [hw] at h
      cases hr : copyIfPar s document_id rest with
      | error e1 =>
        simp only [hr, Except.error.injEq] at h
        rw [← h]; exact ih e1 hr
      | ok copied => simp [hr] at h

theorem MatchDocumentPar_error_iff (s : SearchServer α) (text : Word) (document_id : Int) :
    MatchDocumentPar s text document_id = .error .invalid_argument ↔ malformedQuery text := by
  rw [← ParseQueryPar_error_iff s text]
  unfold MatchDocumentPar
  cases hp : ParseQueryPar s text with
  | error e => simp
  | ok q =>
    simp only [reduceCtorEq, iff_false]
    cases ha : anyOfPar s document_id q.minus_words with
    | error e =>
      have := anyOfPar_error s document_id _ e ha
      subst this
      simp
    | ok hit =>
      cases hit with
      | true => cases hd : s.documents_.find? document_id <;> simp
      | false =>
        cases hc : copyIfPar s document_id q.plus_words with
        | error e =>
          have := copyIfPar_error s document_id _ e hc
          subst this
          simp
        | ok copied => cases hd : s.documents_.find? document_id <;> simp

end QueryParser

/-! ## Matching one document -/

section Match

variable {α : Type} [LinearOrderedField α]

theorem containsWord_of_none {s : SearchServer α} (h : Inv s) (id : Int) {w : Word}
    (hw : s.word_to_document_freqs_.find? w = none) : containsWord s id w = false := by
  rw [containsWord_eq h, invFreq, OrdMap.find2?, hw]
  rfl

theorem containsWord_of_some {s : SearchServer α} (h : Inv s) (id : Int) {w : Word}
    {entry : OrdMap Int α} (hw : s.word_to_document_freqs_.find? w = some entry) :
    containsWord s id w = entry.contains id := by
  rw [containsWord_eq h, invFreq, OrdMap.find2?, hw]
  rfl

theorem matchMinusLoop_eq {s : SearchServer α} (h : Inv s) (id : Int) (words : List Word) :
    matchMinusLoop s id words = words.any (fun w => containsWord s id w) := by
  induction words with
  | nil => rfl
  | cons w rest ih =>
    simp only [matchMinusLoop, List.any_cons]
    cases hw : s.word_to_document_freqs_.find? w with
    | none => simp [containsWord_of_none h id hw, ih]
    | some entry =>
      simp only [containsWord_of_some h id hw]
      cases entry.contains id <;> simp [ih]

theorem matchPlusLoop_eq {s : SearchServer α} (h : Inv s) (id : Int) (words : List Word) :
    ∀ matched_words : List Word, matchPlusLoop s id words matched_words =
      matched_words ++ words.filter (fun w => containsWord s id w) := by
  induction words with
  | nil => intro m; simp [matchPlusLoop]
  | cons w rest ih =>
    intro m
    simp only [matchPlusLoop]
    cases hw : s.word_to_document_freqs_.find? w with
    | none => simp [containsWord_of_none h id hw, ih]
    | some entry =>
      simp only [List.filter_cons, containsWord_of_some h id hw]
      cases entry.contains id <;> simp [ih]

/-- The result of the sequential `MatchDocument` for a parsed query and a
document that has a record. -/
theorem MatchDocument_spec {s : SearchServer α} (h : Inv s) {raw_query : Word} {query : Query}
    (hq : ParseQuery s raw_query = .ok query) {document_id : Int}
    {document_data : DocumentData}
    (hdoc : s.documents_.find? document_id = some document_data) :
    MatchDocument s raw_query document_id =
      .ok (if query.minus_words.any (fun w => containsWord s document_id w) then []
           else query.plus_words.filter (fun w => containsWord s document_id w),
        document_data.status) := by
  simp only [MatchDocument, hq, hdoc, matchMinusLoop_eq h, matchPlusLoop_eq h, List.nil_append]
  cases query.minus_words.any (fun w => containsWord s document_id w) <;> simp

end Match

/-! ## Removal of an id without a record -/

section Removal

variable {α : Type} [LinearOrderedField α]

theorem erase_of_not_mem_set {K : Type} [DecidableEq K] (s : OrdSet K) (k : K) (h : k ∉ s) :
    s.erase k = s := by
  induction s with
  | nil => rfl
  | cons k0 rest ih =>
    have h0 : k0 ≠ k := fun e => h (by rw [e]; exact List.mem_cons_self _ _)
    have hr : k ∉ rest := fun hm => h (List.mem_cons_of_mem _ hm)
    simp only [OrdSet.erase, h0, if_false, ih hr]

/-- An id outside the id list of a reachable server has no document record
and no entry in the forward index. -/
theorem absent_of_not_live {s : SearchServer α} (h : Inv s) {document_id : Int}
    (hid : document_id ∉ s.id_list_) :
    s.documents_.find? document_id = none ∧
    s.words_freqs_in_document.find? document_id = none := by
  have hdoc : document_id ∉ s.documents_.keys := fun hm => hid (h.docs_ids _ hm)
  have hfwd : document_id ∉ s.words_freqs_in_document.keys := fun hm => hdoc (h.fwd_docs _ hm)
  exact ⟨(OrdMap.find?_eq_none_iff _ _).2 hdoc, (OrdMap.find?_eq_none_iff _ _).2 hfwd⟩

theorem RemoveDocument_of_not_live {s : SearchServer α} (h : Inv s) {document_id : Int}
    (hid : document_id ∉ s.id_list_) :
    RemoveDocument s document_id = (.error .out_of_range, s) := by
  obtain ⟨hdoc, hfwd⟩ := absent_of_not_live h hid
  rw [RemoveDocument_none hfwd, erase_of_find?_none _ _ hdoc]

theorem RemoveDocumentPar_of_not_live (sched : List Word → List Word) {s : SearchServer α}
    (h : Inv s) {document_id : Int} (hid : document_id ∉ s.id_list_) :
    RemoveDocumentPar sched s document_id = (.ok (), s) := by
  obtain ⟨hdoc, hfwd⟩ := absent_of_not_live h hid
  rw [RemoveDocumentPar_none sched hfwd, erase_of_find?_none _ _ hdoc,
    erase_of_find?_none _ _ hfwd, erase_of_not_mem_set _ _ hid]

/-- The state left by a removal does not depend on the order in which the
words of the document are visited. -/
theorem removedState_sched (sched : List Word → List Word) (hsched : ∀ l, (sched l).Perm l)
    {s : SearchServer α} (h : IndexInv s) {document_id : Int} {words_freqs : OrdMap Word α}
    (hfind : s.words_freqs_in_document.find? document_id = some words_freqs) :
    removedState s document_id (sched words_freqs.keys) =
      removedState s document_id words_freqs.keys := by
  obtain ⟨_, hk1, hf1⟩ := eraseFromWords_spec h hfind (sched words_freqs.keys)
    (fun _ => (hsched _).mem_iff)
  obtain ⟨_, hk2, hf2⟩ := eraseFromWords_spec h hfind words_freqs.keys (fun _ => Iff.rfl)
  have heq : (eraseFromWords document_id (sched words_freqs.keys) s.word_to_document_freqs_).2 =
      (eraseFromWords document_id words_freqs.keys s.word_to_document_freqs_).2 := by
    apply OrdMap.ext_of_sorted
    · unfold OrdMap.SortedKeys; rw [hk1]; exact h.inv_sorted
    · unfold OrdMap.SortedKeys; rw [hk2]; exact h.inv_sorted
    · intro w; rw [hf1 w, hf2 w]
  unfold removedState
  rw [heq]

end Removal

/-! ## Evaluation of the worked example -/

section WorkedExample

variable {α : Type} [LinearOrderedField α]

set_option maxHeartbeats 4000000 in
/-- The state of the worked example, field by field. -/
theorem workedExample_eq : workedExample α =
    { id_list_ := [1, 2],
      stop_words_ := ["and".toList],
      documents_texts_ := ["white cat long tail".toList, "fluffy cat fluffy tail".toList],
      word_to_document_freqs_ :=
        [("cat".toList, [(1, 0 + 1 / ((4 : ℕ) : α)), (2, 0 + 1 / ((4 : ℕ) : α))]),
         ("fluffy".toList, [(2, 0 + 1 / ((4 : ℕ) : α) + 1 / ((4 : ℕ) : α))]),
         ("long".toList, [(1, 0 + 1 / ((4 : ℕ) : α))]),
         ("tail".toList, [(1, 0 + 1 / ((4 : ℕ) : α)), (2, 0 + 1 / ((4 : ℕ) : α))]),
         ("white".toList, [(1, 0 + 1 / ((4 : ℕ) : α))])],
      words_freqs_in_document :=
        [(1, [("cat".toList, 0 + 1 / ((4 : ℕ) : α)), ("long".toList, 0 + 1 / ((4 : ℕ) : α)),
              ("tail".toList, 0 + 1 / ((4 : ℕ) : α)), ("white".toList, 0 + 1 / ((4 : ℕ) : α))]),
         (2, [("cat".toList, 0 + 1 / ((4 : ℕ) : α)),
              ("fluffy".toList, 0 + 1 / ((4 : ℕ) : α) + 1 / ((4 : ℕ) : α)),
              ("tail".toList, 0 + 1 / ((4 : ℕ) : α))])],
      documents_ := [(1, ⟨5, .ACTUAL⟩), (2, ⟨5, .ACTUAL⟩)] } := by
  rfl

set_option maxHeartbeats 4000000 in
theorem workedExample_parse :
    ParseQuery (workedExample α) "fluffy well-groomed cat".toList =
      .ok ⟨["cat".toList, "fluffy".toList, "well-groomed".toList], []⟩ := by
  rfl

set_option maxHeartbeats 4000000 in
/-- The matches of the query of the worked example, in the order of the ids,
with the relevances as the code accumulates them. -/
theorem workedExample_findAll (ln : α → α) :
    FindAllDocuments ln (workedExample α)
      ⟨["cat".toList, "fluffy".toList, "well-groomed".toList], []⟩
      (fun _ document_status _ => decide (document_status = .ACTUAL)) =
    .ok [⟨1, 0 + (0 + 1 / ((4 : ℕ) : α)) * ln (((2 : ℕ) : α) / ((2 : ℕ) : α)), 5⟩,
         ⟨2, 0 + (0 + 1 / ((4 : ℕ) : α)) * ln (((2 : ℕ) : α) / ((2 : ℕ) : α)) +
             (0 + 1 / ((4 : ℕ) : α) + 1 / ((4 : ℕ) : α)) * ln (((2 : ℕ) : α) / ((1 : ℕ) : α)),
           5⟩] := by
  rw [workedExample_eq]
  rfl

/-- The result of the worked example for any logarithm with `ln 1 = 0` and
`ln 2` well above the tie threshold. -/
theorem workedExample_top (ln : α → α) (h1 : ln 1 = 0) (h2 : 2 * DELTA ≤ ln 2) :
    FindTopDocumentsDefault ln (workedExample α) "fluffy well-groomed cat".toList =
      .ok [⟨2, 1 / 2 * ln 2, 5⟩, ⟨1, 0, 5⟩] := by
  have hr1 : 0 + (0 + 1 / ((4 : ℕ) : α)) * ln (((2 : ℕ) : α) / ((2 : ℕ) : α)) = 0 := by
    have : ((2 : ℕ) : α) / ((2 : ℕ) : α) = 1 := by norm_num
    rw [this, h1]
    ring
  have hr2 : 0 + (0 + 1 / ((4 : ℕ) : α)) * ln (((2 : ℕ) : α) / ((2 : ℕ) : α)) +
      (0 + 1 / ((4 : ℕ) : α) + 1 / ((4 : ℕ) : α)) * ln (((2 : ℕ) : α) / ((1 : ℕ) : α)) =
        1 / 2 * ln 2 := by
    have : ((2 : ℕ) : α) / ((1 : ℕ) : α) = 2 := by norm_num
    rw [hr1, this]
    norm_num
  have hd : (DELTA : α) > 0 := DELTA_pos
  have hfind := workedExample_findAll (α := α) ln
  rw [hr2, hr1] at hfind
  unfold FindTopDocumentsDefault FindTopDocumentsStatus
  rw [FindTopDocuments_of_parse ln _ workedExample_parse _ hfind]
  have hless : docLess (α := α) ⟨2, 1 / 2 * ln 2, 5⟩ ⟨1, 0, 5⟩ = true := by
    have habs : ¬ |1 / 2 * ln 2 - 0| < (DELTA : α) := by
      rw [sub_zero, abs_of_nonneg (by linarith)]
      linarith
    simp only [docLess, habs, if_false]
    simp only [gt_iff_lt, decide_eq_true_eq]
    linarith
  simp only [sortAndTruncate, sortDocuments, List.insertionSort, List.orderedInsert, hless,
    Bool.true_eq_false, if_false]
  rfl

end WorkedExample

/-! ## The sharded accumulator as one map -/

section OneMap

variable {α : Type} [LinearOrderedField α]

theorem onBucket_length (cm : ConcurrentMap α) (key : Int) (f : OrdMap Int α → OrdMap Int α) :
    (cm.onBucket key f).buckets_.length = cm.buckets_.length := by
  simp only [ConcurrentMap.onBucket]
  cases hb : cm.buckets_[bucketIndex key cm.buckets_.length]? with
  | none => rfl
  | some bucket => simp

theorem run_length (cm : ConcurrentMap α) (op : MapOp α) :
    (cm.run op).buckets_.length = cm.buckets_.length := by
  cases op with
  | add key value => exact onBucket_length cm key _
  | erase key => exact onBucket_length cm key _

/-- One statement keeps the accumulator well formed and in step with the
single map. -/
theorem run_simulation {cm : ConcurrentMap α} {m : OrdMap Int α} (hwf : cm.WF)
    (hm : m.SortedKeys) (hl : ∀ id, cm.lookup id = m.find? id) (op : MapOp α) :
    (cm.run op).WF ∧ (referenceRun m op).SortedKeys ∧
    ∀ id, (cm.run op).lookup id = (referenceRun m op).find? id := by
  cases op with
  | add key value =>
    obtain ⟨g1, g2⟩ := add_spec hwf key value
    refine ⟨g1, OrdMap.sortedKeys_update hm _ _ _, fun id => ?_⟩
    show (cm.add key value).lookup id = (m.update key 0 (fun v => v + value)).find? id
    rw [g2, OrdMap.find?_update, hl, hl]
  | erase key =>
    obtain ⟨g1, g2⟩ := Erase_spec hwf key
    refine ⟨g1, OrdMap.sortedKeys_erase hm _, fun id => ?_⟩
    show (cm.Erase key).lookup id = (m.erase key).find? id
    rw [g2, OrdMap.find?_erase, hl]

theorem foldl_run_simulation (ops : List (MapOp α)) :
    ∀ {cm : ConcurrentMap α} {m : OrdMap Int α}, cm.WF → m.SortedKeys →
    (∀ id, cm.lookup id = m.find? id) →
    (ops.foldl ConcurrentMap.run cm).WF ∧
    (ops.foldl ConcurrentMap.run cm).buckets_.length = cm.buckets_.length ∧
    (ops.foldl referenceRun m).SortedKeys ∧
    ∀ id, (ops.foldl ConcurrentMap.run cm).lookup id = (ops.foldl referenceRun m).find? id := by
  induction ops with
  | nil => intro cm m hwf hm hl; exact ⟨hwf, rfl, hm, hl⟩
  | cons op rest ih =>
    intro cm m hwf hm hl
    obtain ⟨g1, g2, g3⟩ := run_simulation hwf hm hl op
    obtain ⟨h1, h2, h3, h4⟩ := ih g1 g2 g3
    exact ⟨h1, h2.trans (run_length cm op), h3, h4⟩

end OneMap

/-! ## The pager -/

section Pager

theorem toSizeT_natCast (j : Nat) (h : j < 18446744073709551616) : toSizeT (j : Int) = j := by
  unfold toSizeT
  omega

/-- The page count is the least number of pages of `page_size` elements that
hold `distance` elements. -/
theorem pageCount_spec (distance page_size : Nat) (hp : 0 < page_size) :
    distance ≤ page_size * pageCount distance page_size ∧
    ∀ j, j < pageCount distance page_size → page_size * j < distance := by
  have hdm := Nat.div_add_mod distance page_size
  have hlt := Nat.mod_lt distance hp
  unfold pageCount
  by_cases hr : distance % page_size = 0
  · simp only [hr, ne_eq, not_true_eq_false, if_false, Nat.add_zero]
    rw [hr, Nat.add_zero] at hdm
    refine ⟨by omega, fun j hj => ?_⟩
    have := (Nat.mul_lt_mul_left (a := page_size) hp).2 hj
    omega
  · simp only [hr, ne_eq, not_false_eq_true, if_true]
    refine ⟨?_, fun j hj => ?_⟩
    · rw [Nat.mul_add, Nat.mul_one]
      omega
    · have hj' : j ≤ distance / page_size := by omega
      have := Nat.mul_le_mul_left page_size hj'
      omega

theorem pageCount_eq (distance page_size : Nat) (hp : 0 < page_size) :
    pageCount distance page_size = (distance + page_size - 1) / page_size := by
  obtain ⟨h1, h2⟩ := pageCount_spec distance page_size hp
  symm
  apply Nat.div_eq_of_lt_le
  · rw [Nat.mul_comm]
    cases hk : pageCount distance page_size with
    | zero => simp
    | succ k =>
      have := h2 k (by omega)
      rw [Nat.mul_add, Nat.mul_one]
      omega
  · rw [Nat.succ_mul, Nat.mul_comm]
    omega

/-- While the counter stays below `INT_MAX` and the products fit into
`size_t`, the loop appends the pages with the indices from `j` on. -/
theorem paginatorLoop_eq (distance page_size size_ : Nat) (hsize : size_ < 2147483648)
    (hoff : ∀ j, j < size_ → page_size * j < 18446744073709551616) :
    ∀ (fuel j : Nat) (pages : List IteratorRange), j + fuel = size_ →
    paginatorLoop distance page_size size_ fuel (j : Int) pages =
      .ok (pages ++ (List.range' j fuel).map (pageAt distance page_size size_)) := by
  intro fuel
  induction fuel with
  | zero => intro j pages _; simp [paginatorLoop]
  | succ fuel ih =>
    intro j pages hj
    have hjs : j < size_ := by omega
    have hconv : toSizeT (j : Int) = j := toSizeT_natCast j (by omega)
    have hmod : page_size * j % 18446744073709551616 = page_size * j :=
      Nat.mod_eq_of_lt (hoff j hjs)
    have hmax : ¬ (j : Int) = 2147483647 := by omega
    have hnext : (j : Int) + 1 = ((j + 1 : Nat) : Int) := by omega
    simp only [paginatorLoop, hconv, hjs, if_true, hmod, hmax, if_false]
    rw [hnext, ih (j + 1) _ (by omega)]
    simp [List.range'_succ, pageAt]

/-- The pages of a sequence that has at most `INT_MAX` pages. -/
theorem Paginator_eq (distance page_size : Nat) (hp : 0 < page_size)
    (hdist : distance < 9223372036854775808)
    (hsize : pageCount distance page_size < 2147483648) :
    Paginator distance page_size =
      .ok ((List.range (pageCount distance page_size)).map
        (pageAt distance page_size (pageCount distance page_size))) := by
  obtain ⟨_, h2⟩ := pageCount_spec distance page_size hp
  have h := paginatorLoop_eq distance page_size (pageCount distance page_size) hsize
    (fun j hj => by have := h2 j hj; omega) (pageCount distance page_size) 0 [] (by simp)
  unfold Paginator
  rw [List.range_eq_range']
  simpa [pageCount] using h

/-- With more than `INT_MAX` pages to make, the counter reaches `INT_MAX`
while pages are still missing, and its increment overflows. -/
theorem paginatorLoop_undefined (distance page_size size_ : Nat)
    (hsize : 2147483648 ≤ size_) :
    ∀ (fuel j : Nat) (pages : List IteratorRange), j ≤ 2147483647 →
    2147483648 ≤ j + fuel →
    paginatorLoop distance page_size size_ fuel (j : Int) pages = .error .undefined := by
  intro fuel
  induction fuel with
  | zero => intro j pages hj hf; omega
  | succ fuel ih =>
    intro j pages hj hf
    have hconv : toSizeT (j : Int) = j := toSizeT_natCast j (by omega)
    have hjs : j < size_ := by omega
    by_cases hmax : (j : Int) = 2147483647
    · simp only [paginatorLoop, hconv, hjs, if_true]
      rw [if_pos hmax]
    · have hnext : (j : Int) + 1 = ((j + 1 : Nat) : Int) := by omega
      simp only [paginatorLoop, hconv, hjs, if_true, hmax, if_false]
      rw [hnext]
      exact ih (j + 1) _ (by omega) (by omega)

theorem Paginator_undefined (distance page_size : Nat)
    (hsize : 2147483648 ≤ pageCount distance page_size) :
    Paginator distance page_size = .error .undefined := by
  have h := paginatorLoop_undefined distance page_size (pageCount distance page_size) hsize
    (pageCount distance page_size) 0 [] (by omega) (by omega)
  unfold Paginator
  simpa [pageCount] using h

/-- The pager on a sequence of `n` elements with the page size 1. -/
theorem Paginate_replicate_undefined (n : Nat) (hn : 2147483648 ≤ n) :
    pageCount n 1 = n ∧ Paginate (List.replicate n ()) 1 = .error .undefined := by
  have hc : pageCount n 1 = n := by
    simp [pageCount, Nat.mod_one]
  refine ⟨hc, ?_⟩
  rw [Paginate, List.length_replicate]
  exact Paginator_undefined n 1 (by rw [hc]; exact hn)

/-- The concatenation of the first `m` pages. -/
theorem join_pages {β : Type} (seq : List β) (page_size : Nat) (hp : 0 < page_size) :
    ∀ m, m ≤ pageCount seq.length page_size →
    (((List.range m).map (pageAt seq.length page_size (pageCount seq.length page_size))).map
      (IteratorRange.elements seq)).flatten =
      if m = pageCount seq.length page_size then seq else seq.take (page_size * m) := by
  obtain ⟨h1, h2⟩ := pageCount_spec seq.length page_size hp
  intro m
  induction m with
  | zero =>
    intro _
    by_cases h0 : 0 = pageCount seq.length page_size
    · rw [← h0] at h1
      have : seq = [] := List.length_eq_zero.1 (by omega)
      simp [this]
    · simp [h0]
  | succ m ih =>
    intro hm
    have hlt : m < pageCount seq.length page_size := by omega
    have hne : m ≠ pageCount seq.length page_size := by omega
    rw [List.range_succ, List.map_append, List.map_append, List.flatten_append, ih (by omega),
      if_neg hne]
    simp only [List.map_cons, List.map_nil, List.flatten_cons, List.flatten_nil, List.append_nil,
      IteratorRange.elements, pageAt]
    by_cases hlast : m + 1 = pageCount seq.length page_size
    · have hm1 : m = pageCount seq.length page_size - 1 := by omega
      rw [if_pos hlast, if_pos hm1]
      have hfull : List.take (seq.length - page_size * m) (List.drop (page_size * m) seq) =
          List.drop (page_size * m) seq := by
        apply List.take_of_length_le
        simp
      rw [hfull, List.take_append_drop]
    · have hm1 : ¬ m = pageCount seq.length page_size - 1 := by omega
      rw [if_neg hlast, if_neg hm1]
      have hsub : page_size * m + page_size - page_size * m = page_size := by omega
      rw [hsub, ← List.take_add]
      congr 1

/-- The pager on a sequence with at most `INT_MAX` pages: it makes exactly
`ceil(N / P)` pages, every page but the last has exactly `P` elements, the
last has between 1 and `P` elements, the concatenation of the pages in order
is the sequence, and there is no page when `N = 0`. -/
theorem paginator_pages_without_overflow {β : Type} (seq : List β) (page_size : Nat)
    (hp : 0 < page_size) (hdist : seq.length < 9223372036854775808)
    (hpages : (seq.length + page_size - 1) / page_size < 2147483648) :
    ∃ pages, Paginate seq page_size = .ok pages ∧
    pages.length = (seq.length + page_size - 1) / page_size ∧
    (∀ (i : Nat) (page : IteratorRange), pages[i]? = some page →
      (page.elements seq).length = page.size ∧
      (i + 1 < pages.length → page.size = page_size) ∧
      (i + 1 = pages.length → 1 ≤ page.size ∧ page.size ≤ page_size)) ∧
    (pages.map (IteratorRange.elements seq)).flatten = seq ∧
    (seq = [] → pages = []) := by
  have hk := pageCount_eq seq.length page_size hp
  obtain ⟨h1, h2⟩ := pageCount_spec seq.length page_size hp
  refine ⟨_, Paginator_eq seq.length page_size hp hdist (by rw [hk]; exact hpages), ?_⟩
  have hlen : ((List.range (pageCount seq.length page_size)).map
      (pageAt seq.length page_size (pageCount seq.length page_size))).length =
      pageCount seq.length page_size := by
    simp
  refine ⟨by rw [hlen, hk], ?_, ?_, ?_⟩
  · intro i page hi
    rw [hlen]
    rw [List.getElem?_map] at hi
    have hilt : i < pageCount seq.length page_size := by
      by_contra hge
      rw [List.getElem?_eq_none (by simpa using Nat.le_of_not_lt hge)] at hi
      simp at hi
    rw [List.getElem?_range hilt] at hi
    simp only [Option.map_some', Option.some.injEq] at hi
    subst hi
    have hb := h2 i hilt
    by_cases hlast : i = pageCount seq.length page_size - 1
    · have hP : page_size * pageCount seq.length page_size = page_size * i + page_size := by
        have : pageCount seq.length page_size = i + 1 := by omega
        rw [this, Nat.mul_add, Nat.mul_one]
      simp only [IteratorRange.elements, IteratorRange.size, pageAt, hlast, if_true,
        List.length_take, List.length_drop]
      rw [← hlast]
      refine ⟨by omega, fun hlt => by omega, fun _ => by omega⟩
    · have hnext := h2 (i + 1) (by omega)
      rw [Nat.mul_add, Nat.mul_one] at hnext
      simp only [IteratorRange.elements, IteratorRange.size, pageAt, hlast, if_false,
        List.length_take, List.length_drop]
      refine ⟨by omega, fun _ => by omega, fun he => by omega⟩
  · have := join_pages seq page_size hp (pageCount seq.length page_size) (Nat.le_refl _)
    rw [if_pos rfl] at this
    exact this
  · intro hnil
    rw [hnil]
    simp [pageCount]

end Pager

/-! ## The request queue -/

section RequestWindow

variable {α : Type} [LinearOrderedField α]

/-- On a reachable server a well-formed query is answered, with at most five
documents. -/
theorem FindTopDocuments_returns (ln : α → α) {s : SearchServer α} (h : Inv s)
    (raw_query : Word) (hq : ¬ malformedQuery raw_query) (pred : DocumentPredicate) :
    ∃ res, FindTopDocuments ln s raw_query pred = .ok res ∧ res.length ≤ 5 := by
  rcases ParseQuery_spec s raw_query with ⟨hb, _⟩ | ⟨_, q, hp, _⟩
  · exact absurd hb hq
  · obtain ⟨m, h1, _, _⟩ := FindAllDocuments_spec ln h q pred
    refine ⟨_, FindTopDocuments_of_parse ln s hp pred h1, ?_⟩
    rw [sortAndTruncate_length]
    exact Nat.min_le_left _ _

theorem countP_cons_int {β : Type} (p : β → Bool) (x : β) (l : List β) :
    (((x :: l).countP p : Nat) : Int) = (if p x then 1 else 0) + ((l.countP p : Nat) : Int) := by
  rw [List.countP_cons]
  by_cases hx : p x = true
  · simp [hx]; ring
  · simp [hx]

/-- One answered call while the clock stays below `2 ^ 31`: the clock
advances, the window slides, and the counter follows the window. -/
theorem AddFindRequest_step (ln : α → α) {s : SearchServer α} {q : RequestQueue α}
    {raw_query : Word} {pred : DocumentPredicate} {res : List (Document α)}
    (hres : FindTopDocuments ln s raw_query pred = .ok res) (hlen : res.length ≤ 5)
    (n : Nat) (hn : n + 1 < 2147483648) (results : List (List (Document α)))
    (hresults : results.length = n)
    (h1 : q.current_time = (n : Int))
    (h2 : q.requests_.map (fun x => x.matched_documents) = results.drop (n - 1440))
    (h3 : ∀ x ∈ q.requests_, x.documents_count = (x.matched_documents.length : Int))
    (h4 : q.no_answer_requests =
      ((q.requests_.countP (fun x => x.matched_documents.isEmpty) : Nat) : Int)) :
    (q.AddFindRequest ln s raw_query pred).1 = .ok res ∧
    (q.AddFindRequest ln s raw_query pred).2.current_time = ((n + 1 : Nat) : Int) ∧
    (q.AddFindRequest ln s raw_query pred).2.requests_.map (fun x => x.matched_documents) =
      (results ++ [res]).drop (n + 1 - 1440) ∧
    (∀ x ∈ (q.AddFindRequest ln s raw_query pred).2.requests_,
      x.documents_count = (x.matched_documents.length : Int)) ∧
    (q.AddFindRequest ln s raw_query pred).2.no_answer_requests =
      (((q.AddFindRequest ln s raw_query pred).2.requests_.countP
        (fun x => x.matched_documents.isEmpty) : Nat) : Int) := by
  have htime : wrapInt32 (q.current_time + 1) = ((n + 1 : Nat) : Int) := by
    rw [h1]
    unfold wrapInt32
    omega
  have hcount : wrapInt32 (res.length : Int) = (res.length : Int) := by
    unfold wrapInt32
    omega
  have hlenw : q.requests_.length = min n 1440 := by
    have := congrArg List.length h2
    rw [List.length_map, List.length_drop, hresults] at this
    omega
  have hcp : q.requests_.countP (fun x => x.matched_documents.isEmpty) ≤ q.requests_.length :=
    List.countP_le_length _
  have hzero : ((res.length : Int) = 0) ↔ res.isEmpty = true := by
    cases res with
    | nil => simp
    | cons a t => simp; omega
  by_cases hday : n + 1 > 1440
  · -- the oldest request leaves the window
    cases hreq : q.requests_ with
    | nil => rw [hreq] at hlenw; simp at hlenw; omega
    | cons front rest =>
      rw [hreq] at h2 h3 h4 hlenw hcp
      have hfront := h3 front (List.mem_cons_self _ _)
      have hfz : (front.documents_count = 0) ↔ front.matched_documents.isEmpty = true := by
        rw [hfront]
        cases front.matched_documents with
        | nil => simp
        | cons a t => simp; omega
      have hgt : ((n + 1 : Nat) : Int) > min_in_day_ := by
        unfold min_in_day_
        omega
      have hpop : rest.map (fun x => x.matched_documents) = results.drop (n + 1 - 1440) := by
        have ht := congrArg List.tail h2
        rw [List.map_cons, List.tail_cons, List.tail_drop] at ht
        have e : n - 1440 + 1 = n + 1 - 1440 := by omega
        rw [ht, e]
      have hdrop : (results ++ [res]).drop (n + 1 - 1440) =
          results.drop (n + 1 - 1440) ++ [res] :=
        List.drop_append_of_le_length (by omega)
      have hrestlen : rest.length + 1 = 1440 := by
        simp only [List.length_cons] at hlenw
        omega
      have hcr : rest.countP (fun x => x.matched_documents.isEmpty) ≤ rest.length :=
        List.countP_le_length _
      have hpopcount : (if front.documents_count = 0 then wrapInt32 (q.no_answer_requests - 1)
          else q.no_answer_requests) =
          ((rest.countP (fun x => x.matched_documents.isEmpty) : Nat) : Int) := by
        rw [h4, countP_cons_int]
        by_cases hf : front.documents_count = 0
        · rw [if_pos hf, if_pos (hfz.1 hf)]
          unfold wrapInt32
          omega
        · have hf' : ¬ front.matched_documents.isEmpty = true := fun e => hf (hfz.2 e)
          rw [if_neg hf, if_neg hf']
          omega
      simp only [RequestQueue.AddFindRequest, htime, hgt, if_true, hreq, hres, hcount,
        hpopcount]
      refine ⟨trivial, trivial, ?_, ?_, ?_⟩
      · rw [List.map_append, hpop, hdrop]
        rfl
      · intro x hx
        rcases List.mem_append.1 hx with hx | hx
        · exact h3 x (List.mem_cons_of_mem _ hx)
        · rw [List.mem_singleton] at hx
          rw [hx]
      · rw [List.countP_append]
        by_cases hz : (res.length : Int) = 0
        · rw [if_pos hz]
          have he := hzero.1 hz
          simp only [List.countP_cons, List.countP_nil, he, if_true]
          unfold wrapInt32
          push_cast
          omega
        · rw [if_neg hz]
          have he : ¬ res.isEmpty = true := fun e => hz (hzero.2 e)
          simp [List.countP_cons, he]
  · -- the window still grows
    have hle : ¬ ((n + 1 : Nat) : Int) > min_in_day_ := by
      unfold min_in_day_
      omega
    have h0 : n - 1440 = 0 := by omega
    have h0' : n + 1 - 1440 = 0 := by omega
    rw [h0, List.drop_zero] at h2
    simp only [RequestQueue.AddFindRequest, htime, hle, if_false, hres, hcount]
    refine ⟨trivial, trivial, ?_, ?_, ?_⟩
    · rw [List.map_append, h2, h0', List.drop_zero]
      rfl
    · intro x hx
      rcases List.mem_append.1 hx with hx | hx
      · exact h3 x hx
      · rw [List.mem_singleton] at hx
        rw [hx]
    · rw [List.countP_append, h4]
      by_cases hz : (res.length : Int) = 0
      · rw [if_pos hz]
        have he := hzero.1 hz
        simp only [List.countP_cons, List.countP_nil, he, if_true]
        unfold wrapInt32
        push_cast
        omega
      · rw [if_neg hz]
        have he : ¬ res.isEmpty = true := fun e => hz (hzero.2 e)
        simp [List.countP_cons, he]

theorem addFindRequests_append (ln : α → α) (q : RequestQueue α) (calls : List (FindRequest α))
    (call : FindRequest α) :
    addFindRequests ln q (calls ++ [call]) =
      ((addFindRequests ln q calls).AddFindRequest ln call.1 call.2.1 call.2.2).2 := by
  simp [addFindRequests, List.foldl_append]

/-- The queue after fewer than `2 ^ 31` answered calls: the clock counts the
calls, the window holds the results of the last 1440 calls, and the counter
is the number of empty results in the window. -/
theorem addFindRequests_spec (ln : α → α) (calls : List (FindRequest α)) :
    (∀ call ∈ calls, Inv call.1 ∧ ¬ malformedQuery call.2.1) →
    calls.length < 2147483648 →
    (addFindRequests ln (RequestQueue.create α) calls).current_time = (calls.length : Int) ∧
    (addFindRequests ln (RequestQueue.create α) calls).requests_.map
      (fun x => x.matched_documents) =
      (calls.map (requestResult ln)).drop (calls.length - 1440) ∧
    (∀ x ∈ (addFindRequests ln (RequestQueue.create α) calls).requests_,
      x.documents_count = (x.matched_documents.length : Int)) ∧
    (addFindRequests ln (RequestQueue.create α) calls).no_answer_requests =
      (((addFindRequests ln (RequestQueue.create α) calls).requests_.countP
        (fun x => x.matched_documents.isEmpty) : Nat) : Int) := by
  induction calls using List.reverseRecOn with
  | nil =>
    intro _ _
    simp [addFindRequests, RequestQueue.create]
  | append_singleton calls call ih =>
    intro hcalls hlen
    rw [List.length_append, List.length_singleton] at hlen
    obtain ⟨h1, h2, h3, h4⟩ := ih (fun c hc => hcalls c (List.mem_append_left _ hc)) (by omega)
    obtain ⟨hinv, hq⟩ := hcalls call (List.mem_append_right _ (List.mem_singleton_self _))
    obtain ⟨res, hres, hres5⟩ := FindTopDocuments_returns ln hinv call.2.1 hq call.2.2
    have hrr : requestResult ln call = res := by
      simp [requestResult, hres]
    obtain ⟨_, g1, g2, g3, g4⟩ := AddFindRequest_step ln hres hres5 calls.length hlen
      (calls.map (requestResult ln)) (by simp) h1 h2 h3 h4
    rw [addFindRequests_append, List.length_append, List.length_singleton, List.map_append,
      List.map_singleton, hrr]
    exact ⟨g1, g2, g3, g4⟩

/-- A call that finds nothing while the clock is not past the day: nothing is
retired and the request is counted. -/
theorem AddFindRequest_no_retire (ln : α → α) {s : SearchServer α} {q : RequestQueue α}
    {raw_query : Word} {pred : DocumentPredicate}
    (hres : FindTopDocuments ln s raw_query pred = .ok [])
    (htime : ¬ wrapInt32 (q.current_time + 1) > min_in_day_) :
    (q.AddFindRequest ln s raw_query pred).2.requests_.length = q.requests_.length + 1 ∧
    (q.AddFindRequest ln s raw_query pred).2.GetNoResultRequests =
      wrapInt32 (q.no_answer_requests + 1) := by
  unfold RequestQueue.GetNoResultRequests
  have hzero : wrapInt32 ((([] : List (Document α)).length : Nat) : Int) = 0 := by
    unfold wrapInt32
    simp
  simp only [RequestQueue.AddFindRequest, htime, if_false, hres, hzero, if_true,
    List.length_append, List.length_singleton, and_self]

/-- After `2 ^ 31` calls that find nothing the clock has wrapped in the last
call, the window holds 1441 requests, and all of them are counted. -/
theorem addFindRequests_wrapped (ln : α → α) (call : FindRequest α) (n : Nat)
    (hn : n = 2147483647) (hinv : Inv call.1) (hq : ¬ malformedQuery call.2.1)
    (hres : FindTopDocuments ln call.1 call.2.1 call.2.2 = .ok []) :
    (addFindRequests ln (RequestQueue.create α) (List.replicate (n + 1) call)).requests_.length =
      1441 ∧
    (addFindRequests ln (RequestQueue.create α)
      (List.replicate (n + 1) call)).GetNoResultRequests = 1441 := by
  have hrr : requestResult ln call = [] := by
    simp [requestResult, hres]
  obtain ⟨h1, h2, h3, h4⟩ := addFindRequests_spec ln (List.replicate n call)
    (fun c hc => by
      rw [List.eq_of_mem_replicate hc]
      exact ⟨hinv, hq⟩)
    (by rw [List.length_replicate]; omega)
  rw [List.length_replicate] at h1 h2
  rw [List.map_replicate, hrr, List.drop_replicate] at h2
  rw [List.replicate_succ', addFindRequests_append]
  generalize addFindRequests ln (RequestQueue.create α) (List.replicate n call) = q
    at h1 h2 h3 h4 ⊢
  have hlen : q.requests_.length = 1440 := by
    have := congrArg List.length h2
    rw [List.length_map, List.length_replicate] at this
    omega
  have hall : q.requests_.countP (fun x => x.matched_documents.isEmpty) = q.requests_.length := by
    rw [List.countP_eq_length]
    intro x hx
    have hm : x.matched_documents ∈ q.requests_.map (fun x => x.matched_documents) :=
      List.mem_map_of_mem _ hx
    rw [h2] at hm
    rw [List.eq_of_mem_replicate hm]
    rfl
  rw [hall, hlen] at h4
  have htime : ¬ wrapInt32 (q.current_time + 1) > min_in_day_ := by
    rw [h1]
    unfold wrapInt32 min_in_day_
    omega
  have hone : wrapInt32 (q.no_answer_requests + 1) = 1441 := by
    rw [h4]
    unfold wrapInt32
    omega
  obtain ⟨g1, g2⟩ := AddFindRequest_no_retire ln (q := q) hres htime
  exact ⟨by rw [g1, hlen], g2.trans hone⟩

end RequestWindow

/-! ## Duplicate removal -/

section DuplicateRemoval

variable {α : Type} [LinearOrderedField α]

theorem foldl_insert_spec (l : List (Word × α)) : ∀ acc : OrdSet Word,
    acc.Pairwise (fun a b => a < b) →
    (l.foldl (fun document_words p => OrdSet.insert document_words p.1) acc).Pairwise
      (fun a b => a < b) ∧
    ∀ w, w ∈ l.foldl (fun document_words p => OrdSet.insert document_words p.1) acc ↔
      w ∈ acc ∨ w ∈ l.map Prod.fst := by
  induction l with
  | nil => intro acc hacc; exact ⟨hacc, fun w => by simp⟩
  | cons p rest ih =>
    intro acc hacc
    obtain ⟨h1, h2⟩ := ih (acc.insert p.1) (OrdSet.sorted_insert hacc p.1)
    refine ⟨h1, fun w => ?_⟩
    rw [List.foldl_cons, h2, OrdSet.mem_insert]
    simp only [List.map_cons, List.mem_cons]
    tauto

theorem documentWords_sorted (s : SearchServer α) (id : Int) :
    (documentWords s id).Pairwise (fun a b => a < b) :=
  (foldl_insert_spec _ [] List.Pairwise.nil).1

/-- The set `document_words` holds the words the document contains. -/
theorem mem_documentWords (s : SearchServer α) (id : Int) (w : Word) :
    w ∈ documentWords s id ↔ containsWord s id w = true := by
  unfold documentWords containsWord
  rw [(foldl_insert_spec _ [] List.Pairwise.nil).2, OrdMap.find?_isSome_iff]
  simp [OrdMap.keys]

theorem eq_of_sorted_of_mem_iff {β : Type} [LinearOrder β] {l₁ l₂ : List β}
    (h₁ : l₁.Pairwise (fun a b => a < b)) (h₂ : l₂.Pairwise (fun a b => a < b))
    (h : ∀ x, x ∈ l₁ ↔ x ∈ l₂) : l₁ = l₂ := by
  have n₁ : l₁.Nodup := h₁.imp (fun hab => ne_of_lt hab)
  have n₂ : l₂.Nodup := h₂.imp (fun hab => ne_of_lt hab)
  exact List.eq_of_perm_of_sorted ((List.perm_ext_iff_of_nodup n₁ n₂).2 h) h₁ h₂

/-- Two documents have equal sets `document_words` exactly when they contain
the same words. -/
theorem documentWords_eq_iff (s : SearchServer α) (a b : Int) :
    documentWords s a = documentWords s b ↔ sameWords s a b := by
  constructor
  · intro h w
    have h1 := mem_documentWords s a w
    have h2 := mem_documentWords s b w
    rw [h] at h1
    cases ha : containsWord s a w <;> cases hb : containsWord s b w <;> simp_all
  · intro h
    apply eq_of_sorted_of_mem_iff (documentWords_sorted s a) (documentWords_sorted s b)
    intro w
    rw [mem_documentWords, mem_documentWords, h w]

/-- The first loop collects the ids that repeat a word set seen before. -/
theorem collectDuplicates_eq (s : SearchServer α) (l : List Int) :
    ∀ (seen : List Int) (documents_words : OrdSet (OrdSet Word)) (ids_for_remove : List Int),
    (∀ x, x ∈ documents_words ↔ ∃ id ∈ seen, documentWords s id = x) →
    collectDuplicates s l documents_words ids_for_remove =
      ids_for_remove ++ duplicatesAfter s seen l := by
  induction l with
  | nil => intro seen dw acc _; simp [collectDuplicates, duplicatesAfter]
  | cons id rest ih =>
    intro seen dw acc hinv
    simp only [collectDuplicates, duplicatesAfter]
    by_cases hm : documentWords s id ∈ dw
    · have hex : ∃ id' ∈ seen, documentWords s id' = documentWords s id := (hinv _).1 hm
      simp only [hm, hex, decide_True, if_true]
      rw [ih (id :: seen) dw (acc ++ [id])]
      · simp
      · intro x
        rw [hinv x]
        constructor
        · rintro ⟨id', h1, h2⟩
          exact ⟨id', List.mem_cons_of_mem _ h1, h2⟩
        · rintro ⟨id', h1, h2⟩
          rcases List.mem_cons.1 h1 with rfl | h1
          · rw [← h2]
            exact hex
          · exact ⟨id', h1, h2⟩
    · have hex : ¬ ∃ id' ∈ seen, documentWords s id' = documentWords s id :=
        fun h => hm ((hinv _).2 h)
      simp only [hm, hex, decide_False, Bool.false_eq_true, if_false]
      rw [ih (id :: seen) (OrdSet.insert dw (documentWords s id)) acc]
      intro x
      rw [OrdSet.mem_insert, hinv x]
      constructor
      · rintro (rfl | ⟨id', h1, h2⟩)
        · exact ⟨id, List.mem_cons_self _ _, rfl⟩
        · exact ⟨id', List.mem_cons_of_mem _ h1, h2⟩
      · rintro ⟨id', h1, h2⟩
        rcases List.mem_cons.1 h1 with rfl | h1
        · exact Or.inl h2.symm
        · exact Or.inr ⟨id', h1, h2⟩

theorem duplicatesAfter_sublist (s : SearchServer α) (l : List Int) :
    ∀ seen, (duplicatesAfter s seen l).Sublist l := by
  induction l with
  | nil => intro seen; simp [duplicatesAfter]
  | cons id rest ih =>
    intro seen
    simp only [duplicatesAfter]
    split
    · exact (ih _).cons₂ _
    · exact (ih _).cons _

/-- On an ascending list, the collected ids are those whose word set is that
of a smaller id of the list or of an id seen before. -/
theorem mem_duplicatesAfter (s : SearchServer α) (l : List Int) :
    ∀ seen : List Int, l.Pairwise (fun a b => a < b) → (∀ d ∈ seen, ∀ y ∈ l, d < y) →
    ∀ x, x ∈ duplicatesAfter s seen l ↔
      x ∈ l ∧ ∃ id ∈ seen ++ l, id < x ∧ documentWords s id = documentWords s x := by
  induction l with
  | nil => intro seen _ _ x; simp [duplicatesAfter]
  | cons id rest ih =>
    intro seen hl hseen x
    obtain ⟨hid, hrest⟩ := List.pairwise_cons.1 hl
    have hseen' : ∀ d ∈ id :: seen, ∀ y ∈ rest, d < y := by
      intro d hd y hy
      rcases List.mem_cons.1 hd with rfl | hd
      · exact hid y hy
      · exact hseen d hd y (List.mem_cons_of_mem _ hy)
    have ih' := ih (id :: seen) hrest hseen' x
    have hsub := (duplicatesAfter_sublist s rest (id :: seen)).subset
    by_cases hx : x = id
    · subst hx
      have hnot : x ∉ rest := fun hm => lt_irrefl x (hid x hm)
      have hnd : x ∉ duplicatesAfter s (x :: seen) rest := fun hm => hnot (hsub hm)
      have hiff : (∃ id' ∈ seen, documentWords s id' = documentWords s x) ↔
          ∃ id' ∈ seen ++ x :: rest, id' < x ∧ documentWords s id' = documentWords s x := by
        constructor
        · rintro ⟨id', h1, h2⟩
          exact ⟨id', List.mem_append_left _ h1, hseen id' h1 x (List.mem_cons_self _ _), h2⟩
        · rintro ⟨id', h1, h2, h3⟩
          rcases List.mem_append.1 h1 with h1 | h1
          · exact ⟨id', h1, h3⟩
          · rcases List.mem_cons.1 h1 with rfl | h1
            · exact absurd h2 (lt_irrefl _)
            · exact absurd (lt_trans h2 (hid id' h1)) (lt_irrefl _)
      simp only [duplicatesAfter]
      by_cases hex : ∃ id' ∈ seen, documentWords s id' = documentWords s x
      · simp only [hex, decide_True, if_true, List.mem_cons, true_or, true_and]
        exact ⟨fun _ => hiff.1 hex, fun _ => trivial⟩
      · simp only [hex, decide_False, Bool.false_eq_true, if_false, List.mem_cons, true_or,
          true_and]
        exact ⟨fun hm => absurd hm hnd, fun h => absurd (hiff.2 h) hex⟩
    · have hmem : x ∈ duplicatesAfter s seen (id :: rest) ↔
          x ∈ duplicatesAfter s (id :: seen) rest := by
        simp only [duplicatesAfter]
        split
        · simp [hx]
        · rfl
      rw [hmem, ih']
      simp only [List.mem_cons, hx, false_or, List.mem_append]
      constructor
      · rintro ⟨h1, id', h2, h3⟩
        exact ⟨h1, id', by tauto, h3⟩
      · rintro ⟨h1, id', h2, h3⟩
        exact ⟨h1, id', by tauto, h3⟩

/-- The ids that `RemoveDuplicates` hands to `RemoveDocument`. -/
theorem mem_collectDuplicates {s : SearchServer α} (h : Inv s) (x : Int) :
    x ∈ collectDuplicates s s.id_list_ [] [] ↔ x ∈ s.id_list_ ∧ isDuplicate s x := by
  rw [collectDuplicates_eq s s.id_list_ [] [] [] (by simp), List.nil_append,
    mem_duplicatesAfter s s.id_list_ [] h.ids_sorted (by simp)]
  simp only [List.nil_append, isDuplicate, documentWords_eq_iff]

theorem collectDuplicates_nodup {s : SearchServer α} (h : Inv s) :
    (collectDuplicates s s.id_list_ [] []).Nodup := by
  rw [collectDuplicates_eq s s.id_list_ [] [] [] (by simp), List.nil_append]
  exact (List.Pairwise.sublist (duplicatesAfter_sublist s _ _) h.ids_sorted).imp
    (fun hab => ne_of_lt hab)

/-- The second loop, on documents that all have an entry in the forward
index: every call returns normally, and the documents are gone from the id
list, the forward index and the document records. -/
theorem removeDocuments_spec (ids : List Int) : ∀ {s : SearchServer α}, Inv s → ids.Nodup →
    (∀ id ∈ ids, s.words_freqs_in_document.contains id = true) →
    (removeDocuments ids s).1 = .ok () ∧ Inv (removeDocuments ids s).2 ∧
    (∀ x, x ∈ (removeDocuments ids s).2.id_list_ ↔ x ∈ s.id_list_ ∧ x ∉ ids) ∧
    (∀ x, (removeDocuments ids s).2.words_freqs_in_document.find? x =
      if x ∈ ids then none else s.words_freqs_in_document.find? x) ∧
    (∀ x, (removeDocuments ids s).2.documents_.find? x =
      if x ∈ ids then none else s.documents_.find? x) := by
  induction ids with
  | nil =>
    intro s h _ _
    exact ⟨rfl, h, fun x => by simp [removeDocuments], fun x => by simp [removeDocuments],
      fun x => by simp [removeDocuments]⟩
  | cons id rest ih =>
    intro s h hnd hfwd
    obtain ⟨hid, hrestnd⟩ := List.nodup_cons.1 hnd
    obtain ⟨words_freqs, hfind⟩ : ∃ m, s.words_freqs_in_document.find? id = some m := by
      have := hfwd id (List.mem_cons_self _ _)
      unfold OrdMap.contains at this
      exact Option.isSome_iff_exists.1 this
    have hstep := RemoveDocument_some h.index hfind
    have hinv1 := removedState_inv h hfind words_freqs.keys (fun _ => Iff.rfl)
    have hfwd1 : ∀ x, (removedState s id words_freqs.keys).words_freqs_in_document.find? x =
        if x = id then none else s.words_freqs_in_document.find? x :=
      fun x => OrdMap.find?_erase _ _ _
    have hdoc1 : ∀ x, (removedState s id words_freqs.keys).documents_.find? x =
        if x = id then none else s.documents_.find? x :=
      fun x => OrdMap.find?_erase _ _ _
    have hids1 : ∀ x, x ∈ (removedState s id words_freqs.keys).id_list_ ↔
        x ≠ id ∧ x ∈ s.id_list_ :=
      fun x => OrdSet.mem_erase _ _ _
    have hrestfwd : ∀ x ∈ rest,
        (removedState s id words_freqs.keys).words_freqs_in_document.contains x = true := by
      intro x hx
      have hne : x ≠ id := fun e => hid (e ▸ hx)
      unfold OrdMap.contains
      rw [hfwd1 x, if_neg hne]
      exact hfwd x (List.mem_cons_of_mem _ hx)
    obtain ⟨g1, g2, g3, g4, g5⟩ := ih hinv1 hrestnd hrestfwd
    have hrun : removeDocuments (id :: rest) s =
        removeDocuments rest (removedState s id words_freqs.keys) := by
      simp only [removeDocuments, hstep]
    rw [hrun]
    refine ⟨g1, g2, fun x => ?_, fun x => ?_, fun x => ?_⟩
    · rw [g3, hids1, List.mem_cons]
      tauto
    · rw [g4, hfwd1]
      by_cases h1 : x = id <;> by_cases h2 : x ∈ rest <;> simp [h1, h2]
    · rw [g5, hdoc1]
      by_cases h1 : x = id <;> by_cases h2 : x ∈ rest <;> simp [h1, h2]

end DuplicateRemoval

/-! ## The claims -/

section Claims

variable {α : Type} [LinearOrderedField α]

theorem exampleServer_reachable : Reachable exampleServer :=
  Reachable.add _ _ _ _ (Reachable.add _ _ _ _ (Reachable.init _))

theorem emptyDocServer_reachable : Reachable emptyDocServer :=
  Reachable.add _ _ _ _ (Reachable.init _)

theorem mem_getWordFrequencies_iff {s : SearchServer α} (h : Inv s) (document_id : Int)
    (word : Word) (f : α) :
    (word, f) ∈ GetWordFrequencies s document_id ↔ fwdFreq s document_id word = some f := by
  unfold GetWordFrequencies fwdFreq OrdMap.find2?
  cases hm : s.words_freqs_in_document.find? document_id with
  | none => simp
  | some m =>
    have hs := h.index.fwd_inner document_id m hm
    exact ⟨fun hmem => OrdMap.find?_of_mem hs.nodup hmem, fun hf => OrdMap.mem_of_find? hf⟩

theorem mem_inverted_iff {s : SearchServer α} (h : Inv s) (document_id : Int)
    (word : Word) (f : α) :
    (∃ entry, (word, entry) ∈ s.word_to_document_freqs_ ∧ (document_id, f) ∈ entry) ↔
      invFreq s word document_id = some f := by
  constructor
  · rintro ⟨entry, h1, h2⟩
    have hf := OrdMap.find?_of_mem h.index.inv_sorted.nodup h1
    have hs := h.index.inv_inner word entry hf
    rw [invFreq, find2?_of_find? hf]
    exact OrdMap.find?_of_mem hs.nodup h2
  · intro hf
    obtain ⟨entry, h1, h2⟩ := find?_some_of_find2? hf
    exact ⟨entry, OrdMap.mem_of_find? h1, OrdMap.mem_of_find? h2⟩

/-- C1: in every state reachable from a fresh server by calls of `AddDocument`
and of the sequential or parallel `RemoveDocument`, whatever their outcome,
the pairs `(word, frequency)` of the forward entry of an id are exactly the
pairs `(word, word_to_document_freqs_[word][id])` of the inverted entries that
contain the id. -/
theorem C1_index_consistency {s : SearchServer α} (h : Reachable s) (document_id : Int)
    (word : Word) (f : α) :
    (word, f) ∈ GetWordFrequencies s document_id ↔
      ∃ entry, (word, entry) ∈ s.word_to_document_freqs_ ∧ (document_id, f) ∈ entry := by
  rw [mem_getWordFrequencies_iff h.inv, mem_inverted_iff h.inv]
  rw [h.inv.index.consistent]

theorem C1_index_consistency_witness :
    ((("cat".toList, (1 / 4 : ℚ)) ∈ GetWordFrequencies exampleServer 2) ↔
      ∃ entry, ("cat".toList, entry) ∈ exampleServer.word_to_document_freqs_ ∧
        ((2 : Int), (1 / 4 : ℚ)) ∈ entry) :=
  C1_index_consistency exampleServer_reachable 2 "cat".toList (1 / 4)

/-- The values of a map with distinct keys that stores `count w words * x`
under exactly the words of `words` add up to `words.length * x`. -/
theorem sum_values_of_counts (m : OrdMap Word α) (words : List Word) (x : α)
    (hnd : m.keys.Nodup)
    (hfind : ∀ w, m.find? w = if w ∈ words then some ((words.count w : α) * x) else none) :
    (m.map Prod.snd).sum = (words.length : α) * x := by
  have hvals : m.map Prod.snd = m.keys.map (fun w => (words.count w : α) * x) := by
    unfold OrdMap.keys
    rw [List.map_map]
    apply List.map_congr_left
    rintro ⟨w, v⟩ hmem
    have h1 := OrdMap.find?_of_mem hnd hmem
    rw [hfind] at h1
    by_cases hw : w ∈ words
    · simp only [hw, if_true, Option.some.injEq] at h1
      simp [h1]
    · simp [hw] at h1
  have hperm : m.keys.Perm words.dedup := by
    refine (List.perm_ext_iff_of_nodup hnd (List.nodup_dedup _)).2 ?_
    intro w
    rw [List.mem_dedup, ← OrdMap.find?_isSome_iff, hfind]
    by_cases hw : w ∈ words <;> simp [hw]
  rw [hvals, (hperm.map _).sum_eq, List.sum_map_mul_right]
  congr 1
  have := List.sum_map_count_dedup_eq_length words
  calc (List.map (fun w => (words.count w : α)) words.dedup).sum
      = (((List.map (fun w => words.count w) words.dedup).sum : Nat) : α) := by
        rw [Nat.cast_list_sum, List.map_map]
        rfl
    _ = (words.length : α) := by
        have h2 := congrArg (Nat.cast : ℕ → α) this
        convert h2

/-- C7, with the arithmetic of `double` read as the exact arithmetic of an
ordered field such as the reals: after a successful `AddDocument` on a
reachable server, `GetWordFrequencies(id)` has distinct keys, maps every
non-stop word of the text to its number of occurrences among the non-stop
words divided by their number, and has no other key; the frequencies add up
to 1 when the text has a non-stop word, and the mapping is empty when it has
none. -/
theorem C7_word_frequencies_after_add {s : SearchServer α} (h : Reachable s)
    (document_id : Int) (document : Word) (status : DocumentStatus) (ratings : List Int)
    (hok : (AddDocument s document_id document status ratings).1 = .ok ()) :
    (GetWordFrequencies (AddDocument s document_id document status ratings).2
      document_id).SortedKeys ∧
    (∀ w, (GetWordFrequencies (AddDocument s document_id document status ratings).2
        document_id).find? w =
      if w ∈ SplitIntoWordsNoStop s document then
        some (((SplitIntoWordsNoStop s document).count w : α) /
          ((SplitIntoWordsNoStop s document).length : α))
      else none) ∧
    (SplitIntoWordsNoStop s document ≠ [] →
      ((GetWordFrequencies (AddDocument s document_id document status ratings).2
        document_id).map Prod.snd).sum = 1) ∧
    (SplitIntoWordsNoStop s document = [] →
      GetWordFrequencies (AddDocument s document_id document status ratings).2
        document_id = []) := by
  have hinv' := AddDocument_inv h.inv document_id document status ratings
  rcases AddDocument_cases s document_id document status ratings with h1 | ⟨_, _, h3, h1⟩
  · rw [h1] at hok
    cases hok
  · rw [h1] at hinv' ⊢
    simp only
    set s1 : SearchServer α := { s with documents_texts_ := s.documents_texts_ ++ [document] }
      with hs1
    have hwords : SplitIntoWordsNoStop s1 document = SplitIntoWordsNoStop s document := rfl
    set words := SplitIntoWordsNoStop s document with hw
    set x : α := 1 / (words.length : α) with hx
    have hfresh : ∀ w, fwdFreq s1 document_id w = none := by
      intro w
      have hnot : document_id ∉ s.words_freqs_in_document.keys :=
        fun hk => (contains_eq_false_iff _ _).1 h3 (h.inv.fwd_docs _ hk)
      have hnone := (OrdMap.find?_eq_none_iff _ _).2 hnot
      simp [fwdFreq, OrdMap.find2?, hs1, hnone]
    have hfwd : ∀ w, fwdFreq (addedState s document_id document status ratings) document_id w =
        if w ∈ words then some ((words.count w : α) * x) else none := by
      intro w
      have := foldl_addWord_fwdFreq document_id x words s1 document_id w
      rw [hfresh] at this
      simp only [Option.getD_none, zero_add, true_and] at this
      exact this
    have hfind : ∀ w, (GetWordFrequencies (addedState s document_id document status ratings)
        document_id).find? w = if w ∈ words then some ((words.count w : α) * x) else none := by
      intro w
      rw [getWordFrequencies_find?, hfwd]
    have hsorted := getWordFrequencies_sorted hinv' document_id
    refine ⟨hsorted, ?_, ?_, ?_⟩
    · intro w
      rw [hfind, hx]
      by_cases hmem : w ∈ words
      · simp [hmem, div_eq_mul_inv]
      · simp [hmem]
    · intro hne
      rw [sum_values_of_counts _ words x hsorted.nodup hfind, hx]
      have hpos : (words.length : α) ≠ 0 := by
        have : words.length ≠ 0 := fun e => hne (List.length_eq_zero.1 e)
        exact_mod_cast this
      field_simp
    · intro hempty
      cases hm : GetWordFrequencies (addedState s document_id document status ratings)
          document_id with
      | nil => rfl
      | cons p rest =>
        have := hfind p.1
        rw [hm, hempty] at this
        simp [OrdMap.find?] at this

theorem C7_word_frequencies_after_add_witness :
    (GetWordFrequencies (AddDocument exampleServer 7 "big cat and big dog".toList
      .ACTUAL [4]).2 7).find? "big".toList = some (2 / 4 : ℚ) := by
  have h := (C7_word_frequencies_after_add exampleServer_reachable 7
    "big cat and big dog".toList .ACTUAL [4] (by decide!)).2.1 "big".toList
  rw [h]
  decide!

/-- C7, counterexample: the text of ten words `a`. In `double` arithmetic
`1.0 / 10` is the double `0.1000000000000000055...`, and ten additions of it
to 0 leave `0.99999999999999988...`, one unit in the last place below 1, as
the frequency of `a`, where the claim has `10 / 10`; the frequencies do not
add up to 1. In exact arithmetic the stored frequency is 1. -/
theorem C7_double_frequency_is_not_the_quotient :
    SplitIntoWordsNoStop (SearchServer.fresh ℚ []) "a a a a a a a a a a".toList =
      List.replicate 10 "a".toList ∧
    roundDouble (1 / roundDouble 10) = 3602879701896397 / 36028797018963968 ∧
    wordFrequenciesDouble (List.replicate 10 "a".toList) =
      [("a".toList, 9007199254740991 / 9007199254740992)] ∧
    (9007199254740991 / 9007199254740992 : ℚ) ≠ 10 / 10 ∧
    ((wordFrequenciesDouble (List.replicate 10 "a".toList)).map Prod.snd).sum ≠ 1 ∧
    GetWordFrequencies (AddDocument (SearchServer.fresh ℚ []) 0 "a a a a a a a a a a".toList
      .ACTUAL []).2 0 = [("a".toList, 1)] := by
  decide!

/-- C2: on a reachable server and for a parsed query, the sequential
`FindAllDocuments` returns normally, lists every id at most once (in
ascending order), lists an id iff
it has a document record that the predicate accepts, contains a plus word and
contains no minus word; the relevance of a listed id is the sum over the
distinct plus words it contains of `tf * ln (GetDocumentCount / df)`, its
rating is the stored rating, and it is in the id list. -/
theorem C2_find_all_is_tf_idf (ln : α → α) {s : SearchServer α} (h : Reachable s)
    (raw_query : Word) (query : Query) (hparse : ParseQuery s raw_query = .ok query)
    (pred : DocumentPredicate) :
    ∃ docs, FindAllDocuments ln s query pred = .ok docs ∧
      (docs.map (fun d => d.id)).Pairwise (fun a b => a < b) ∧
      (∀ id, (∃ d ∈ docs, d.id = id) ↔ referenceMatch s query pred id) ∧
      (∀ d ∈ docs, d.relevance = referenceRelevance ln s query d.id ∧
        (∃ document_data, s.documents_.find? d.id = some document_data ∧
          d.rating = document_data.rating) ∧
        d.id ∈ s.id_list_) := by
  have hinv := h.inv
  have hq : query.plus_words.Nodup := ParseQuery_plus_nodup hparse
  obtain ⟨m, h1, h2, h3⟩ := FindAllDocuments_spec ln hinv query pred
  have hids : (m.map (toDocument s)).map (fun d => d.id) = m.keys := by
    simp [OrdMap.keys, toDocument, List.map_map, Function.comp_def]
  have hmatch : ∀ id, id ∈ m.keys ↔ referenceMatch s query pred id := by
    intro id
    rw [← OrdMap.find?_isSome_iff, h3]
    unfold referenceMatch
    simp only [containsWord_eq hinv]
    have hacc : accepts s pred id = true ↔ ∃ document_data,
        s.documents_.find? id = some document_data ∧
          pred id document_data.status document_data.rating = true := by
      unfold accepts
      cases s.documents_.find? id <;> simp
    rw [← hacc]
    by_cases hm : ∃ w ∈ query.minus_words, (invFreq s w id).isSome = true
    · rw [if_pos hm]
      constructor
      · intro hx
        cases hx
      · rintro ⟨_, _, h6⟩
        obtain ⟨w, hw1, hw2⟩ := hm
        rw [h6 w hw1] at hw2
        cases hw2
    · rw [if_neg hm]
      have hm' : ∀ w ∈ query.minus_words, (invFreq s w id).isSome = false := by
        intro w hw
        cases hx : (invFreq s w id).isSome with
        | false => rfl
        | true => exact absurd ⟨w, hw, hx⟩ hm
      by_cases hp : accepts s pred id = true ∧
          ∃ w ∈ query.plus_words, (invFreq s w id).isSome = true
      · rw [if_pos hp]
        exact ⟨fun _ => ⟨hp.1, hp.2, hm'⟩, fun _ => rfl⟩
      · rw [if_neg hp]
        constructor
        · intro hx
          cases hx
        · rintro ⟨h4, h5, _⟩
          exact absurd ⟨h4, h5⟩ hp
  refine ⟨m.map (toDocument s), h1, ?_, ?_, ?_⟩
  · rw [hids]
    exact h2
  · intro id
    constructor
    · rintro ⟨d, hd, rfl⟩
      apply (hmatch _).1
      rw [← hids]
      exact List.mem_map_of_mem _ hd
    · intro hmt
      have hk := (hmatch id).2 hmt
      rw [← hids] at hk
      obtain ⟨d, hd, hdid⟩ := List.mem_map.1 hk
      exact ⟨d, hd, hdid⟩
  · intro d hd
    obtain ⟨p, hp, rfl⟩ := List.mem_map.1 hd
    obtain ⟨id, rel⟩ := p
    have hfind := OrdMap.find?_of_mem h2.nodup hp
    have hkey : id ∈ m.keys := (OrdMap.find?_isSome_iff _ _).1 (by rw [hfind]; rfl)
    obtain ⟨⟨data, hdata, _⟩, _, _⟩ := (hmatch id).1 hkey
    refine ⟨?_, ⟨data, ?_, ?_⟩, ?_⟩
    · rw [h3] at hfind
      by_cases hm : ∃ w ∈ query.minus_words, (invFreq s w id).isSome = true
      · rw [if_pos hm] at hfind
        cases hfind
      · rw [if_neg hm] at hfind
        by_cases hpl : accepts s pred id = true ∧
            ∃ w ∈ query.plus_words, (invFreq s w id).isSome = true
        · rw [if_pos hpl, Option.some.injEq] at hfind
          simp only [toDocument, referenceRelevance, hq.dedup]
          rw [← hfind]
          have hfilter : query.plus_words.filter (fun w => containsWord s id w) =
              query.plus_words.filter (fun w => (invFreq s w id).isSome) := by
            apply List.filter_congr
            intro w _
            exact containsWord_eq hinv id w
          rw [hfilter]
          congr 1
          apply List.map_congr_left
          intro w hw
          have hsome := (List.mem_filter.1 hw).2
          rw [termFreq_eq hinv, codeIdf_eq ln hinv hsome]
        · rw [if_neg hpl] at hfind
          cases hfind
    · exact hdata
    · simp [toDocument, hdata]
    · apply hinv.docs_ids
      rw [← OrdMap.find?_isSome_iff]
      simp [toDocument, hdata]

theorem C2_find_all_is_tf_idf_witness :
    ∃ docs, FindAllDocuments (fun x : ℚ => x - 1) exampleServer
        ⟨["cat".toList, "fluffy".toList], ["long".toList]⟩ (fun _ _ _ => true) = .ok docs ∧
      (docs.map (fun d => d.id)).Pairwise (fun a b => a < b) ∧
      (∀ id, (∃ d ∈ docs, d.id = id) ↔
        referenceMatch exampleServer ⟨["cat".toList, "fluffy".toList], ["long".toList]⟩
          (fun _ _ _ => true) id) ∧
      (∀ d ∈ docs, d.relevance = referenceRelevance (fun x : ℚ => x - 1) exampleServer
          ⟨["cat".toList, "fluffy".toList], ["long".toList]⟩ d.id ∧
        (∃ document_data, exampleServer.documents_.find? d.id = some document_data ∧
          d.rating = document_data.rating) ∧
        d.id ∈ exampleServer.id_list_) :=
  C2_find_all_is_tf_idf (fun x : ℚ => x - 1) exampleServer_reachable
    "fluffy cat -long fluffy".toList ⟨["cat".toList, "fluffy".toList], ["long".toList]⟩
    (by decide!) (fun _ _ _ => true)

/-- C3: on a reachable server and for a well-formed query, `FindTopDocuments`
returns normally and no returned document contains a minus word of the query,
whether or not it contains plus words. -/
theorem C3_minus_word_excludes (ln : α → α) {s : SearchServer α} (h : Reachable s)
    (raw_query : Word) (query : Query) (hq : ParseQuery s raw_query = .ok query)
    (pred : DocumentPredicate) :
    ∃ res, FindTopDocuments ln s raw_query pred = .ok res ∧
      ∀ d ∈ res, ∀ w ∈ query.minus_words, containsWord s d.id w = false := by
  have hinv := h.inv
  obtain ⟨m, h1, h2, h3⟩ := FindAllDocuments_spec ln hinv query pred
  refine ⟨_, FindTopDocuments_of_parse ln s hq pred h1, ?_⟩
  intro d hd w hw
  have hd' := mem_of_mem_sortAndTruncate hd
  obtain ⟨p, hp, rfl⟩ := List.mem_map.1 hd'
  have hfind := OrdMap.find?_of_mem h2.nodup hp
  rw [h3] at hfind
  by_cases hm : ∃ w ∈ query.minus_words, (invFreq s w p.1).isSome = true
  · rw [if_pos hm] at hfind
    cases hfind
  · rw [containsWord_eq hinv]
    simp only [toDocument]
    cases hx : (invFreq s w p.1).isSome with
    | false => rfl
    | true => exact absurd ⟨w, hw, hx⟩ hm

theorem C3_minus_word_excludes_witness :
    ParseQuery exampleServer "cat -long".toList = .ok ⟨["cat".toList], ["long".toList]⟩ ∧
    containsWord exampleServer 1 "cat".toList = true ∧
    containsWord exampleServer 1 "long".toList = true ∧
    FindTopDocuments (fun x : ℚ => x - 1) exampleServer "cat -long".toList
      (fun _ _ _ => true) = .ok [⟨2, 0, 5⟩] ∧
    ∃ res, FindTopDocuments (fun x : ℚ => x - 1) exampleServer "cat -long".toList
        (fun _ _ _ => true) = .ok res ∧
      ∀ d ∈ res, ∀ w ∈ ["long".toList], containsWord exampleServer d.id w = false :=
  ⟨by decide!, by decide!, by decide!, by decide!,
    C3_minus_word_excludes (fun x : ℚ => x - 1) exampleServer_reachable "cat -long".toList
      ⟨["cat".toList], ["long".toList]⟩ (by decide!) (fun _ _ _ => true)⟩

/-- C5: on a reachable server and for a well-formed query, `FindTopDocuments`
returns normally a list of at most 5 documents: its length is the minimum of
5 and the number of documents that `FindAllDocuments` matched, and it is the
prefix of that length of the sorted match list, which is a rearrangement of
the match list. -/
theorem C5_at_most_five_results (ln : α → α) {s : SearchServer α} (h : Reachable s)
    (raw_query : Word) (query : Query) (hq : ParseQuery s raw_query = .ok query)
    (pred : DocumentPredicate) :
    ∃ matched res, FindAllDocuments ln s query pred = .ok matched ∧
      FindTopDocuments ln s raw_query pred = .ok res ∧
      res.length = min 5 matched.length ∧
      res.length ≤ 5 ∧
      res = (sortDocuments matched).take res.length ∧
      (sortDocuments matched).Perm matched := by
  obtain ⟨m, h1, _, _⟩ := FindAllDocuments_spec ln h.inv query pred
  refine ⟨_, _, h1, FindTopDocuments_of_parse ln s hq pred h1, ?_, ?_, ?_,
    sortDocuments_perm _⟩
  · exact sortAndTruncate_length _
  · rw [sortAndTruncate_length]
    exact min_le_left _ _
  · rw [sortAndTruncate_length, sortAndTruncate_eq_take, ← sortDocuments_length]
    by_cases hle : (sortDocuments (m.map (toDocument s))).length ≤ MAX_RESULT_DOCUMENT_COUNT
    · rw [min_eq_right hle, List.take_of_length_le hle, List.take_of_length_le (le_refl _)]
    · rw [min_eq_left (le_of_lt (not_le.1 hle))]

theorem sixDocServer_reachable : Reachable sixDocServer :=
  Reachable.add _ _ _ _ (Reachable.add _ _ _ _ (Reachable.add _ _ _ _
    (Reachable.add _ _ _ _ (Reachable.add _ _ _ _ (Reachable.add _ _ _ _
      (Reachable.init _))))))

theorem C5_at_most_five_results_witness :
    FindTopDocuments (fun x : ℚ => x - 1) sixDocServer "cat".toList (fun _ _ _ => true) =
      .ok [⟨6, 0, 6⟩, ⟨5, 0, 5⟩, ⟨4, 0, 4⟩, ⟨3, 0, 3⟩, ⟨2, 0, 2⟩] ∧
    ∃ matched res, FindAllDocuments (fun x : ℚ => x - 1) sixDocServer ⟨["cat".toList], []⟩
        (fun _ _ _ => true) = .ok matched ∧
      FindTopDocuments (fun x : ℚ => x - 1) sixDocServer "cat".toList (fun _ _ _ => true) =
        .ok res ∧
      res.length = min 5 matched.length ∧
      res.length ≤ 5 ∧
      res = (sortDocuments matched).take res.length ∧
      (sortDocuments matched).Perm matched :=
  ⟨by decide!, C5_at_most_five_results (fun x : ℚ => x - 1) sixDocServer_reachable "cat".toList
    ⟨["cat".toList], []⟩ (by decide!) (fun _ _ _ => true)⟩

/-- C6, the code at the failing input: on the two-document example server the
query `cat -long -white` has two minus words, both in document 1, so two
workers of the parallel minus phase call the unlocked `Erase` on bucket 1:
the behaviour of the parallel overload is undefined, whatever the
interleavings, while the sequential overload returns document 2. With the one
minus word `long` there is no race and the two overloads return the same. -/
theorem C6_minus_phase_erase_races :
    ParseQuery exampleServer "cat -long -white".toList =
      .ok ⟨["cat".toList], ["long".toList, "white".toList]⟩ ∧
    eraseBuckets exampleServer "long".toList = [1] ∧
    eraseBuckets exampleServer "white".toList = [1] ∧
    FindTopDocuments (fun x : ℚ => x - 1) exampleServer "cat -long -white".toList
      (fun _ _ _ => true) = .ok [⟨2, 0, 5⟩] ∧
    (∀ (sched_plus : List (Int × ℚ) → List (Int × ℚ)) (sched_minus : List Int → List Int),
      FindTopDocumentsPar sched_plus sched_minus (fun x : ℚ => x - 1) exampleServer
        "cat -long -white".toList (fun _ _ _ => true) = .error .undefined) ∧
    FindTopDocuments (fun x : ℚ => x - 1) exampleServer "cat -long".toList
      (fun _ _ _ => true) = .ok [⟨2, 0, 5⟩] ∧
    FindTopDocumentsPar (fun l => l) (fun l => l) (fun x : ℚ => x - 1) exampleServer
      "cat -long".toList (fun _ _ _ => true) = .ok [⟨2, 0, 5⟩] := by
  have hparse : ParseQuery exampleServer "cat -long -white".toList =
      .ok ⟨["cat".toList], ["long".toList, "white".toList]⟩ := by decide!
  have hops : plusOps (fun x : ℚ => x - 1) exampleServer (fun _ _ _ => true) ["cat".toList] =
      .ok [(1, 0), (2, 0)] := by decide!
  have hrace : eraseRace exampleServer ["long".toList, "white".toList] = true := by decide!
  refine ⟨hparse, by decide!, by decide!, by decide!, ?_, by decide!, by decide!⟩
  intro sched_plus sched_minus
  simp only [FindTopDocumentsPar, hparse, FindAllDocumentsPar, hops, hrace, if_true]

/-- C4, amended: when near-equality of the relevances (a difference below
`DELTA`) is transitive among the matched documents of a well-formed query,
the list that `FindTopDocuments` returns is in the claimed order: of two
results the earlier has a rating at least that of the later when their
relevances differ by less than `DELTA`, and a greater relevance otherwise. -/
theorem C4_sorted_when_ties_transitive (ln : α → α) (s : SearchServer α) (raw_query : Word)
    (query : Query) (hq : ParseQuery s raw_query = .ok query) (pred : DocumentPredicate)
    (matched : List (Document α)) (hm : FindAllDocuments ln s query pred = .ok matched)
    (htie : ∀ x ∈ matched, ∀ y ∈ matched, ∀ z ∈ matched,
      nearTie x y → nearTie y z → nearTie x z) :
    ∃ res, FindTopDocuments ln s raw_query pred = .ok res ∧ res.Pairwise claimedOrder := by
  refine ⟨_, FindTopDocuments_of_parse ln s hq pred hm, ?_⟩
  rw [sortAndTruncate_eq_take]
  exact (sortDocuments_pairwise matched htie).sublist (List.take_sublist _ _)

/-- C4, as stated, fails: on the reachable server `cycleServer` over the reals
with the natural logarithm, the query `w` matches three documents whose
relevances `ln (4 / 3) / 600`, `ln (4 / 3) / 601`, `ln (4 / 3) / 602` are
pairwise within `DELTA` except the first and the last, with ratings 1, 2, 3;
no arrangement of them is in the claimed order, so the returned list is not. -/
theorem C4_sorted_counterexample :
    Reachable (cycleServer ℝ) ∧
    ∃ res, FindTopDocuments Real.log (cycleServer ℝ) ['w'] (fun _ _ _ => true) = .ok res ∧
      res.Perm [⟨1, 1 / 600 * Real.log (4 / 3), 1⟩, ⟨2, 1 / 601 * Real.log (4 / 3), 2⟩,
        ⟨3, 1 / 602 * Real.log (4 / 3), 3⟩] ∧
      ¬ res.Pairwise claimedOrder := by
  obtain ⟨hinv, hstop, hdocs, hfreq⟩ := @cycleServer_facts ℝ _
  have hparse := parse_single_word hstop
  have hall := findAll_of_facts Real.log hinv hdocs hfreq
  have htop := FindTopDocuments_of_parse Real.log (cycleServer ℝ) hparse (fun _ _ _ => true) hall
  obtain ⟨hlo, hhi⟩ := log_four_thirds_bounds
  have hperm : (sortAndTruncate ([⟨1, 1 / 600 * Real.log (4 / 3), 1⟩,
      ⟨2, 1 / 601 * Real.log (4 / 3), 2⟩,
      ⟨3, 1 / 602 * Real.log (4 / 3), 3⟩] : List (Document ℝ))).Perm
      [⟨1, 1 / 600 * Real.log (4 / 3), 1⟩, ⟨2, 1 / 601 * Real.log (4 / 3), 2⟩,
        ⟨3, 1 / 602 * Real.log (4 / 3), 3⟩] := by
    rw [sortAndTruncate_eq_take, List.take_of_length_le]
    · exact sortDocuments_perm _
    · rw [sortDocuments_length]
      decide
  refine ⟨cycleServer_reachable, _, htop, hperm, ?_⟩
  apply not_pairwise_of_cycle claimedOrder _ _ _ _ _ _ _ _ _ _ hperm
  · intro h
    have := congrArg Document.id h
    norm_num at this
  · intro h
    have := congrArg Document.id h
    norm_num at this
  · intro h
    have := congrArg Document.id h
    norm_num at this
  · intro h
    have htie : nearTie (⟨1, 1 / 600 * Real.log (4 / 3), 1⟩ : Document ℝ)
        ⟨2, 1 / 601 * Real.log (4 / 3), 2⟩ := by
      unfold nearTie DELTA
      rw [abs_lt]
      constructor <;> norm_num <;> linarith
    have := h.1 htie
    norm_num at this
  · intro h
    have htie : nearTie (⟨2, 1 / 601 * Real.log (4 / 3), 2⟩ : Document ℝ)
        ⟨3, 1 / 602 * Real.log (4 / 3), 3⟩ := by
      unfold nearTie DELTA
      rw [abs_lt]
      constructor <;> norm_num <;> linarith
    have := h.1 htie
    norm_num at this
  · intro h
    have hnot : ¬ nearTie (⟨3, 1 / 602 * Real.log (4 / 3), 3⟩ : Document ℝ)
        ⟨1, 1 / 600 * Real.log (4 / 3), 1⟩ := by
      unfold nearTie DELTA
      rw [not_lt, abs_sub_comm, abs_of_nonneg] <;> norm_num <;> linarith
    have := h.2 hnot
    norm_num at this
    linarith

theorem C4_sorted_when_ties_transitive_witness :
    ∃ res, FindTopDocuments (fun x : ℚ => x - 1) exampleServer "fluffy cat".toList
        (fun _ _ _ => true) = .ok res ∧ res.Pairwise claimedOrder :=
  C4_sorted_when_ties_transitive (fun x : ℚ => x - 1) exampleServer "fluffy cat".toList
    ⟨["cat".toList, "fluffy".toList], []⟩ (by decide!) (fun _ _ _ => true)
    [⟨1, 0, 5⟩, ⟨2, 1 / 2, 5⟩] (by decide!)
    (by
      intro x hx y hy z hz
      simp only [List.mem_cons, List.mem_singleton, List.not_mem_nil, or_false] at hx hy hz
      rcases hx with rfl | rfl <;> rcases hy with rfl | rfl <;> rcases hz with rfl | rfl <;>
        simp [nearTie, DELTA] <;> norm_num)

/-- C8: `AddDocument` raises `invalid_argument` exactly when the id is
negative, or the id has a document record, or the text has a byte in
`0x00..0x1F`; in every other case it returns normally and the id is then in
the document records and in the id list. -/
theorem C8_add_fails_exactly_on_bad_input (s : SearchServer α) (document_id : Int)
    (document : Word) (status : DocumentStatus) (ratings : List Int) :
    ((AddDocument s document_id document status ratings).1 = .error .invalid_argument ↔
      (document_id < 0 ∨ document_id ∈ s.documents_.keys ∨ ∃ c ∈ document, c.toNat < 32)) ∧
    (¬ (document_id < 0 ∨ document_id ∈ s.documents_.keys ∨ ∃ c ∈ document, c.toNat < 32) →
      (AddDocument s document_id document status ratings).1 = .ok () ∧
      document_id ∈ (AddDocument s document_id document status ratings).2.documents_.keys ∧
      document_id ∈ (AddDocument s document_id document status ratings).2.id_list_) := by
  have hvalid : IsValidWord document = true ↔ ¬ ∃ c ∈ document, c.toNat < 32 := by
    simp [IsValidWord]
  have hcont : s.documents_.contains document_id = false ↔ document_id ∉ s.documents_.keys :=
    contains_eq_false_iff _ _
  rcases AddDocument_cases s document_id document status ratings with h1 | ⟨h1, h2, h3, h4⟩
  · have hbad : document_id < 0 ∨ document_id ∈ s.documents_.keys ∨
        ∃ c ∈ document, c.toNat < 32 := by
      by_contra hcon
      push_neg at hcon
      have hok := @AddDocument_ok α _ s document_id document status ratings hcon.1
        (hvalid.2 (by push_neg; exact hcon.2.2)) (hcont.2 hcon.2.1)
      rw [hok] at h1
      cases h1
    constructor
    · rw [h1]
      exact ⟨fun _ => hbad, fun _ => rfl⟩
    · intro hn
      exact absurd hbad hn
  · have hgood : ¬ (document_id < 0 ∨ document_id ∈ s.documents_.keys ∨
        ∃ c ∈ document, c.toNat < 32) := by
      rintro (h | h | h)
      · exact absurd h (not_lt.2 h1)
      · exact hcont.1 h3 h
      · exact hvalid.1 h2 h
    rw [h4]
    constructor
    · constructor
      · intro h
        cases h
      · intro h
        exact absurd h hgood
    · intro _
      refine ⟨rfl, ?_, ?_⟩
      · simp only [addedState]
        rw [OrdMap.mem_keys_update]
        exact Or.inl rfl
      · simp only [addedState]
        rw [OrdSet.mem_insert]
        exact Or.inl rfl

/-- C9: a call of `AddDocument` that raises an error leaves the server exactly
as it was: both indices, the document records, the id list and the stored
texts; so the word frequencies of every id, the iterated ids and the document
count are as before. -/
theorem C9_failed_add_is_atomic (s : SearchServer α) (document_id : Int) (document : Word)
    (status : DocumentStatus) (ratings : List Int) (e : Error)
    (h : (AddDocument s document_id document status ratings).1 = .error e) :
    (AddDocument s document_id document status ratings).2 = s ∧
    (∀ id', GetWordFrequencies (AddDocument s document_id document status ratings).2 id' =
      GetWordFrequencies s id') ∧
    (AddDocument s document_id document status ratings).2.id_list_ = s.id_list_ ∧
    GetDocumentCount (AddDocument s document_id document status ratings).2 =
      GetDocumentCount s := by
  rcases AddDocument_cases s document_id document status ratings with h1 | ⟨_, _, _, h1⟩
  · rw [h1]
    exact ⟨rfl, fun _ => rfl, rfl, rfl⟩
  · rw [h1] at h
    cases h

theorem C9_failed_add_is_atomic_witness :
    (AddDocument exampleServer 2 "black dog".toList .ACTUAL [1]).1 = .error .invalid_argument ∧
    (AddDocument exampleServer 2 "black dog".toList .ACTUAL [1]).2 = exampleServer :=
  ⟨by decide!, (C9_failed_add_is_atomic exampleServer 2 "black dog".toList .ACTUAL [1]
    .invalid_argument (by decide!)).1⟩

/-- C10, the code at the failing input: document 0 with the empty text is
added, so it is live; the sequential `RemoveDocument(0)` then throws
`out_of_range` after erasing the document record, and id 0 stays in the id
list, while the parallel overload removes it. -/
theorem C10_remove_of_wordless_document_throws :
    (AddDocument (SearchServer.fresh ℚ []) 0 [] .ACTUAL []).1 = .ok () ∧
    emptyDocServer.id_list_ = [0] ∧
    emptyDocServer.documents_.keys = [0] ∧
    (RemoveDocument emptyDocServer 0).1 = .error .out_of_range ∧
    (RemoveDocument emptyDocServer 0).2.id_list_ = [0] ∧
    (RemoveDocument emptyDocServer 0).2.documents_ = [] ∧
    (RemoveDocumentPar (fun l => l) emptyDocServer 0).1 = .ok () ∧
    (RemoveDocumentPar (fun l => l) emptyDocServer 0).2.id_list_ = [] := by
  decide!

/-- C18: `SplitIntoWords(text)` is the list, in order of occurrence, of the
maximal substrings of the text without a space (the non-empty pieces between
the spaces); every word it returns is non-empty and without a space; the
result is empty for the empty text and for a text of spaces only; a tab or a
newline does not separate words. -/
theorem C18_split_into_words (text : Word) :
    SplitIntoWords text = referenceWords text ∧
    (∀ w ∈ SplitIntoWords text, w ≠ [] ∧ ' ' ∉ w) ∧
    SplitIntoWords [] = [] ∧
    (∀ n, SplitIntoWords (List.replicate n ' ') = []) ∧
    SplitIntoWords "  a\tb\nc   d ".toList = ["a\tb\nc".toList, "d".toList] := by
  refine ⟨SplitIntoWords_eq text, fun w hw => SplitIntoWords_word hw, by decide, ?_, by decide⟩
  intro n
  rw [SplitIntoWords_eq, referenceWords_spaces]

/-- C14: `ParseQuery` (both overloads), and hence `FindTopDocuments` and
`MatchDocument`, raise the invalid-argument error exactly when the query text
has a byte in `0x00..0x1F`, or a token that is exactly `-`, or a token that
starts with `--`; the parser raises no other error. The stop words play no
part: the token `--and` is rejected although `and` is a stop word. -/
theorem C14_query_rejected_iff_malformed (s : SearchServer α) (text : Word) :
    (malformedQuery text ↔
      (∃ c ∈ text, c.toNat < 32) ∨
      ∃ token ∈ SplitIntoWords text, token = ['-'] ∨ ∃ rest, token = '-' :: '-' :: rest) ∧
    (ParseQuery s text = .error .invalid_argument ↔ malformedQuery text) ∧
    (ParseQueryPar s text = .error .invalid_argument ↔ malformedQuery text) ∧
    (∀ e, ParseQuery s text = .error e → e = .invalid_argument) ∧
    (∀ (ln : α → α) (pred : DocumentPredicate),
      FindTopDocuments ln s text pred = .error .invalid_argument ↔ malformedQuery text) ∧
    (∀ document_id : Int,
      MatchDocument s text document_id = .error .invalid_argument ↔ malformedQuery text) ∧
    (∀ document_id : Int,
      MatchDocumentPar s text document_id = .error .invalid_argument ↔ malformedQuery text) ∧
    IsStopWord exampleServer "and".toList = true ∧
    ParseQuery exampleServer "cat --and".toList = .error .invalid_argument ∧
    ParseQuery exampleServer "cat -".toList = .error .invalid_argument ∧
    ParseQuery exampleServer "cat\tdog".toList = .error .invalid_argument := by
  refine ⟨Iff.rfl, ParseQuery_error_iff s text, ParseQueryPar_error_iff s text, ?_,
    fun ln pred => FindTopDocuments_error_iff ln s text pred,
    fun document_id => MatchDocument_error_iff s text document_id,
    fun document_id => MatchDocumentPar_error_iff s text document_id,
    by decide!, by decide!, by decide!, by decide!⟩
  intro e he
  rcases ParseQuery_spec s text with ⟨_, h⟩ | ⟨_, q, hq, _⟩
  · rw [h] at he; cases he; rfl
  · rw [hq] at he; cases he

/-- C15: for a well-formed query text `ParseQuery` returns normally; the plus
words are the strictly ascending list of the tokens that do not start with `-`
and are not stop words, and the minus words are the strictly ascending list of
the remainders, not stop words, of the tokens that start with `-`. -/
theorem C15_parsed_query_words (s : SearchServer α) (text : Word)
    (h : ¬ malformedQuery text) :
    ∃ query, ParseQuery s text = .ok query ∧
      query.plus_words.Pairwise (fun a b => a < b) ∧
      query.minus_words.Pairwise (fun a b => a < b) ∧
      (∀ w, w ∈ query.plus_words ↔
        w ∈ SplitIntoWords text ∧ w.head? ≠ some '-' ∧ IsStopWord s w = false) ∧
      (∀ w, w ∈ query.minus_words ↔
        ('-' :: w) ∈ SplitIntoWords text ∧ IsStopWord s w = false) ∧
      (∀ w, w ∈ query.plus_words ∨ w ∈ query.minus_words → IsStopWord s w = false) := by
  rcases ParseQuery_spec s text with ⟨hb, _⟩ | ⟨_, q, hq, h1, h2, h3, h4⟩
  · exact absurd hb h
  · refine ⟨q, hq, h1, h2, h3, h4, ?_⟩
    rintro w (hw | hw)
    · exact ((h3 w).1 hw).2.2
    · exact ((h4 w).1 hw).2

theorem C15_parsed_query_words_witness :
    ∃ query, ParseQuery exampleServer "fluffy -long cat and -and fluffy".toList = .ok query ∧
      query.plus_words.Pairwise (fun a b => a < b) ∧
      query.minus_words.Pairwise (fun a b => a < b) ∧
      (∀ w, w ∈ query.plus_words ↔
        w ∈ SplitIntoWords "fluffy -long cat and -and fluffy".toList ∧ w.head? ≠ some '-' ∧
          IsStopWord exampleServer w = false) ∧
      (∀ w, w ∈ query.minus_words ↔
        ('-' :: w) ∈ SplitIntoWords "fluffy -long cat and -and fluffy".toList ∧
          IsStopWord exampleServer w = false) ∧
      (∀ w, w ∈ query.plus_words ∨ w ∈ query.minus_words →
        IsStopWord exampleServer w = false) :=
  C15_parsed_query_words exampleServer "fluffy -long cat and -and fluffy".toList
    (fun hm => absurd ((ParseQuery_error_iff exampleServer _).2 hm) (by decide!))

/-- C16: on a reachable server, for a document that has a record and a
well-formed query, the sequential `MatchDocument` returns the stored status of
the document together with the empty list when the document contains a minus
word of the query, and otherwise with the strictly ascending list of exactly
the plus words of the query that the document contains. -/
theorem C16_match_document {s : SearchServer α} (h : Reachable s) (raw_query : Word)
    (hq : ¬ malformedQuery raw_query) (document_id : Int) (document_data : DocumentData)
    (hdoc : s.documents_.find? document_id = some document_data) :
    document_id ∈ s.id_list_ ∧
    ∃ query matched_words, ParseQuery s raw_query = .ok query ∧
      MatchDocument s raw_query document_id = .ok (matched_words, document_data.status) ∧
      ((∃ w ∈ query.minus_words, containsWord s document_id w = true) → matched_words = []) ∧
      ((∀ w ∈ query.minus_words, containsWord s document_id w = false) →
        matched_words.Pairwise (fun a b => a < b) ∧
        ∀ w, w ∈ matched_words ↔ w ∈ query.plus_words ∧ containsWord s document_id w = true) := by
  have hinv := h.inv
  refine ⟨hinv.docs_ids _ ((OrdMap.find?_isSome_iff _ _).1 (by rw [hdoc]; rfl)), ?_⟩
  rcases ParseQuery_spec s raw_query with ⟨hb, _⟩ | ⟨_, q, hp, hs1, _, _, _⟩
  · exact absurd hb hq
  · refine ⟨q, _, hp, MatchDocument_spec hinv hp hdoc, ?_, ?_⟩
    · rintro ⟨w, hw, hc⟩
      have hany : q.minus_words.any (fun w => containsWord s document_id w) = true :=
        List.any_eq_true.2 ⟨w, hw, hc⟩
      simp [hany]
    · intro hnone
      have hany : q.minus_words.any (fun w => containsWord s document_id w) = false := by
        rw [Bool.eq_false_iff]
        intro ht
        obtain ⟨w, hw, hc⟩ := List.any_eq_true.1 ht
        rw [hnone w hw] at hc
        cases hc
      simp only [hany, Bool.false_eq_true, if_false]
      refine ⟨hs1.sublist (List.filter_sublist _), ?_⟩
      intro w
      simp [List.mem_filter]

theorem C16_match_document_witness :
    (2 : Int) ∈ exampleServer.id_list_ ∧
    ∃ query matched_words, ParseQuery exampleServer "tail fluffy dog -long cat".toList = .ok query ∧
      MatchDocument exampleServer "tail fluffy dog -long cat".toList 2 =
        .ok (matched_words, DocumentStatus.ACTUAL) ∧
      ((∃ w ∈ query.minus_words, containsWord exampleServer 2 w = true) → matched_words = []) ∧
      ((∀ w ∈ query.minus_words, containsWord exampleServer 2 w = false) →
        matched_words.Pairwise (fun a b => a < b) ∧
        ∀ w, w ∈ matched_words ↔ w ∈ query.plus_words ∧ containsWord exampleServer 2 w = true) :=
  C16_match_document exampleServer_reachable "tail fluffy dog -long cat".toList
    (fun hm => absurd ((ParseQuery_error_iff exampleServer _).2 hm) (by decide!))
    2 { rating := 5, status := .ACTUAL } (by decide!)

/-- C17, the code at the failing input: on the two-document server of the
worked example the word `dog` is in no document; the sequential
`MatchDocument` of document 1 skips it, as a plus word and as a minus word,
while the parallel overload looks it up with `at`, whose exception inside a
parallel algorithm terminates the program. -/
theorem C17_parallel_match_terminates_on_unknown_word :
    (1 : Int) ∈ exampleServer.id_list_ ∧
    ParseQuery exampleServer "dog".toList = .ok ⟨["dog".toList], []⟩ ∧
    MatchDocument exampleServer "dog".toList 1 = .ok ([], .ACTUAL) ∧
    MatchDocumentPar exampleServer "dog".toList 1 = .error .terminate ∧
    MatchDocument exampleServer "cat -dog".toList 1 = .ok (["cat".toList], .ACTUAL) ∧
    MatchDocumentPar exampleServer "cat -dog".toList 1 = .error .terminate ∧
    MatchDocument exampleServer "cat tail cat".toList 1 =
      .ok (["cat".toList, "tail".toList], .ACTUAL) ∧
    MatchDocumentPar exampleServer "cat tail cat".toList 1 =
      .ok (["cat".toList, "tail".toList], .ACTUAL) := by
  decide!

/-- C11, counterexample: id 5 is not live on the two-document example server,
and the parallel `RemoveDocument` of id 5 returns normally. -/
theorem C11_parallel_remove_of_unknown_id_returns :
    (5 : Int) ∉ exampleServer.id_list_ ∧
    (RemoveDocumentPar (fun l => l) exampleServer 5).1 = .ok () := by
  decide!

/-- C11, amended: on a reachable server, for an id that is not live, the
sequential `RemoveDocument` fails with the not-found error `out_of_range`,
the parallel `RemoveDocument` returns normally, and both leave the server
unchanged. -/
theorem C11_remove_of_unknown_id {s : SearchServer α} (h : Reachable s) (document_id : Int)
    (hid : document_id ∉ s.id_list_) :
    RemoveDocument s document_id = (.error .out_of_range, s) ∧
    ∀ sched : List Word → List Word, RemoveDocumentPar sched s document_id = (.ok (), s) :=
  ⟨RemoveDocument_of_not_live h.inv hid,
    fun sched => RemoveDocumentPar_of_not_live sched h.inv hid⟩

theorem C11_remove_of_unknown_id_witness :
    RemoveDocument exampleServer 5 = (.error .out_of_range, exampleServer) ∧
    ∀ sched : List Word → List Word,
      RemoveDocumentPar sched exampleServer 5 = (.ok (), exampleServer) :=
  C11_remove_of_unknown_id exampleServer_reachable 5 (by decide!)

/-- C12, counterexample: on the two-document example server the sequential
`RemoveDocument` of the unknown id 5 fails while the parallel one returns
normally. -/
theorem C12_remove_outcomes_differ :
    (RemoveDocument exampleServer 5).1 = .error .out_of_range ∧
    (RemoveDocumentPar (fun l => l) exampleServer 5).1 = .ok () ∧
    (RemoveDocument exampleServer 5).1 ≠ (RemoveDocumentPar (fun l => l) exampleServer 5).1 := by
  decide!

/-- C12, amended: on a reachable server, for an id that has an entry in the
forward index, the sequential and the parallel `RemoveDocument` both return
normally and leave the same server state, whatever the order in which the
parallel one visits the words; for an id that is not live the two leave the
same state as well. -/
theorem C12_remove_parallel_equals_sequential {s : SearchServer α} (h : Reachable s)
    (sched : List Word → List Word) (hsched : ∀ l, (sched l).Perm l) (document_id : Int)
    (hid : s.words_freqs_in_document.contains document_id = true ∨
      document_id ∉ s.id_list_) :
    (RemoveDocumentPar sched s document_id).2 = (RemoveDocument s document_id).2 ∧
    (s.words_freqs_in_document.contains document_id = true →
      (RemoveDocument s document_id).1 = .ok () ∧
      (RemoveDocumentPar sched s document_id).1 = .ok () ∧
      document_id ∉ (RemoveDocument s document_id).2.id_list_ ∧
      document_id ∉ (RemoveDocument s document_id).2.documents_.keys ∧
      document_id ∉ (RemoveDocument s document_id).2.words_freqs_in_document.keys) := by
  have hinv := h.inv
  have hsome : s.words_freqs_in_document.contains document_id = true →
      ∃ words_freqs, s.words_freqs_in_document.find? document_id = some words_freqs := by
    intro hc
    unfold OrdMap.contains at hc
    exact Option.isSome_iff_exists.1 hc
  constructor
  · rcases hid with hc | hnl
    · obtain ⟨words_freqs, hfind⟩ := hsome hc
      rw [RemoveDocumentPar_some sched hsched hinv.index hfind,
        RemoveDocument_some hinv.index hfind]
      exact removedState_sched sched hsched hinv.index hfind
    · rw [RemoveDocumentPar_of_not_live sched hinv hnl, RemoveDocument_of_not_live hinv hnl]
  · intro hc
    obtain ⟨words_freqs, hfind⟩ := hsome hc
    rw [RemoveDocumentPar_some sched hsched hinv.index hfind,
      RemoveDocument_some hinv.index hfind]
    refine ⟨rfl, rfl, ?_, ?_, ?_⟩
    · show document_id ∉ s.id_list_.erase document_id
      rw [OrdSet.mem_erase]
      exact fun hm => hm.1 rfl
    · show document_id ∉ (s.documents_.erase document_id).keys
      rw [OrdMap.mem_keys_erase]
      exact fun hm => hm.1 rfl
    · show document_id ∉ (s.words_freqs_in_document.erase document_id).keys
      rw [OrdMap.mem_keys_erase]
      exact fun hm => hm.1 rfl

theorem C12_remove_parallel_equals_sequential_witness :
    (RemoveDocumentPar (fun l => l.reverse) exampleServer 1).2 = (RemoveDocument exampleServer 1).2 ∧
    (exampleServer.words_freqs_in_document.contains 1 = true →
      (RemoveDocument exampleServer 1).1 = .ok () ∧
      (RemoveDocumentPar (fun l => l.reverse) exampleServer 1).1 = .ok () ∧
      (1 : Int) ∉ (RemoveDocument exampleServer 1).2.id_list_ ∧
      (1 : Int) ∉ (RemoveDocument exampleServer 1).2.documents_.keys ∧
      (1 : Int) ∉ (RemoveDocument exampleServer 1).2.words_freqs_in_document.keys) :=
  C12_remove_parallel_equals_sequential exampleServer_reachable (fun l => l.reverse)
    (fun l => List.reverse_perm l) 1 (Or.inl (by decide!))

/-- C13, the code at the failing input: on the reachable server that holds
the single document 0 with the empty text, the sequential `RemoveDocument` of
id 0 fails with `out_of_range` after it has erased the document record, so
the call has mutated the server, id 0 is still in the id list, and the id list
no longer equals the key set of the document records. -/
theorem C13_failed_remove_leaves_partial_state :
    Reachable emptyDocServer ∧
    emptyDocServer.id_list_ = emptyDocServer.documents_.keys ∧
    (RemoveDocument emptyDocServer 0).1 = .error .out_of_range ∧
    (RemoveDocument emptyDocServer 0).2.documents_ ≠ emptyDocServer.documents_ ∧
    (0 : Int) ∈ (RemoveDocument emptyDocServer 0).2.id_list_ ∧
    (0 : Int) ∉ (RemoveDocument emptyDocServer 0).2.documents_.keys ∧
    (RemoveDocument emptyDocServer 0).2.id_list_ ≠
      (RemoveDocument emptyDocServer 0).2.documents_.keys :=
  ⟨emptyDocServer_reachable, by decide!, by decide!, by decide!, by decide!, by decide!,
    by decide!⟩

/-- C20: the worked example. On the server built with the stop word `and` by
adding document 1 `white cat long tail` (ACTUAL, ratings 7, 2, 7) and document
2 `fluffy cat fluffy tail` (ACTUAL, ratings 8, 3), both calls returning
normally, `FindTopDocuments` of the query `fluffy well-groomed cat` returns
document 2 with relevance `0.5 * ln 2` and rating 5 before document 1 with
relevance 0 and rating 5. -/
theorem C20_worked_example :
    (AddDocument (SearchServer.fresh ℝ ["and".toList]) 1 "white cat long tail".toList
      .ACTUAL [7, 2, 7]).1 = .ok () ∧
    (AddDocument (AddDocument (SearchServer.fresh ℝ ["and".toList]) 1
      "white cat long tail".toList .ACTUAL [7, 2, 7]).2 2 "fluffy cat fluffy tail".toList
      .ACTUAL [8, 3]).1 = .ok () ∧
    workedExample ℝ = (AddDocument (AddDocument (SearchServer.fresh ℝ ["and".toList]) 1
      "white cat long tail".toList .ACTUAL [7, 2, 7]).2 2 "fluffy cat fluffy tail".toList
      .ACTUAL [8, 3]).2 ∧
    FindTopDocumentsDefault Real.log (workedExample ℝ) "fluffy well-groomed cat".toList =
      .ok [⟨2, 1 / 2 * Real.log 2, 5⟩, ⟨1, 0, 5⟩] ∧
    (0 : ℝ) < 1 / 2 * Real.log 2 := by
  have hlog := Real.log_two_gt_d9
  refine ⟨rfl, rfl, rfl, workedExample_top Real.log Real.log_one ?_, by linarith⟩
  unfold DELTA
  linarith

/-- C23: the sharded accumulator behaves as one ordinary map. For every
positive bucket count and every sequence of statements `cm[key] += v` and
`cm.Erase(key)`, executed one at a time on a fresh accumulator, the number of
buckets stays, each stored key sits only in the bucket with the index
`(key as unsigned 64-bit) mod bucket_count`, and `BuildOrdinaryMap` equals
the single ordered map, with absent entries starting at 0, after the same
statements. -/
theorem C23_sharded_map_is_one_map (bucket_count : Nat) (hcount : 0 < bucket_count)
    (ops : List (MapOp α)) :
    (ops.foldl ConcurrentMap.run (ConcurrentMap.create α bucket_count)).buckets_.length =
      bucket_count ∧
    (∀ (i : Nat) (bucket : OrdMap Int α),
      (ops.foldl ConcurrentMap.run (ConcurrentMap.create α bucket_count)).buckets_[i]? =
        some bucket →
      ∀ key ∈ bucket.keys, i = (key % 18446744073709551616).toNat % bucket_count) ∧
    (ops.foldl ConcurrentMap.run (ConcurrentMap.create α bucket_count)).BuildOrdinaryMap =
      ops.foldl referenceRun [] := by
  obtain ⟨h1, h2, h3, h4⟩ := foldl_run_simulation ops (create_wf (α := α) bucket_count hcount)
    sortedKeys_nil (fun id => create_lookup bucket_count id)
  have hlen : (ops.foldl ConcurrentMap.run (ConcurrentMap.create α bucket_count)).buckets_.length =
      bucket_count := by
    rw [h2]
    simp [ConcurrentMap.create]
  refine ⟨hlen, ?_, ?_⟩
  · intro i bucket hb key hkey
    have := h1.home i bucket hb key hkey
    rw [hlen] at this
    exact this.symm
  · obtain ⟨g1, g2⟩ := BuildOrdinaryMap_spec h1
    exact OrdMap.ext_of_sorted g1 h3 (fun id => by rw [g2, h4])

theorem C23_sharded_map_is_one_map_witness :
    ([MapOp.add (-1) 2, .add 5 1, .add (-1) 3, .erase 5, .add 7 1, .erase 4].foldl
        ConcurrentMap.run (ConcurrentMap.create ℚ 3)).buckets_.length = 3 ∧
    (∀ (i : Nat) (bucket : OrdMap Int ℚ),
      ([MapOp.add (-1) 2, .add 5 1, .add (-1) 3, .erase 5, .add 7 1, .erase 4].foldl
        ConcurrentMap.run (ConcurrentMap.create ℚ 3)).buckets_[i]? = some bucket →
      ∀ key ∈ bucket.keys, i = (key % 18446744073709551616).toNat % 3) ∧
    ([MapOp.add (-1) 2, .add 5 1, .add (-1) 3, .erase 5, .add 7 1, .erase 4].foldl
        ConcurrentMap.run (ConcurrentMap.create ℚ 3)).BuildOrdinaryMap =
      [MapOp.add (-1) 2, .add 5 1, .add (-1) 3, .erase 5, .add 7 1, .erase 4].foldl
        referenceRun [] :=
  C23_sharded_map_is_one_map 3 (by decide)
    [MapOp.add (-1) 2, .add 5 1, .add (-1) 3, .erase 5, .add 7 1, .erase 4]

/-- C22, the code at the failing input: a sequence of `2 ^ 31 + 1` elements
and the page size 1 need `2 ^ 31 + 1` pages; after the page with the index
`INT_MAX` the increment of the `int` counter overflows, so the behaviour of
the pager is undefined. On seven elements with the page size 3 the pager
makes the pages `[0, 3)`, `[3, 6)` and `[6, 7)`. -/
theorem C22_paginator_counter_overflows :
    (List.replicate 2147483649 ()).length = 2147483649 ∧
    pageCount 2147483649 1 = 2147483649 ∧
    Paginate (List.replicate 2147483649 ()) 1 = .error .undefined ∧
    Paginate [10, 20, 30, 40, 50, 60, 70] 3 =
      .ok [{ begin_ := 0, end_ := 3 }, { begin_ := 3, end_ := 6 }, { begin_ := 6, end_ := 7 }] :=
  ⟨List.length_replicate _ _, (Paginate_replicate_undefined 2147483649 (by decide)).1,
    (Paginate_replicate_undefined 2147483649 (by decide)).2, by decide⟩

/-- C24, counterexample: `2 ^ 31` calls with the query `dog`, which matches
no document of the two-document example server. The clock, an `int`, wraps to
a negative value in the last call, the oldest request is not retired, and the
window holds 1441 requests, all counted as requests without result. -/
theorem C24_window_outgrows_day :
    FindTopDocuments (fun x : ℚ => x - 1) exampleServer "dog".toList (fun _ _ _ => true) =
      .ok [] ∧
    (addFindRequests (fun x : ℚ => x - 1) (RequestQueue.create ℚ)
      (List.replicate 2147483648
        (exampleServer, "dog".toList, fun _ _ _ => true))).requests_.length = 1441 ∧
    (addFindRequests (fun x : ℚ => x - 1) (RequestQueue.create ℚ)
      (List.replicate 2147483648
        (exampleServer, "dog".toList, fun _ _ _ => true))).GetNoResultRequests = 1441 := by
  have hres : FindTopDocuments (fun x : ℚ => x - 1) exampleServer "dog".toList
      (fun _ _ _ => true) = .ok [] := by decide!
  have hq : ¬ malformedQuery "dog".toList :=
    fun hm => absurd ((ParseQuery_error_iff exampleServer _).2 hm) (by decide!)
  exact ⟨hres, addFindRequests_wrapped (fun x : ℚ => x - 1)
    (exampleServer, "dog".toList, fun _ _ _ => true) 2147483647 rfl
    exampleServer_reachable.inv hq hres⟩

/-- C24, amended: for calls of `AddFindRequest` with well-formed queries on
reachable server states, fewer than `2 ^ 31` of them, every call returns the
result of `FindTopDocuments`, the window holds the results of exactly the
most recent `min(n, 1440)` calls, in order, and `GetNoResultRequests` is the
number of empty results among them, hence between 0 and 1440. -/
theorem C24_request_window (ln : α → α) (calls : List (FindRequest α))
    (hcalls : ∀ call ∈ calls, Reachable call.1 ∧ ¬ malformedQuery call.2.1)
    (hcount : calls.length < 2147483648) :
    (∀ call ∈ calls, ∀ q : RequestQueue α,
      (q.AddFindRequest ln call.1 call.2.1 call.2.2).1 =
        FindTopDocuments ln call.1 call.2.1 call.2.2 ∧
      FindTopDocuments ln call.1 call.2.1 call.2.2 = .ok (requestResult ln call)) ∧
    (addFindRequests ln (RequestQueue.create α) calls).requests_.length =
      min calls.length 1440 ∧
    (addFindRequests ln (RequestQueue.create α) calls).requests_.map
      (fun x => x.matched_documents) =
      (calls.map (requestResult ln)).drop (calls.length - min calls.length 1440) ∧
    (addFindRequests ln (RequestQueue.create α) calls).GetNoResultRequests =
      ((((calls.map (requestResult ln)).drop (calls.length - min calls.length 1440)).countP
        (fun res => res.isEmpty) : Nat) : Int) ∧
    0 ≤ (addFindRequests ln (RequestQueue.create α) calls).GetNoResultRequests ∧
    (addFindRequests ln (RequestQueue.create α) calls).GetNoResultRequests ≤ 1440 := by
  obtain ⟨_, h2, _, h4⟩ := addFindRequests_spec ln calls
    (fun c hc => ⟨(hcalls c hc).1.inv, (hcalls c hc).2⟩) hcount
  have hsub : calls.length - min calls.length 1440 = calls.length - 1440 := by omega
  have hlen : (addFindRequests ln (RequestQueue.create α) calls).requests_.length =
      min calls.length 1440 := by
    have := congrArg List.length h2
    rw [List.length_map, List.length_drop, List.length_map] at this
    omega
  have hcp : (addFindRequests ln (RequestQueue.create α) calls).requests_.countP
      (fun x => x.matched_documents.isEmpty) =
      ((calls.map (requestResult ln)).drop (calls.length - 1440)).countP
        (fun res => res.isEmpty) := by
    rw [← h2, List.countP_map]
    rfl
  have hle := List.countP_le_length (fun x : QueryResult α => x.matched_documents.isEmpty)
    (l := (addFindRequests ln (RequestQueue.create α) calls).requests_)
  refine ⟨?_, hlen, by rw [hsub]; exact h2, ?_, ?_, ?_⟩
  · intro call hc q
    obtain ⟨res, hres, _⟩ := FindTopDocuments_returns ln (hcalls call hc).1.inv call.2.1
      (hcalls call hc).2 call.2.2
    refine ⟨?_, ?_⟩
    · simp only [RequestQueue.AddFindRequest, hres]
    · simp only [requestResult, hres]
  · rw [hsub, ← hcp]
    exact h4
  · unfold RequestQueue.GetNoResultRequests
    rw [h4]
    omega
  · unfold RequestQueue.GetNoResultRequests
    rw [h4]
    omega

theorem C24_request_window_witness :
    (∀ call ∈ [((exampleServer, "cat".toList, fun _ _ _ => true) : FindRequest ℚ),
        (exampleServer, "dog".toList, fun _ _ _ => true)], ∀ q : RequestQueue ℚ,
      (q.AddFindRequest (fun x : ℚ => x - 1) call.1 call.2.1 call.2.2).1 =
        FindTopDocuments (fun x : ℚ => x - 1) call.1 call.2.1 call.2.2 ∧
      FindTopDocuments (fun x : ℚ => x - 1) call.1 call.2.1 call.2.2 =
        .ok (requestResult (fun x : ℚ => x - 1) call)) ∧
    (addFindRequests (fun x : ℚ => x - 1) (RequestQueue.create ℚ)
      [((exampleServer, "cat".toList, fun _ _ _ => true) : FindRequest ℚ),
        (exampleServer, "dog".toList, fun _ _ _ => true)]).requests_.length =
      min [((exampleServer, "cat".toList, fun _ _ _ => true) : FindRequest ℚ),
        (exampleServer, "dog".toList, fun _ _ _ => true)].length 1440 ∧
    (addFindRequests (fun x : ℚ => x - 1) (RequestQueue.create ℚ)
      [((exampleServer, "cat".toList, fun _ _ _ => true) : FindRequest ℚ),
        (exampleServer, "dog".toList, fun _ _ _ => true)]).requests_.map
      (fun x => x.matched_documents) =
      ([((exampleServer, "cat".toList, fun _ _ _ => true) : FindRequest ℚ),
        (exampleServer, "dog".toList, fun _ _ _ => true)].map
          (requestResult (fun x : ℚ => x - 1))).drop
        ([((exampleServer, "cat".toList, fun _ _ _ => true) : FindRequest ℚ),
          (exampleServer, "dog".toList, fun _ _ _ => true)].length -
          min [((exampleServer, "cat".toList, fun _ _ _ => true) : FindRequest ℚ),
            (exampleServer, "dog".toList, fun _ _ _ => true)].length 1440) ∧
    (addFindRequests (fun x : ℚ => x - 1) (RequestQueue.create ℚ)
      [((exampleServer, "cat".toList, fun _ _ _ => true) : FindRequest ℚ),
        (exampleServer, "dog".toList, fun _ _ _ => true)]).GetNoResultRequests =
      (((([((exampleServer, "cat".toList, fun _ _ _ => true) : FindRequest ℚ),
        (exampleServer, "dog".toList, fun _ _ _ => true)].map
          (requestResult (fun x : ℚ => x - 1))).drop
        ([((exampleServer, "cat".toList, fun _ _ _ => true) : FindRequest ℚ),
          (exampleServer, "dog".toList, fun _ _ _ => true)].length -
          min [((exampleServer, "cat".toList, fun _ _ _ => true) : FindRequest ℚ),
            (exampleServer, "dog".toList, fun _ _ _ => true)].length 1440)).countP
        (fun res => res.isEmpty) : Nat) : Int) ∧
    0 ≤ (addFindRequests (fun x : ℚ => x - 1) (RequestQueue.create ℚ)
      [((exampleServer, "cat".toList, fun _ _ _ => true) : FindRequest ℚ),
        (exampleServer, "dog".toList, fun _ _ _ => true)]).GetNoResultRequests ∧
    (addFindRequests (fun x : ℚ => x - 1) (RequestQueue.create ℚ)
      [((exampleServer, "cat".toList, fun _ _ _ => true) : FindRequest ℚ),
        (exampleServer, "dog".toList, fun _ _ _ => true)]).GetNoResultRequests ≤ 1440 :=
  C24_request_window (fun x : ℚ => x - 1)
    [((exampleServer, "cat".toList, fun _ _ _ => true) : FindRequest ℚ),
      (exampleServer, "dog".toList, fun _ _ _ => true)]
    (by
      intro call hc
      simp only [List.mem_cons, List.mem_singleton, List.not_mem_nil, or_false] at hc
      rcases hc with rfl | rfl
      · exact ⟨exampleServer_reachable,
          fun hm => absurd ((ParseQuery_error_iff exampleServer _).2 hm) (by decide!)⟩
      · exact ⟨exampleServer_reachable,
          fun hm => absurd ((ParseQuery_error_iff exampleServer _).2 hm) (by decide!)⟩)
    (by decide)

/-- C21, counterexample: document 2 `cat dog` is added first and document 1
`dog cat cat`, with the same set of words, second; `RemoveDuplicates` removes
document 2, which was added earlier, and keeps document 1, which was added
later. -/
theorem C21_duplicate_added_earlier_is_removed :
    (AddDocument (SearchServer.fresh ℚ []) 2 "cat dog".toList .ACTUAL [1]).1 = .ok () ∧
    (AddDocument (AddDocument (SearchServer.fresh ℚ []) 2 "cat dog".toList .ACTUAL [1]).2
      1 "dog cat cat".toList .ACTUAL [1]).1 = .ok () ∧
    swappedServer.id_list_ = [1, 2] ∧
    swappedServer.documents_texts_ = ["cat dog".toList, "dog cat cat".toList] ∧
    (RemoveDuplicates swappedServer).1 = .ok () ∧
    (RemoveDuplicates swappedServer).2.id_list_ = [1] ∧
    (RemoveDuplicates swappedServer).2.documents_.keys = [1] ∧
    (RemoveDuplicates swappedServer).2.words_freqs_in_document.keys = [1] := by
  decide!

/-- C21, amended: on a reachable server whose duplicates (live documents
with the set of non-stop words of a live document with a smaller id) all have
a non-stop word, `RemoveDuplicates` returns normally and removes exactly the
duplicates: of the documents with one set of words the one with the smallest
id stays, whatever the order of the additions; the other documents keep their
words and their records. -/
theorem C21_duplicates_keep_smallest_id {s : SearchServer α} (h : Reachable s)
    (hwords : ∀ id ∈ s.id_list_, isDuplicate s id →
      s.words_freqs_in_document.contains id = true) :
    (RemoveDuplicates s).1 = .ok () ∧
    (∀ id, id ∈ (RemoveDuplicates s).2.id_list_ ↔ id ∈ s.id_list_ ∧ ¬ isDuplicate s id) ∧
    (∀ id ∈ s.id_list_, isDuplicate s id →
      (RemoveDuplicates s).2.documents_.find? id = none ∧
      GetWordFrequencies (RemoveDuplicates s).2 id = []) ∧
    (∀ id, ¬ (id ∈ s.id_list_ ∧ isDuplicate s id) →
      (RemoveDuplicates s).2.documents_.find? id = s.documents_.find? id ∧
      GetWordFrequencies (RemoveDuplicates s).2 id = GetWordFrequencies s id) := by
  have hinv := h.inv
  obtain ⟨g1, _, g3, g4, g5⟩ := removeDocuments_spec (collectDuplicates s s.id_list_ [] [])
    hinv (collectDuplicates_nodup hinv)
    (fun id hid => hwords id ((mem_collectDuplicates hinv id).1 hid).1
      ((mem_collectDuplicates hinv id).1 hid).2)
  refine ⟨g1, fun id => ?_, fun id hid hdup => ?_, fun id hnot => ?_⟩
  · show id ∈ (removeDocuments _ s).2.id_list_ ↔ _
    rw [g3, mem_collectDuplicates hinv]
    tauto
  · have hmem : id ∈ collectDuplicates s s.id_list_ [] [] :=
      (mem_collectDuplicates hinv id).2 ⟨hid, hdup⟩
    refine ⟨?_, ?_⟩
    · show (removeDocuments _ s).2.documents_.find? id = none
      rw [g5, if_pos hmem]
    · show GetWordFrequencies (removeDocuments _ s).2 id = []
      unfold GetWordFrequencies
      rw [g4, if_pos hmem]
  · have hmem : id ∉ collectDuplicates s s.id_list_ [] [] :=
      fun hm => hnot ((mem_collectDuplicates hinv id).1 hm)
    refine ⟨?_, ?_⟩
    · show (removeDocuments _ s).2.documents_.find? id = _
      rw [g5, if_neg hmem]
    · show GetWordFrequencies (removeDocuments _ s).2 id = _
      unfold GetWordFrequencies
      rw [g4, if_neg hmem]

theorem C21_duplicates_keep_smallest_id_witness :
    (RemoveDuplicates swappedServer).1 = .ok () ∧
    (∀ id, id ∈ (RemoveDuplicates swappedServer).2.id_list_ ↔
      id ∈ swappedServer.id_list_ ∧ ¬ isDuplicate swappedServer id) ∧
    (∀ id ∈ swappedServer.id_list_, isDuplicate swappedServer id →
      (RemoveDuplicates swappedServer).2.documents_.find? id = none ∧
      GetWordFrequencies (RemoveDuplicates swappedServer).2 id = []) ∧
    (∀ id, ¬ (id ∈ swappedServer.id_list_ ∧ isDuplicate swappedServer id) →
      (RemoveDuplicates swappedServer).2.documents_.find? id =
        swappedServer.documents_.find? id ∧
      GetWordFrequencies (RemoveDuplicates swappedServer).2 id =
        GetWordFrequencies swappedServer id) :=
  C21_duplicates_keep_smallest_id
    (Reachable.add _ _ _ _ (Reachable.add _ _ _ _ (Reachable.init _)))
    (by
      intro id hid _
      have hids : swappedServer.id_list_ = [1, 2] := by decide!
      rw [hids] at hid
      simp only [List.mem_cons, List.mem_singleton, List.not_mem_nil, or_false] at hid
      rcases hid with rfl | rfl
      · decide!
      · decide!)

end Claims

end SearchServerModel
